import Mathlib

/-!
# Indexed priority queue (`src/pqueue.cpp`)

Shallow embedding of the class `pqueue` and of its member functions, followed by
the invariants of the data structure and the properties of its public interface.

Modelling conventions.

* Priorities (`double` in the source) are taken from an arbitrary type with a
  linear order and are compared with the order's `<` and `>`.
* `vector::at` is range checked and dereferencing a null `Node*` is undefined, so
  every member function is a function into `Option`: the value `none` stands for an
  access that fails (index out of range, null entry dereferenced) or for a loop that
  exhausts its iteration budget.
* Slot numbers and `firstEmpty` are natural numbers (`firstEmpty` starts at `1` and
  is decremented only when an entry is removed). Identifiers are `Int`, as the
  public functions accept negative values and reject them.
* Arithmetic on `int` is modelled on unbounded numbers: the largest value computed is
  `spot * 2 + 1` with `spot ≤ cap`, which does not overflow a 32-bit `int` while the
  capacity is below `2^30`.
* A function with "out" parameters returns the values written to them inside an inner
  `Option`: `none` is the result `false`.
-/

namespace PQueue

/-! ## Data model -/

/-- Entry of the slot store: `struct Node { double priority; int id; }`. -/
structure Node (α : Type) where
  priority : α
  id : Int
deriving DecidableEq, Repr

/-- Data members of `class pqueue`: `min`, `cap`, `firstEmpty`, `heap`, `ids`.
A `nullptr` entry of `heap` is `none`. -/
structure pqueue (α : Type) where
  min : Bool
  cap : Nat
  firstEmpty : Nat
  heap : List (Option (Node α))
  ids : List Nat
deriving DecidableEq, Repr

variable {α : Type}

/-- Constructor `pqueue(int capacity, bool min_heap)`: `heap` gets `cap + 1` null
entries, `ids` gets `cap` zeroes, `firstEmpty` is `1`. -/
def construct (capacity : Nat) (min_heap : Bool) : pqueue α :=
  { min := min_heap
    cap := capacity
    firstEmpty := 1
    heap := List.replicate (capacity + 1) none
    ids := List.replicate capacity 0 }

/-! ## Checked accesses -/

/-- Read of the pointer `heap.at(k)`; fails when `k` is out of range. -/
def heapPtr (q : pqueue α) (k : Nat) : Option (Option (Node α)) :=
  q.heap[k]?

/-- Read through the pointer, `heap.at(k)->...`; fails when `k` is out of range or
the slot is null. -/
def heapAt (q : pqueue α) (k : Nat) : Option (Node α) :=
  (q.heap[k]?).join

/-- Assignment `heap.at(k) = v`; fails when `k` is out of range. -/
def heapSet (q : pqueue α) (k : Nat) (v : Option (Node α)) : Option (pqueue α) :=
  if k < q.heap.length then some { q with heap := q.heap.set k v } else none

/-- Read `ids.at(i)`; fails when `i` is out of range (a negative `int` converts to a
huge unsigned index). -/
def idsAt (q : pqueue α) (i : Int) : Option Nat :=
  if i < 0 then none else q.ids[i.toNat]?

/-- Assignment `ids.at(i) = v`; fails when `i` is out of range. -/
def idsSet (q : pqueue α) (i : Int) (v : Nat) : Option (pqueue α) :=
  if 0 ≤ i ∧ i.toNat < q.ids.length then some { q with ids := q.ids.set i.toNat v } else none

/-- Assignment `heap.at(k)->priority = p`; fails when the slot is out of range or
null. -/
def setPriority (q : pqueue α) (k : Nat) (p : α) : Option (pqueue α) :=
  match heapAt q k with
  | none => none
  | some nd => heapSet q k (some { nd with priority := p })

/-! ## Member functions -/

section Code

variable [LinearOrder α]

/-- The `while` loop of `perc_up_min`. The first argument bounds the number of
evaluations of the loop condition; the result is the state and the final `spot`. -/
def perc_up_min_loop : Nat → pqueue α → Nat → Option (pqueue α × Nat)
  | 0, _, _ => none
  | fuel + 1, q, spot =>
    if spot / 2 > 0 then
      (heapAt q spot).bind fun a =>
      (heapAt q (spot / 2)).bind fun b =>
      if a.priority < b.priority then
        (heapPtr q (spot / 2)).bind fun temp =>
        (heapAt q (spot / 2)).bind fun old =>
        (idsSet q old.id spot).bind fun q1 =>
        (heapPtr q1 spot).bind fun cur =>
        (heapSet q1 (spot / 2) cur).bind fun q2 =>
        (heapSet q2 spot temp).bind fun q3 =>
        perc_up_min_loop fuel q3 (spot / 2)
      else some (q, spot)
    else some (q, spot)

/-- Member `perc_up_min(spot, id)`: the loop, then `ids.at(id) = spot`. -/
def perc_up_min (q : pqueue α) (spot : Nat) (id : Int) : Option (pqueue α) :=
  (perc_up_min_loop (spot + 1) q spot).bind fun r => idsSet r.1 id r.2

/-- The `while` loop of `perc_up_max`. -/
def perc_up_max_loop : Nat → pqueue α → Nat → Option (pqueue α × Nat)
  | 0, _, _ => none
  | fuel + 1, q, spot =>
    if spot / 2 > 0 then
      (heapAt q spot).bind fun a =>
      (heapAt q (spot / 2)).bind fun b =>
      if a.priority > b.priority then
        (heapPtr q (spot / 2)).bind fun temp =>
        (heapAt q (spot / 2)).bind fun old =>
        (idsSet q old.id spot).bind fun q1 =>
        (heapPtr q1 spot).bind fun cur =>
        (heapSet q1 (spot / 2) cur).bind fun q2 =>
        (heapSet q2 spot temp).bind fun q3 =>
        perc_up_max_loop fuel q3 (spot / 2)
      else some (q, spot)
    else some (q, spot)

/-- Member `perc_up_max(spot, id)`. -/
def perc_up_max (q : pqueue α) (spot : Nat) (id : Int) : Option (pqueue α) :=
  (perc_up_max_loop (spot + 1) q spot).bind fun r => idsSet r.1 id r.2

/-- The test `firstEmpty != 1 && min && priority < heap.at(firstEmpty / 2)->priority`
of `insert`. -/
def ins_test_min (q : pqueue α) (priority : α) : Option Bool :=
  if q.firstEmpty ≠ 1 ∧ q.min = true then
    (heapAt q (q.firstEmpty / 2)).bind fun par => some (decide (priority < par.priority))
  else some false

/-- The test `firstEmpty != 1 && !min && priority > heap.at(firstEmpty / 2)->priority`
of `insert`. -/
def ins_test_max (q : pqueue α) (priority : α) : Option Bool :=
  if q.firstEmpty ≠ 1 ∧ q.min = false then
    (heapAt q (q.firstEmpty / 2)).bind fun par => some (decide (priority > par.priority))
  else some false

/-- Member `insert(id, priority)`. -/
def insert (q : pqueue α) (id : Int) (priority : α) : Option (pqueue α × Bool) :=
  if id ≥ q.cap ∨ id < 0 then some (q, false) else
  (idsAt q id).bind fun cur =>
  if cur ≠ 0 then some (q, false) else
  (heapSet q q.firstEmpty (some { priority := priority, id := id })).bind fun q1 =>
  (idsSet q1 id q1.firstEmpty).bind fun q2 =>
  ((ins_test_min q2 priority).bind fun up =>
    if up then perc_up_min q2 q2.firstEmpty id else
    (ins_test_max q2 priority).bind fun up2 =>
    if up2 then perc_up_max q2 q2.firstEmpty id else some q2).bind fun q3 =>
  some ({ q3 with firstEmpty := q3.firstEmpty + 1 }, true)

/-- The test `(spot * 2) + 1 < firstEmpty && (heap.at(spot)->priority >
heap.at(spot * 2)->priority || heap.at(spot)->priority > heap.at((spot * 2) + 1)->priority)`
of `change_priority` and `perc_down_min`, with the short-circuit evaluation of `&&`
and `||`. -/
def down_test_min (q : pqueue α) (spot : Nat) : Option Bool :=
  if spot * 2 + 1 < q.firstEmpty then
    (heapAt q spot).bind fun a =>
    (heapAt q (spot * 2)).bind fun l =>
    if a.priority > l.priority then some true else
    (heapAt q spot).bind fun a2 =>
    (heapAt q (spot * 2 + 1)).bind fun r =>
    some (decide (a2.priority > r.priority))
  else some false

/-- The same test of the max branch and of `perc_down_max`, with `<`. -/
def down_test_max (q : pqueue α) (spot : Nat) : Option Bool :=
  if spot * 2 + 1 < q.firstEmpty then
    (heapAt q spot).bind fun a =>
    (heapAt q (spot * 2)).bind fun l =>
    if a.priority < l.priority then some true else
    (heapAt q spot).bind fun a2 =>
    (heapAt q (spot * 2 + 1)).bind fun r =>
    some (decide (a2.priority < r.priority))
  else some false

/-- The test `spot * 2 == firstEmpty - 1 && heap.at(spot)->priority >
heap.at(spot * 2)->priority` for a lone last child (min version). -/
def lone_test_min (q : pqueue α) (spot : Nat) : Option Bool :=
  if spot * 2 = q.firstEmpty - 1 then
    (heapAt q spot).bind fun a =>
    (heapAt q (spot * 2)).bind fun l =>
    some (decide (a.priority > l.priority))
  else some false

/-- The lone-child test of the max version, with `<`. -/
def lone_test_max (q : pqueue α) (spot : Nat) : Option Bool :=
  if spot * 2 = q.firstEmpty - 1 then
    (heapAt q spot).bind fun a =>
    (heapAt q (spot * 2)).bind fun l =>
    some (decide (a.priority < l.priority))
  else some false

/-- The exchange of slot `spot` with its lone child `spot * 2`, as written in
`change_priority`, `perc_down_min` and `perc_down_max`: `oldID = heap.at(spot * 2)->id;
ids.at(oldID) = spot; ids.at(id) = spot * 2;` then the two pointers are exchanged
through `temp`. (`change_priority` reads `temp` first; the reads do not interfere with
the two writes to `ids`.) -/
def lone_swap (q : pqueue α) (spot : Nat) (id : Int) : Option (pqueue α) :=
  (heapAt q (spot * 2)).bind fun old =>
  (idsSet q old.id spot).bind fun q1 =>
  (idsSet q1 id (spot * 2)).bind fun q2 =>
  (heapPtr q2 (spot * 2)).bind fun temp =>
  (heapPtr q2 spot).bind fun cur =>
  (heapSet q2 (spot * 2) cur).bind fun q3 =>
  heapSet q3 spot temp

/-- The `while` loop of `perc_down_min`; the result is the state and the final
`spot`. -/
def perc_down_min_loop : Nat → pqueue α → Nat → Int → Option (pqueue α × Nat)
  | 0, _, _, _ => none
  | fuel + 1, q, spot, id =>
    (down_test_min q spot).bind fun c =>
    if c then
      (heapAt q (spot * 2)).bind fun l =>
      (heapAt q (spot * 2 + 1)).bind fun r =>
      let swap := if l.priority < r.priority then spot * 2 else spot * 2 + 1
      (heapAt q swap).bind fun old =>
      (idsSet q old.id spot).bind fun q1 =>
      (idsSet q1 id swap).bind fun q2 =>
      (heapPtr q2 swap).bind fun temp =>
      (heapPtr q2 spot).bind fun cur =>
      (heapSet q2 swap cur).bind fun q3 =>
      (heapSet q3 spot temp).bind fun q4 =>
      perc_down_min_loop fuel q4 swap id
    else some (q, spot)

/-- Member `perc_down_min(spot, id)`: the loop, the lone-child step, then
`ids.at(id) = spot`. -/
def perc_down_min (q : pqueue α) (spot : Nat) (id : Int) : Option (pqueue α) :=
  (perc_down_min_loop (q.firstEmpty + 1) q spot id).bind fun r =>
  (lone_test_min r.1 r.2).bind fun c =>
  if c then (lone_swap r.1 r.2 id).bind fun q1 => idsSet q1 id (r.2 * 2)
  else idsSet r.1 id r.2

/-- The `while` loop of `perc_down_max`. -/
def perc_down_max_loop : Nat → pqueue α → Nat → Int → Option (pqueue α × Nat)
  | 0, _, _, _ => none
  | fuel + 1, q, spot, id =>
    (down_test_max q spot).bind fun c =>
    if c then
      (heapAt q (spot * 2)).bind fun l =>
      (heapAt q (spot * 2 + 1)).bind fun r =>
      let swap := if l.priority > r.priority then spot * 2 else spot * 2 + 1
      (heapAt q swap).bind fun old =>
      (idsSet q old.id spot).bind fun q1 =>
      (idsSet q1 id swap).bind fun q2 =>
      (heapPtr q2 swap).bind fun temp =>
      (heapPtr q2 spot).bind fun cur =>
      (heapSet q2 swap cur).bind fun q3 =>
      (heapSet q3 spot temp).bind fun q4 =>
      perc_down_max_loop fuel q4 swap id
    else some (q, spot)

/-- Member `perc_down_max(spot, id)`. -/
def perc_down_max (q : pqueue α) (spot : Nat) (id : Int) : Option (pqueue α) :=
  (perc_down_max_loop (q.firstEmpty + 1) q spot id).bind fun r =>
  (lone_test_max r.1 r.2).bind fun c =>
  if c then (lone_swap r.1 r.2 id).bind fun q1 => idsSet q1 id (r.2 * 2)
  else idsSet r.1 id r.2

/-- The test `spot != 1 && heap.at(spot)->priority < heap.at(spot / 2)->priority` of
the min branch of `change_priority`. -/
def up_test_min (q : pqueue α) (spot : Nat) : Option Bool :=
  if spot ≠ 1 then
    (heapAt q spot).bind fun a =>
    (heapAt q (spot / 2)).bind fun b =>
    some (decide (a.priority < b.priority))
  else some false

/-- The test `spot != 1 && heap.at(spot)->priority > heap.at(spot / 2)->priority` of
the max branch of `change_priority`. -/
def up_test_max (q : pqueue α) (spot : Nat) : Option Bool :=
  if spot ≠ 1 then
    (heapAt q spot).bind fun a =>
    (heapAt q (spot / 2)).bind fun b =>
    some (decide (a.priority > b.priority))
  else some false

/-- Member `change_priority(id, new_priority)`. -/
def change_priority (q : pqueue α) (id : Int) (new_priority : α) :
    Option (pqueue α × Bool) :=
  if id ≥ q.cap ∨ id < 0 then some (q, false) else
  (idsAt q id).bind fun spot =>
  if spot = 0 then some (q, false) else
  (setPriority q spot new_priority).bind fun q1 =>
  (if q1.min = true then
      (up_test_min q1 spot).bind fun up =>
      if up then perc_up_min q1 spot id else
      (down_test_min q1 spot).bind fun down =>
      if down then perc_down_min q1 spot id else
      (lone_test_min q1 spot).bind fun lone =>
      if lone then lone_swap q1 spot id else some q1
    else
      (up_test_max q1 spot).bind fun up =>
      if up then perc_up_max q1 spot id else
      (down_test_max q1 spot).bind fun down =>
      if down then perc_down_max q1 spot id else
      (lone_test_max q1 spot).bind fun lone =>
      if lone then lone_swap q1 spot id else some q1).bind fun q2 =>
  some (q2, true)

/-- Member `remove_by_id(id)`. -/
def remove_by_id (q : pqueue α) (id : Int) : Option (pqueue α × Bool) :=
  if id ≥ q.cap ∨ id < 0 then some (q, false) else
  (idsAt q id).bind fun spot =>
  if spot = 0 then some (q, false) else
  if spot = q.firstEmpty - 1 then
    let q1 := { q with firstEmpty := q.firstEmpty - 1 }
    (idsAt q1 id).bind fun k =>
    (heapPtr q1 k).bind fun _ =>
    (heapSet q1 k none).bind fun q2 =>
    (idsSet q2 id 0).bind fun q3 =>
    some (q3, true)
  else
    (heapAt q (q.firstEmpty - 1)).bind fun last =>
    (idsSet q id 0).bind fun q1 =>
    (idsSet q1 last.id spot).bind fun q2 =>
    (heapPtr q2 spot).bind fun _ =>
    (heapPtr q2 (q2.firstEmpty - 1)).bind fun moved =>
    (heapSet q2 spot moved).bind fun q3 =>
    (heapSet q3 (q3.firstEmpty - 1) none).bind fun q4 =>
    (change_priority { q4 with firstEmpty := q4.firstEmpty - 1 } last.id last.priority).bind
      fun r => some (r.1, true)

/-- Member `get_priority(id, priority)`: `none` inside is the result `false`. -/
def get_priority (q : pqueue α) (id : Int) : Option (Option α) :=
  if id ≥ q.cap ∨ id < 0 then some none else
  (idsAt q id).bind fun spot =>
  if spot = 0 then some none else
  (heapAt q spot).bind fun nd => some (some nd.priority)

/-- Member `peek_top(id, priority)`. -/
def peek_top (q : pqueue α) : Option (Option (Int × α)) :=
  if q.firstEmpty = 1 then some none else
  (heapAt q 1).bind fun nd => some (some (nd.id, nd.priority))

/-- Member `delete_top(id, priority)`: the new state and the values written to the
"out" parameters. -/
def delete_top (q : pqueue α) : Option (pqueue α × Option (Int × α)) :=
  if q.firstEmpty = 1 then some (q, none) else
  (heapAt q 1).bind fun nd =>
  (remove_by_id q nd.id).bind fun r =>
  some (r.1, some (nd.id, nd.priority))

/-- Member `capacity()`. -/
def capacity (q : pqueue α) : Nat := q.cap

/-- Member `size()`: `firstEmpty - 1`. -/
def size (q : pqueue α) : Nat := q.firstEmpty - 1

end Code

/-! ## Specification vocabulary -/

section Vocabulary

variable [LinearOrder α]

/-- Strict comparison in the direction of the queue: `a` goes before `b`
(`a < b` for a min-heap, `a > b` for a max-heap). -/
def ordLt (m : Bool) (a b : α) : Prop := if m = true then a < b else b < a

/-- Weak comparison in the direction of the queue: `a` is not after `b`
(`a ≤ b` for a min-heap, `a ≥ b` for a max-heap). -/
def ordLe (m : Bool) (a b : α) : Prop := if m = true then a ≤ b else b ≤ a

instance ordLtDecidable (m : Bool) (a b : α) : Decidable (ordLt m a b) := by
  unfold ordLt; infer_instance

instance ordLeDecidable (m : Bool) (a b : α) : Decidable (ordLe m a b) := by
  unfold ordLe; infer_instance

/-- The loop of `perc_up_min` or of `perc_up_max`, selected by the direction. -/
def perc_up_loop (m : Bool) : Nat → pqueue α → Nat → Option (pqueue α × Nat) :=
  match m with
  | true => perc_up_min_loop
  | false => perc_up_max_loop

/-- Member `perc_up_min` or `perc_up_max`, selected by the direction. -/
def perc_up (m : Bool) : pqueue α → Nat → Int → Option (pqueue α) :=
  match m with
  | true => perc_up_min
  | false => perc_up_max

/-- The loop of `perc_down_min` or of `perc_down_max`, selected by the direction. -/
def perc_down_loop (m : Bool) : Nat → pqueue α → Nat → Int → Option (pqueue α × Nat) :=
  match m with
  | true => perc_down_min_loop
  | false => perc_down_max_loop

/-- Member `perc_down_min` or `perc_down_max`, selected by the direction. -/
def perc_down (m : Bool) : pqueue α → Nat → Int → Option (pqueue α) :=
  match m with
  | true => perc_down_min
  | false => perc_down_max

/-- The two-children test of `change_priority`, `perc_down_min` and `perc_down_max`,
selected by the direction. -/
def down_test (m : Bool) : pqueue α → Nat → Option Bool :=
  match m with
  | true => down_test_min
  | false => down_test_max

/-- The lone-child test, selected by the direction. -/
def lone_test (m : Bool) : pqueue α → Nat → Option Bool :=
  match m with
  | true => lone_test_min
  | false => lone_test_max

/-- The parent test of `change_priority`, selected by the direction. -/
def up_test (m : Bool) : pqueue α → Nat → Option Bool :=
  match m with
  | true => up_test_min
  | false => up_test_max

/-- The code of `change_priority` that follows the assignment of the new priority:
the parent test and `perc_up`, else the two-children test and `perc_down`, else the
lone-child test and the exchange with the lone child. -/
def fixup (m : Bool) (q : pqueue α) (spot : Nat) (id : Int) : Option (pqueue α) :=
  (up_test m q spot).bind fun up =>
  if up then perc_up m q spot id else
  (down_test m q spot).bind fun down =>
  if down then perc_down m q spot id else
  (lone_test m q spot).bind fun lone =>
  if lone then lone_swap q spot id else some q

end Vocabulary

/-- Entry found in slot `k` of a slot store: `none` when `k` is out of range or the
slot is null. -/
def look (h : List (Option (Node α))) (k : Nat) : Option (Node α) :=
  (h[k]?).join

/-- Slot store in which the entries `a` (found in slot `x`) and `b` (found in slot `y`)
have traded places. -/
def swapHeap (h : List (Option (Node α))) (x y : Nat) (a b : Node α) :
    List (Option (Node α)) :=
  (h.set y (some a)).set x (some b)

/-- State reached from `q` when the entries `a` (in slot `x`, identifier `ia`) and `b`
(in slot `y`, identifier `ib`) trade places and the position index follows. -/
def swapState (q : pqueue α) (x y : Nat) (a b : Node α) (ia ib : Nat) : pqueue α :=
  { q with
    heap := swapHeap q.heap x y a b
    ids := (q.ids.set ib x).set ia y }

/-- Structural invariant of a queue whose occupied slots are `1..n`: sizes of the two
vectors, density of the slot store, and agreement of the position index with the slot
store in both directions. -/
structure Good (q : pqueue α) (n : Nat) : Prop where
  heap_len : q.heap.length = q.cap + 1
  ids_len : q.ids.length = q.cap
  le_cap : n ≤ q.cap
  slot : ∀ s, 1 ≤ s → s ≤ n →
    ∃ nd : Node α, ∃ i : Nat, look q.heap s = some nd ∧ nd.id = (i : Int) ∧ q.ids[i]? = some s
  index : ∀ (i s : Nat), q.ids[i]? = some s → s ≠ 0 →
    s ≤ n ∧ ∃ nd : Node α, look q.heap s = some nd ∧ nd.id = (i : Int)
  empty : ∀ s, s = 0 ∨ n < s → look q.heap s = none

/-- State of `insert` after the new entry is written to slot `firstEmpty` and its
position is recorded, before any sifting. -/
def pushState (q : pqueue α) (i : Nat) (p : α) : pqueue α :=
  { q with
    heap := q.heap.set q.firstEmpty (some { priority := p, id := (i : Int) })
    ids := q.ids.set i q.firstEmpty }

/-- State of `remove_by_id` when the removed identifier `i` sits in the last occupied
slot `x`. -/
def popState (q : pqueue α) (i x : Nat) : pqueue α :=
  { q with
    firstEmpty := q.firstEmpty - 1
    heap := q.heap.set x none
    ids := q.ids.set i 0 }

/-- State of `remove_by_id` just before its call of `change_priority`: the entry
`last` of the last occupied slot (identifier `il`) has been moved to the slot `x` of
the removed identifier `i`. -/
def midState (q : pqueue α) (i x : Nat) (last : Node α) (il : Nat) : pqueue α :=
  { q with
    firstEmpty := q.firstEmpty - 1
    heap := (q.heap.set x (some last)).set (q.firstEmpty - 1) none
    ids := (q.ids.set i 0).set il x }

/-- Entries stored in slots `1..n` of a slot store. -/
def Nodes (h : List (Option (Node α))) (n : Nat) (nd : Node α) : Prop :=
  ∃ s, 1 ≤ s ∧ s ≤ n ∧ look h s = some nd

/-- Heap order between every slot `s` of `2..n` that satisfies `P` and its parent
`s / 2`, in direction `m`. -/
def HeapEx [LinearOrder α] (m : Bool) (h : List (Option (Node α))) (n : Nat)
    (P : Nat → Prop) : Prop :=
  ∀ s c p, 2 ≤ s → s ≤ n → P s → look h s = some c → look h (s / 2) = some p →
    ordLe m p.priority c.priority

/-- Heap order over all of the slots `1..n`. -/
def HeapOrd [LinearOrder α] (m : Bool) (h : List (Option (Node α))) (n : Nat) : Prop :=
  HeapEx m h n (fun _ => True)

/-- Heap order between the parent of slot `x` and the children of slot `x`. -/
def Skip [LinearOrder α] (m : Bool) (h : List (Option (Node α))) (n : Nat) (x : Nat) : Prop :=
  ∀ s c g, 2 ≤ x → s ≤ n → s / 2 = x → look h s = some c → look h (x / 2) = some g →
    ordLe m g.priority c.priority

/-- Representation invariant of the class: `firstEmpty` is positive, the structural
invariant holds with `size()` occupied slots, and the slot store is heap ordered in the
direction `min`. -/
structure Inv [LinearOrder α] (q : pqueue α) : Prop where
  pos : 1 ≤ q.firstEmpty
  good : Good q (size q)
  ord : HeapOrd q.min q.heap (size q)

/-- A call of a public member function, with its arguments. -/
inductive Op (α : Type) where
  | insert (id : Int) (priority : α)
  | change_priority (id : Int) (new_priority : α)
  | remove_by_id (id : Int)
  | get_priority (id : Int)
  | delete_top
  | peek_top
  | capacity
  | size

/-- State after a call of a public member function (`none` when an access of the
call fails). -/
def Op.run [LinearOrder α] : Op α → pqueue α → Option (pqueue α)
  | Op.insert id p, q => (PQueue.insert q id p).map Prod.fst
  | Op.change_priority id p, q => (PQueue.change_priority q id p).map Prod.fst
  | Op.remove_by_id id, q => (PQueue.remove_by_id q id).map Prod.fst
  | Op.get_priority id, q => (PQueue.get_priority q id).map fun _ => q
  | Op.delete_top, q => (PQueue.delete_top q).map Prod.fst
  | Op.peek_top, q => (PQueue.peek_top q).map fun _ => q
  | Op.capacity, q => some q
  | Op.size, q => some q

/-- States reachable from `construct N dir` by a sequence of calls of public member
functions with arbitrary arguments. -/
inductive Reachable [LinearOrder α] (N : Nat) (dir : Bool) : pqueue α → Prop where
  | init : Reachable N dir (construct N dir)
  | step (q q2 : pqueue α) (op : Op α) :
      Reachable N dir q → op.run q = some q2 → Reachable N dir q2

/-- State after a sequence of calls of public member functions. -/
def runOps [LinearOrder α] (q : pqueue α) : List (Op α) → Option (pqueue α)
  | [] => some q
  | op :: ops => (op.run q).bind fun q2 => runOps q2 ops

/-- Calls `insert` for every pair `(id, priority)` of the list, in the order of the
list; the flag is `true` when every call returned `true`. -/
def insert_all [LinearOrder α] (q : pqueue α) : List (Int × α) → Option (pqueue α × Bool)
  | [] => some (q, true)
  | x :: xs =>
    (insert q x.1 x.2).bind fun r =>
    (insert_all r.1 xs).bind fun r2 => some (r2.1, r.2 && r2.2)

/-- Calls `delete_top` `k` times; the list holds the result of every call, in order
(`none` for a call that returned `false`). -/
def delete_n [LinearOrder α] : Nat → pqueue α → Option (pqueue α × List (Option (Int × α)))
  | 0, q => some (q, [])
  | k + 1, q =>
    (delete_top q).bind fun r =>
    (delete_n k r.1).bind fun r2 => some (r2.1, r.2 :: r2.2)

/-- The `while` loop of `perc_up_min` (`m = true`) or of `perc_up_max` (`m = false`)
with a counter: the result is the state, the final `spot` and the number of swaps that
were executed. -/
def perc_up_count [LinearOrder α] (m : Bool) :
    Nat → pqueue α → Nat → Option (pqueue α × Nat × Nat)
  | 0, _, _ => none
  | fuel + 1, q, spot =>
    if spot / 2 > 0 then
      (heapAt q spot).bind fun a =>
      (heapAt q (spot / 2)).bind fun b =>
      if ordLt m a.priority b.priority then
        (heapPtr q (spot / 2)).bind fun temp =>
        (heapAt q (spot / 2)).bind fun old =>
        (idsSet q old.id spot).bind fun q1 =>
        (heapPtr q1 spot).bind fun cur =>
        (heapSet q1 (spot / 2) cur).bind fun q2 =>
        (heapSet q2 spot temp).bind fun q3 =>
        (perc_up_count m fuel q3 (spot / 2)).map fun r => (r.1, r.2.1, r.2.2 + 1)
      else some (q, spot, 0)
    else some (q, spot, 0)

/-- The `while` loop of `perc_down_min` (`m = true`) or of `perc_down_max`
(`m = false`) with a counter: the result is the state, the final `spot` and the number
of swaps that were executed. -/
def perc_down_count_loop [LinearOrder α] (m : Bool) :
    Nat → pqueue α → Nat → Int → Option (pqueue α × Nat × Nat)
  | 0, _, _, _ => none
  | fuel + 1, q, spot, id =>
    (down_test m q spot).bind fun c =>
    if c then
      (heapAt q (spot * 2)).bind fun l =>
      (heapAt q (spot * 2 + 1)).bind fun r =>
      let swap := if ordLt m l.priority r.priority then spot * 2 else spot * 2 + 1
      (heapAt q swap).bind fun old =>
      (idsSet q old.id spot).bind fun q1 =>
      (idsSet q1 id swap).bind fun q2 =>
      (heapPtr q2 swap).bind fun temp =>
      (heapPtr q2 spot).bind fun cur =>
      (heapSet q2 swap cur).bind fun q3 =>
      (heapSet q3 spot temp).bind fun q4 =>
      (perc_down_count_loop m fuel q4 swap id).map fun r => (r.1, r.2.1, r.2.2 + 1)
    else some (q, spot, 0)

/-- Member `perc_down_min` (`m = true`) or `perc_down_max` (`m = false`) with a
counter: the result is the state and the total number of swaps, the exchange with a lone
last child included. -/
def perc_down_count [LinearOrder α] (m : Bool) (q : pqueue α) (spot : Nat) (id : Int) :
    Option (pqueue α × Nat) :=
  (perc_down_count_loop m (q.firstEmpty + 1) q spot id).bind fun r =>
  (lone_test m r.1 r.2.1).bind fun c =>
  if c then
    (lone_swap r.1 r.2.1 id).bind fun q1 =>
    (idsSet q1 id (r.2.1 * 2)).map fun q2 => (q2, r.2.2 + 1)
  else (idsSet r.1 id r.2.1).map fun q2 => (q2, r.2.2)

/-- Values returned by a call of a public member function: the boolean result, and the
values written to the "out" parameters when there are any. -/
inductive Res (α : Type) where
  | flag (b : Bool)
  | prio (r : Option α)
  | top (r : Option (Int × α))
  | num (n : Nat)
deriving DecidableEq, Repr

/-- State and returned values after a call of a public member function (`none` when an
access of the call fails). -/
def Op.exec [LinearOrder α] : Op α → pqueue α → Option (pqueue α × Res α)
  | Op.insert id p, q => (PQueue.insert q id p).map fun r => (r.1, Res.flag r.2)
  | Op.change_priority id p, q =>
    (PQueue.change_priority q id p).map fun r => (r.1, Res.flag r.2)
  | Op.remove_by_id id, q => (PQueue.remove_by_id q id).map fun r => (r.1, Res.flag r.2)
  | Op.get_priority id, q => (PQueue.get_priority q id).map fun r => (q, Res.prio r)
  | Op.delete_top, q => (PQueue.delete_top q).map fun r => (r.1, Res.top r.2)
  | Op.peek_top, q => (PQueue.peek_top q).map fun r => (q, Res.top r)
  | Op.capacity, q => some (q, Res.num (PQueue.capacity q))
  | Op.size, q => some (q, Res.num (PQueue.size q))

/-- Run of a sequence of calls: the state and the returned values after every call, in
order. -/
def trace [LinearOrder α] (q : pqueue α) : List (Op α) → Option (List (pqueue α × Res α))
  | [] => some []
  | op :: ops => (op.exec q).bind fun r => (trace r.1 ops).map fun t => r :: t

/-- Entry with the priority replaced by its image under `f`; the identifier is kept. -/
def Node.mapP (f : α → α) (nd : Node α) : Node α :=
  { priority := f nd.priority, id := nd.id }

/-- Mirror image of a state: the ordering direction is inverted and every stored
priority is replaced by its image under `f`; capacity, `firstEmpty`, the identifier in
every slot and the position index are kept. -/
def mirror (f : α → α) (q : pqueue α) : pqueue α :=
  { min := !q.min
    cap := q.cap
    firstEmpty := q.firstEmpty
    heap := q.heap.map (Option.map (Node.mapP f))
    ids := q.ids }

/-- Call with its priority argument replaced by its image under `f`. -/
def Op.mapP (f : α → α) : Op α → Op α
  | Op.insert id p => Op.insert id (f p)
  | Op.change_priority id p => Op.change_priority id (f p)
  | Op.remove_by_id id => Op.remove_by_id id
  | Op.get_priority id => Op.get_priority id
  | Op.delete_top => Op.delete_top
  | Op.peek_top => Op.peek_top
  | Op.capacity => Op.capacity
  | Op.size => Op.size

/-- Returned values with every priority replaced by its image under `f`; flags,
identifiers and numbers are kept. -/
def Res.mapP (f : α → α) : Res α → Res α
  | Res.flag b => Res.flag b
  | Res.prio r => Res.prio (r.map f)
  | Res.top r => Res.top (r.map fun x => (x.1, f x.2))
  | Res.num n => Res.num n

/-- A min-heap of capacity 3 holding the identifiers 0, 1, 2 with the priorities
5, 3, 8; it is the state after `insert(0, 5)`, `insert(1, 3)`, `insert(2, 8)`. -/
def sampleMin : pqueue Int :=
  { min := true
    cap := 3
    firstEmpty := 4
    heap := [none, some { priority := 3, id := 1 }, some { priority := 5, id := 0 },
      some { priority := 8, id := 2 }]
    ids := [2, 1, 3] }

/-- A max-heap of capacity 4 holding the identifiers 0, 1, 2 with the priorities
5, 3, 8; it is the state after `insert(0, 5)`, `insert(1, 3)`, `insert(2, 8)`. -/
def sampleMax : pqueue Int :=
  { min := false
    cap := 4
    firstEmpty := 4
    heap := [none, some { priority := 8, id := 2 }, some { priority := 3, id := 1 },
      some { priority := 5, id := 0 }, none]
    ids := [3, 2, 1, 0] }

/-! ## Checked accesses: elementary facts -/

theorem look_eq_some (h : List (Option (Node α))) (k : Nat) (nd : Node α) :
    look h k = some nd ↔ h[k]? = some (some nd) := by
  unfold look
  cases e : h[k]? with
  | none => simp
  | some v => cases v <;> simp

theorem look_lt {h : List (Option (Node α))} {k : Nat} {nd : Node α}
    (e : look h k = some nd) : k < h.length := by
  rw [look_eq_some] at e
  exact (List.getElem?_eq_some.mp e).1

theorem look_getElem {h : List (Option (Node α))} {k : Nat} {nd : Node α}
    (e : look h k = some nd) (hk : k < h.length) : h[k] = some nd := by
  rw [look_eq_some] at e
  obtain ⟨_, h2⟩ := List.getElem?_eq_some.mp e
  exact h2

theorem look_set (h : List (Option (Node α))) (k s : Nat) (v : Option (Node α))
    (hk : k < h.length) : look (h.set k v) s = if s = k then v else look h s := by
  unfold look
  simp only [List.getElem?_set]
  by_cases h1 : s = k
  · subst h1; simp [hk]
  · have : ¬ k = s := fun h => h1 h.symm
    simp [h1, this]

theorem heapAt_eq_look (q : pqueue α) (k : Nat) : heapAt q k = look q.heap k := rfl

theorem look_swap (h : List (Option (Node α))) (x y : Nat) (a b : Node α)
    (hx : x < h.length) (hy : y < h.length) (s : Nat) :
    look (swapHeap h x y a b) s =
      if s = x then some b else if s = y then some a else look h s := by
  unfold swapHeap
  rw [look_set _ _ _ _ (by simpa using hx), look_set _ _ _ _ hy]

theorem ids_swap (l : List Nat) (x y : Nat) (ia ib : Nat)
    (ha : ia < l.length) (hb : ib < l.length) (i : Nat) :
    ((l.set ib x).set ia y)[i]? =
      if i = ia then some y else if i = ib then some x else l[i]? := by
  simp only [List.getElem?_set, List.length_set]
  by_cases h1 : i = ia
  · subst h1; simp [ha]
  · have h1b : ¬ ia = i := fun h => h1 h.symm
    by_cases h2 : i = ib
    · subst h2; simp [h1, h1b, hb]
    · have h2b : ¬ ib = i := fun h => h2 h.symm
      simp [h1, h1b, h2, h2b]

/-! ## The structural invariant -/

theorem Good.id_of {q : pqueue α} {n : Nat} (g : Good q n) {s : Nat} {nd : Node α}
    (h1 : 1 ≤ s) (h2 : s ≤ n) (h : look q.heap s = some nd) :
    ∃ i : Nat, nd.id = (i : Int) ∧ q.ids[i]? = some s ∧ i < q.ids.length := by
  obtain ⟨nd2, i, e1, e2, e3⟩ := g.slot s h1 h2
  rw [h] at e1
  cases e1
  exact ⟨i, e2, e3, (List.getElem?_eq_some.mp e3).1⟩

theorem Good.slot_lt {q : pqueue α} {n : Nat} (g : Good q n) {s : Nat} (h2 : s ≤ n) :
    s < q.heap.length := by
  have := g.heap_len
  have := g.le_cap
  omega

theorem Good.inj {q : pqueue α} {n : Nat} (g : Good q n) {s t : Nat} {a b : Node α}
    (hs1 : 1 ≤ s) (hs2 : s ≤ n) (ht1 : 1 ≤ t) (ht2 : t ≤ n)
    (ha : look q.heap s = some a) (hb : look q.heap t = some b) (hid : a.id = b.id) :
    s = t := by
  obtain ⟨i, e1, e2, _⟩ := g.id_of hs1 hs2 ha
  obtain ⟨j, f1, f2, _⟩ := g.id_of ht1 ht2 hb
  have : i = j := by
    have : (i : Int) = (j : Int) := by rw [← e1, ← f1, hid]
    exact_mod_cast this
  subst this
  rw [e2] at f2
  cases f2
  rfl

theorem Good.swap {q : pqueue α} {n : Nat} (g : Good q n) {x y : Nat} {a b : Node α}
    {ia ib : Nat} (hx1 : 1 ≤ x) (hx2 : x ≤ n) (hy1 : 1 ≤ y) (hy2 : y ≤ n) (hxy : x ≠ y)
    (ha : look q.heap x = some a) (hb : look q.heap y = some b)
    (hia : a.id = (ia : Int)) (hib : b.id = (ib : Int)) :
    Good (swapState q x y a b ia ib) n := by
  obtain ⟨ia2, e1, e2, e3⟩ := g.id_of hx1 hx2 ha
  obtain ⟨ib2, f1, f2, f3⟩ := g.id_of hy1 hy2 hb
  have : ia2 = ia := by
    have : (ia2 : Int) = (ia : Int) := by rw [← e1, ← hia]
    exact_mod_cast this
  subst this
  have : ib2 = ib := by
    have : (ib2 : Int) = (ib : Int) := by rw [← f1, ← hib]
    exact_mod_cast this
  subst this
  have hne : ia2 ≠ ib2 := by
    intro h
    subst h
    rw [e2] at f2
    cases f2
    exact hxy rfl
  have hxl := g.slot_lt hx2
  have hyl := g.slot_lt hy2
  have hh : ∀ s, look (swapState q x y a b ia2 ib2).heap s =
      if s = x then some b else if s = y then some a else look q.heap s :=
    look_swap q.heap x y a b hxl hyl
  have hi : ∀ i, (swapState q x y a b ia2 ib2).ids[i]? =
      if i = ia2 then some y else if i = ib2 then some x else q.ids[i]? :=
    ids_swap q.ids x y ia2 ib2 e3 f3
  refine ⟨?_, ?_, ?_, ?_, ?_, ?_⟩
  · simpa [swapState, swapHeap] using g.heap_len
  · simpa [swapState] using g.ids_len
  · simpa [swapState] using g.le_cap
  · intro s hs1 hs2
    by_cases h1 : s = x
    · subst h1
      refine ⟨b, ib2, ?_, hib, ?_⟩
      · rw [hh]; simp
      · rw [hi]; simp [hne.symm]
    · by_cases h2 : s = y
      · subst h2
        refine ⟨a, ia2, ?_, hia, ?_⟩
        · rw [hh]; simp [h1]
        · rw [hi]; simp
      · obtain ⟨nd, i, k1, k2, k3⟩ := g.slot s hs1 hs2
        refine ⟨nd, i, ?_, k2, ?_⟩
        · rw [hh]; simp [h1, h2, k1]
        · rw [hi]
          have n1 : i ≠ ia2 := by
            intro h; subst h; rw [e2] at k3; cases k3; exact h1 rfl
          have n2 : i ≠ ib2 := by
            intro h; subst h; rw [f2] at k3; cases k3; exact h2 rfl
          simp [n1, n2, k3]
  · intro i s hi2 hs
    rw [hi] at hi2
    by_cases h1 : i = ia2
    · subst h1
      simp at hi2
      subst hi2
      refine ⟨hy2, a, ?_, hia⟩
      rw [hh]
      simp [hxy.symm]
    · by_cases h2 : i = ib2
      · subst h2
        simp [h1] at hi2
        subst hi2
        refine ⟨hx2, b, ?_, hib⟩
        rw [hh]
        simp
      · simp [h1, h2] at hi2
        obtain ⟨k1, nd, k2, k3⟩ := g.index i s hi2 hs
        refine ⟨k1, nd, ?_, k3⟩
        rw [hh]
        have n1 : s ≠ x := by
          intro h; subst h; rw [ha] at k2; cases k2
          apply h1
          have : (i : Int) = (ia2 : Int) := by rw [← k3, ← hia]
          exact_mod_cast this
        have n2 : s ≠ y := by
          intro h; subst h; rw [hb] at k2; cases k2
          apply h2
          have : (i : Int) = (ib2 : Int) := by rw [← k3, ← hib]
          exact_mod_cast this
        simp [n1, n2, k2]
  · intro s hs
    rw [hh]
    have n1 : s ≠ x := by omega
    have n2 : s ≠ y := by omega
    simp [n1, n2]
    exact g.empty s hs

theorem Nodes.swap_iff {h : List (Option (Node α))} {n : Nat} {x y : Nat} {a b : Node α}
    (hx1 : 1 ≤ x) (hx2 : x ≤ n) (hy1 : 1 ≤ y) (hy2 : y ≤ n)
    (ha : look h x = some a) (hb : look h y = some b) (nd : Node α) :
    Nodes (swapHeap h x y a b) n nd ↔ Nodes h n nd := by
  have hh := look_swap h x y a b (look_lt ha) (look_lt hb)
  constructor
  · rintro ⟨s, h1, h2, h3⟩
    rw [hh] at h3
    by_cases k1 : s = x
    · simp [k1] at h3; subst h3; exact ⟨y, hy1, hy2, hb⟩
    · by_cases k2 : s = y
      · subst k2
        simp [k1] at h3; subst h3; exact ⟨x, hx1, hx2, ha⟩
      · simp [k1, k2] at h3; exact ⟨s, h1, h2, h3⟩
  · rintro ⟨s, h1, h2, h3⟩
    by_cases k1 : s = x
    · subst k1
      rw [ha] at h3; cases h3
      refine ⟨y, hy1, hy2, ?_⟩
      rw [hh]
      by_cases k : y = s <;> simp [k]
      subst k; rw [ha] at hb; cases hb; rfl
    · by_cases k2 : s = y
      · subst k2
        rw [hb] at h3; cases h3
        refine ⟨x, hx1, hx2, ?_⟩
        rw [hh]
        simp
      · refine ⟨s, h1, h2, ?_⟩
        rw [hh]
        simp [k1, k2, h3]

/-! ## The order in the direction of the queue -/

section Order

variable [LinearOrder α]

theorem ordLe_refl (m : Bool) (a : α) : ordLe m a a := by
  cases m <;> simp [ordLe]

theorem ordLe_trans {m : Bool} {a b c : α} (h1 : ordLe m a b) (h2 : ordLe m b c) :
    ordLe m a c := by
  cases m
  · simp only [ordLe, Bool.false_eq_true, if_false] at *
    exact le_trans h2 h1
  · simp only [ordLe, if_true] at *
    exact le_trans h1 h2

theorem ordLe_of_ordLt {m : Bool} {a b : α} (h : ordLt m a b) : ordLe m a b := by
  cases m
  · simp only [ordLe, ordLt, Bool.false_eq_true, if_false] at *
    exact le_of_lt h
  · simp only [ordLe, ordLt, if_true] at *
    exact le_of_lt h

theorem ordLe_of_not_ordLt {m : Bool} {a b : α} (h : ¬ ordLt m a b) : ordLe m b a := by
  cases m
  · simp only [ordLe, ordLt, Bool.false_eq_true, if_false] at *
    exact not_lt.mp h
  · simp only [ordLe, ordLt, if_true] at *
    exact not_lt.mp h

theorem not_ordLt_of_ordLe {m : Bool} {a b : α} (h : ordLe m b a) : ¬ ordLt m a b := by
  cases m
  · simp only [ordLe, ordLt, Bool.false_eq_true, if_false] at *
    exact not_lt.mpr h
  · simp only [ordLe, ordLt, if_true] at *
    exact not_lt.mpr h

theorem ordLe_antisymm {m : Bool} {a b : α} (h1 : ordLe m a b) (h2 : ordLe m b a) : a = b := by
  cases m
  · simp only [ordLe, Bool.false_eq_true, if_false] at *
    exact le_antisymm h2 h1
  · simp only [ordLe, if_true] at *
    exact le_antisymm h1 h2

end Order

/-! ## Sift-up -/

section Up

variable [LinearOrder α]

theorem perc_up_loop_zero (m : Bool) (q : pqueue α) (x : Nat) :
    perc_up_loop m 0 q x = none := by
  cases m <;> rfl

theorem perc_up_loop_root (m : Bool) (fuel : Nat) (q : pqueue α) (x : Nat) (h : x / 2 = 0) :
    perc_up_loop m (fuel + 1) q x = some (q, x) := by
  cases m <;> simp [perc_up_loop, perc_up_min_loop, perc_up_max_loop, h]

theorem perc_up_loop_succ (m : Bool) (fuel : Nat) (q : pqueue α) (x : Nat)
    (a b : Node α) (ib : Nat) (h0 : 0 < x / 2)
    (ha : look q.heap x = some a) (hb : look q.heap (x / 2) = some b)
    (hib : b.id = (ib : Int)) (hlen : ib < q.ids.length) :
    perc_up_loop m (fuel + 1) q x =
      if ordLt m a.priority b.priority then
        perc_up_loop m fuel
          { q with ids := q.ids.set ib x, heap := swapHeap q.heap x (x / 2) a b }
          (x / 2)
      else some (q, x) := by
  have hx := look_lt ha
  have hp := look_lt hb
  have ha3 := look_getElem ha hx
  have hb3 := look_getElem hb hp
  cases m
  · simp [perc_up_loop, perc_up_max_loop, ordLt, h0, heapAt_eq_look, ha, hb, idsSet, hib, hlen,
      heapPtr, heapSet, hx, hp, ha3, hb3, swapHeap]
  · simp [perc_up_loop, perc_up_min_loop, ordLt, h0, heapAt_eq_look, ha, hb, idsSet, hib, hlen,
      heapPtr, heapSet, hx, hp, ha3, hb3, swapHeap]

theorem HeapEx.up_step {m : Bool} {h : List (Option (Node α))} {n x : Nat} {a b : Node α}
    (hx : 2 ≤ x) (hxn : x ≤ n) (ha : look h x = some a) (hb : look h (x / 2) = some b)
    (hlt : ordLt m a.priority b.priority)
    (h1 : HeapEx m h n (fun s => s ≠ x)) (h2 : Skip m h n x) :
    HeapEx m (swapHeap h x (x / 2) a b) n (fun s => s ≠ x / 2) ∧
      Skip m (swapHeap h x (x / 2) a b) n (x / 2) := by
  have hh := look_swap h x (x / 2) a b (look_lt ha) (look_lt hb)
  have hpx : x / 2 ≠ x := by omega
  constructor
  · intro s c p hs2 hsn hP hc hp
    rw [hh] at hc hp
    by_cases e1 : s = x
    · subst e1
      simp [hpx] at hc hp
      subst hc; subst hp
      exact ordLe_of_ordLt hlt
    · simp only [e1, if_false, hP] at hc
      by_cases e2 : s / 2 = x
      · simp only [e2, if_true] at hp
        cases hp
        exact h2 s c b hx hsn e2 hc hb
      · simp only [e2, if_false] at hp
        by_cases e3 : s / 2 = x / 2
        · simp only [e3, if_true] at hp
          cases hp
          have := h1 s c b hs2 hsn e1 hc (by rw [e3]; exact hb)
          exact ordLe_trans (ordLe_of_ordLt hlt) this
        · simp only [e3, if_false] at hp
          exact h1 s c p hs2 hsn e1 hc hp
  · intro s c g hy2 hsn hs hc hg
    rw [hh] at hc hg
    have k1 : x / 2 / 2 ≠ x := by omega
    have k2 : x / 2 / 2 ≠ x / 2 := by omega
    have k3 : s ≠ x / 2 := by omega
    simp only [k1, k2, if_false] at hg
    have hgb := h1 (x / 2) b g hy2 (by omega) hpx hb hg
    by_cases e1 : s = x
    · subst e1
      simp at hc
      subst hc
      exact hgb
    · simp only [e1, k3, if_false] at hc
      have := h1 s c b (by omega) hsn e1 hc (by rw [hs]; exact hb)
      exact ordLe_trans hgb this

theorem set_set_of_ne (l : List Nat) (ia ib : Nat) (x y : Nat) (hne : ia ≠ ib) :
    ((l.set ia x).set ib x).set ia y = (l.set ib x).set ia y := by
  rw [List.set_comm _ _ _ hne, List.set_set]

theorem perc_up_loop_spec (m : Bool) (n : Nat) (a : Node α) (ia : Nat) (hia : a.id = (ia : Int)) :
    ∀ (fuel : Nat) (q : pqueue α) (x : Nat), x < fuel → 1 ≤ x → x ≤ n →
      look q.heap x = some a → Good { q with ids := q.ids.set ia x } n →
      HeapEx m q.heap n (fun s => s ≠ x) → Skip m q.heap n x →
      ∃ q2 x2, perc_up_loop m fuel q x = some (q2, x2) ∧ 1 ≤ x2 ∧ x2 ≤ n ∧
        look q2.heap x2 = some a ∧ Good { q2 with ids := q2.ids.set ia x2 } n ∧
        HeapOrd m q2.heap n ∧ (∀ nd, Nodes q2.heap n nd ↔ Nodes q.heap n nd) ∧
        q2.min = q.min ∧ q2.cap = q.cap ∧ q2.firstEmpty = q.firstEmpty := by
  intro fuel
  induction fuel with
  | zero => intro q x h; omega
  | succ fuel ih =>
    intro q x hf hx1 hxn ha g h1 h2
    by_cases h0 : x / 2 = 0
    · refine ⟨q, x, perc_up_loop_root m fuel q x h0, hx1, hxn, ha, g, ?_, fun _ => Iff.rfl,
        rfl, rfl, rfl⟩
      intro s c p hs2 hsn _ hc hp
      exact h1 s c p hs2 hsn (by omega) hc hp
    · have hx2 : 2 ≤ x := by omega
      obtain ⟨b, ib, hb, hib, hidx⟩ := g.slot (x / 2) (by omega) (by omega)
      have hb2 : look q.heap (x / 2) = some b := hb
      obtain ⟨ia2, e1, e2, e3⟩ := g.id_of hx1 hxn ha
      have : ia2 = ia := by
        have : (ia2 : Int) = (ia : Int) := by rw [← e1, ← hia]
        exact_mod_cast this
      subst this
      have hne : ia2 ≠ ib := by
        intro h
        subst h
        have := Option.some.inj (e2.symm.trans hidx)
        omega
      have hibl : ib < q.ids.length := by
        have := (List.getElem?_eq_some.mp hidx).1
        simpa using this
      rw [perc_up_loop_succ m fuel q x a b ib (by omega) ha hb2 hib hibl]
      by_cases hlt : ordLt m a.priority b.priority
      · simp only [hlt, if_true]
        have hst := HeapEx.up_step hx2 hxn ha hb2 hlt h1 h2
        have hg := g.swap hx1 hxn (y := x / 2) (by omega) (by omega) (by omega) ha hb2 hia hib
        have hgs : swapState { q with ids := q.ids.set ia2 x } x (x / 2) a b ia2 ib =
            { ({ q with ids := q.ids.set ib x, heap := swapHeap q.heap x (x / 2) a b } :
                pqueue α) with
              ids := (q.ids.set ib x).set ia2 (x / 2) } := by
          simp only [swapState, set_set_of_ne _ _ _ _ _ hne]
        rw [hgs] at hg
        have hl : look (swapHeap q.heap x (x / 2) a b) (x / 2) = some a := by
          rw [look_swap _ _ _ _ _ (look_lt ha) (look_lt hb2)]
          have : x / 2 ≠ x := by omega
          simp [this]
        obtain ⟨q2, x2, r1, r2, r3, r4, r5, r6, r7, r8, r9, r10⟩ :=
          ih { q with ids := q.ids.set ib x, heap := swapHeap q.heap x (x / 2) a b } (x / 2)
            (by omega) (by omega) (by omega) hl hg hst.1 hst.2
        refine ⟨q2, x2, r1, r2, r3, r4, r5, r6, ?_, r8, r9, r10⟩
        intro nd
        rw [r7 nd]
        exact Nodes.swap_iff hx1 hxn (by omega) (by omega) ha hb2 nd
      · simp only [hlt, if_false]
        refine ⟨q, x, rfl, hx1, hxn, ha, g, ?_, fun _ => Iff.rfl, rfl, rfl, rfl⟩
        intro s c p hs2 hsn _ hc hp
        by_cases e : s = x
        · subst e
          rw [ha] at hc
          rw [hb2] at hp
          cases hc; cases hp
          exact ordLe_of_not_ordLt hlt
        · exact h1 s c p hs2 hsn e hc hp

end Up

theorem idsSet_nat (q : pqueue α) (i : Nat) (v : Nat) (h : i < q.ids.length) :
    idsSet q (i : Int) v = some { q with ids := q.ids.set i v } := by
  simp [idsSet, h]

theorem idsAt_nat (q : pqueue α) (i : Nat) : idsAt q (i : Int) = q.ids[i]? := by
  simp [idsAt]

theorem set_eq_self (l : List Nat) (i v : Nat) (h : l[i]? = some v) : l.set i v = l := by
  apply List.ext_getElem?
  intro k
  rw [List.getElem?_set]
  by_cases e : i = k
  · subst e
    have := (List.getElem?_eq_some.mp h).1
    simp [this, h]
  · simp [e]

theorem lone_swap_eq (q : pqueue α) (x : Nat) (a b : Node α) (ia ib : Nat)
    (ha : look q.heap x = some a) (hb : look q.heap (x * 2) = some b)
    (hib : b.id = (ib : Int)) (hal : ia < q.ids.length) (hbl : ib < q.ids.length) :
    lone_swap q x (ia : Int) = some (swapState q x (x * 2) a b ia ib) := by
  have hx := look_lt ha
  have hy := look_lt hb
  have ha3 := look_getElem ha hx
  have hb3 := look_getElem hb hy
  simp [lone_swap, heapAt_eq_look, hb, hib, idsSet, hal, hbl, heapPtr, heapSet, hx, hy, ha3, hb3,
    swapState, swapHeap]

section Up

variable [LinearOrder α]

theorem perc_up_spec (m : Bool) (n : Nat) (a : Node α) (ia : Nat) (hia : a.id = (ia : Int))
    (q : pqueue α) (x : Nat) (hx1 : 1 ≤ x) (hxn : x ≤ n)
    (ha : look q.heap x = some a) (g : Good { q with ids := q.ids.set ia x } n)
    (h1 : HeapEx m q.heap n (fun s => s ≠ x)) (h2 : Skip m q.heap n x) :
    ∃ q2, perc_up m q x (ia : Int) = some q2 ∧ Good q2 n ∧
      HeapOrd m q2.heap n ∧ (∀ nd, Nodes q2.heap n nd ↔ Nodes q.heap n nd) ∧
      q2.min = q.min ∧ q2.cap = q.cap ∧ q2.firstEmpty = q.firstEmpty := by
  obtain ⟨q2, x2, r1, r2, r3, r4, r5, r6, r7, r8, r9, r10⟩ :=
    perc_up_loop_spec m n a ia hia (x + 1) q x (by omega) hx1 hxn ha g h1 h2
  obtain ⟨i, e1, _, e3⟩ := r5.id_of r2 r3 r4
  have : i = ia := by
    have : (i : Int) = (ia : Int) := by rw [← e1, ← hia]
    exact_mod_cast this
  subst this
  have hl : i < q2.ids.length := by simpa using e3
  refine ⟨{ q2 with ids := q2.ids.set i x2 }, ?_, r5, r6, r7, r8, r9, r10⟩
  cases m
  · simp only [perc_up, perc_up_max]
    simp only [perc_up_loop] at r1
    rw [r1]
    simp [idsSet_nat _ _ _ hl]
  · simp only [perc_up, perc_up_min]
    simp only [perc_up_loop] at r1
    rw [r1]
    simp [idsSet_nat _ _ _ hl]

end Up

/-! ## Sift-down -/

section Down

variable [LinearOrder α]

theorem down_test_leaf (m : Bool) (q : pqueue α) (x : Nat) (h : ¬ x * 2 + 1 < q.firstEmpty) :
    down_test m q x = some false := by
  cases m <;> simp [down_test, down_test_min, down_test_max, h]

theorem down_test_two (m : Bool) (q : pqueue α) (x : Nat) (a l r : Node α)
    (h : x * 2 + 1 < q.firstEmpty) (ha : look q.heap x = some a)
    (hl : look q.heap (x * 2) = some l) (hr : look q.heap (x * 2 + 1) = some r) :
    down_test m q x =
      some (decide (ordLt m l.priority a.priority ∨ ordLt m r.priority a.priority)) := by
  cases m
  · simp only [down_test, down_test_max, h, if_true, heapAt_eq_look, ha, hl, hr, Option.some_bind,
      ordLt, Bool.false_eq_true, if_false]
    by_cases e : a.priority < l.priority <;> simp [e]
  · simp only [down_test, down_test_min, h, if_true, heapAt_eq_look, ha, hl, hr, Option.some_bind,
      ordLt, if_true]
    by_cases e : a.priority > l.priority
    · simp [e]
    · simp only [e, if_false]
      have : ¬ l.priority < a.priority := e
      simp [this]

theorem lone_test_no (m : Bool) (q : pqueue α) (x : Nat) (h : ¬ x * 2 = q.firstEmpty - 1) :
    lone_test m q x = some false := by
  cases m <;> simp [lone_test, lone_test_min, lone_test_max, h]

theorem lone_test_yes (m : Bool) (q : pqueue α) (x : Nat) (a l : Node α)
    (h : x * 2 = q.firstEmpty - 1) (ha : look q.heap x = some a)
    (hl : look q.heap (x * 2) = some l) :
    lone_test m q x = some (decide (ordLt m l.priority a.priority)) := by
  cases m
  · simp only [lone_test, lone_test_max]
    rw [if_pos h]
    simp [heapAt_eq_look, ha, hl, ordLt]
  · simp only [lone_test, lone_test_min]
    rw [if_pos h]
    simp [heapAt_eq_look, ha, hl, ordLt]

theorem perc_down_loop_stop (m : Bool) (fuel : Nat) (q : pqueue α) (x : Nat) (id : Int)
    (h : down_test m q x = some false) :
    perc_down_loop m (fuel + 1) q x id = some (q, x) := by
  cases m
  · simp only [down_test] at h
    simp [perc_down_loop, perc_down_max_loop, h]
  · simp only [down_test] at h
    simp [perc_down_loop, perc_down_min_loop, h]

theorem perc_down_loop_succ (m : Bool) (fuel : Nat) (q : pqueue α) (x : Nat)
    (a l r : Node α) (ia il ir : Nat)
    (h : down_test m q x = some true) (ha : look q.heap x = some a)
    (hl : look q.heap (x * 2) = some l) (hr : look q.heap (x * 2 + 1) = some r)
    (hil : l.id = (il : Int)) (hir : r.id = (ir : Int))
    (hal : ia < q.ids.length) (hll : il < q.ids.length) (hrl : ir < q.ids.length) :
    perc_down_loop m (fuel + 1) q x (ia : Int) =
      if ordLt m l.priority r.priority then
        perc_down_loop m fuel (swapState q x (x * 2) a l ia il) (x * 2) (ia : Int)
      else
        perc_down_loop m fuel (swapState q x (x * 2 + 1) a r ia ir) (x * 2 + 1) (ia : Int) := by
  have hx := look_lt ha
  have hy := look_lt hl
  have hz := look_lt hr
  have ha3 := look_getElem ha hx
  have hl3 := look_getElem hl hy
  have hr3 := look_getElem hr hz
  cases m
  · simp only [down_test] at h
    by_cases e : r.priority < l.priority
    · simp [perc_down_loop, perc_down_max_loop, h, heapAt_eq_look, hl, hr, ordLt, e, hil, idsSet,
        hal, hll, hrl, heapPtr, heapSet, hx, hy, hz, ha3, hl3, hr3, swapState, swapHeap]
    · simp [perc_down_loop, perc_down_max_loop, h, heapAt_eq_look, hl, hr, ordLt, e, hir, idsSet,
        hal, hll, hrl, heapPtr, heapSet, hx, hy, hz, ha3, hl3, hr3, swapState, swapHeap]
  · simp only [down_test] at h
    by_cases e : l.priority < r.priority
    · simp [perc_down_loop, perc_down_min_loop, h, heapAt_eq_look, hl, hr, ordLt, e, hil, idsSet,
        hal, hll, hrl, heapPtr, heapSet, hx, hy, hz, ha3, hl3, hr3, swapState, swapHeap]
    · simp [perc_down_loop, perc_down_min_loop, h, heapAt_eq_look, hl, hr, ordLt, e, hir, idsSet,
        hal, hll, hrl, heapPtr, heapSet, hx, hy, hz, ha3, hl3, hr3, swapState, swapHeap]

theorem HeapEx.down_step {m : Bool} {h : List (Option (Node α))} {n x y : Nat} {a b : Node α}
    (hx : 1 ≤ x) (hy : y / 2 = x) (hyn : y ≤ n)
    (ha : look h x = some a) (hb : look h y = some b)
    (hlt : ordLt m b.priority a.priority)
    (hbest : ∀ s c, s / 2 = x → s ≤ n → look h s = some c → ordLe m b.priority c.priority)
    (h1 : HeapEx m h n (fun s => s / 2 ≠ x)) (h2 : Skip m h n x) :
    HeapEx m (swapHeap h x y a b) n (fun s => s / 2 ≠ y) ∧
      Skip m (swapHeap h x y a b) n y := by
  have hh := look_swap h x y a b (look_lt ha) (look_lt hb)
  have hxy : x ≠ y := by omega
  constructor
  · intro s c p hs2 hsn hP hc hp
    rw [hh] at hc hp
    by_cases e1 : s = x
    · subst e1
      have k1 : s / 2 ≠ s := by omega
      simp only [k1, hP, if_true, if_false] at hc hp
      cases hc
      exact h2 y b p hs2 hyn hy hb hp
    · by_cases e2 : s = y
      · subst e2
        simp only [e1, hy, if_true, if_false] at hc hp
        cases hc; cases hp
        exact ordLe_of_ordLt hlt
      · simp only [e1, e2, if_false] at hc
        by_cases e3 : s / 2 = x
        · simp only [e3, if_true] at hp
          cases hp
          exact hbest s c e3 hsn hc
        · simp only [e3, hP, if_false] at hp
          exact h1 s c p hs2 hsn e3 hc hp
  · intro s c g hy2 hsn hs hc hg
    rw [hh] at hc hg
    have k1 : s ≠ x := by omega
    have k2 : s ≠ y := by omega
    simp only [k1, k2, hy, if_true, if_false] at hc hg
    cases hg
    exact h1 s c b (by omega) hsn (by omega) hc (by rw [hs]; exact hb)

end Down

section Down2

variable [LinearOrder α]

theorem ordLt_of_ordLe_of_ordLt {m : Bool} {a b c : α} (h1 : ordLe m a b) (h2 : ordLt m b c) :
    ordLt m a c := by
  cases m
  · simp only [ordLe, ordLt, Bool.false_eq_true, if_false] at *
    exact lt_of_lt_of_le h2 h1
  · simp only [ordLe, ordLt, if_true] at *
    exact lt_of_le_of_lt h1 h2

theorem HeapEx.finish {m : Bool} {h : List (Option (Node α))} {n x : Nat} {a : Node α}
    (ha : look h x = some a)
    (h1 : HeapEx m h n (fun s => s / 2 ≠ x))
    (hch : ∀ s c, s / 2 = x → s ≤ n → look h s = some c → ordLe m a.priority c.priority) :
    HeapOrd m h n := by
  intro s c p hs2 hsn _ hc hp
  by_cases e : s / 2 = x
  · rw [e, ha] at hp
    cases hp
    exact hch s c e hsn hc
  · exact h1 s c p hs2 hsn e hc hp

theorem perc_down_loop_spec (m : Bool) (n : Nat) (a : Node α) (ia : Nat)
    (hia : a.id = (ia : Int)) :
    ∀ (fuel : Nat) (q : pqueue α) (x : Nat), n < fuel + x → q.firstEmpty = n + 1 →
      1 ≤ x → x ≤ n → look q.heap x = some a → Good q n →
      HeapEx m q.heap n (fun s => s / 2 ≠ x) → Skip m q.heap n x →
      ∃ q2 x2, perc_down_loop m fuel q x (ia : Int) = some (q2, x2) ∧ 1 ≤ x2 ∧ x2 ≤ n ∧
        look q2.heap x2 = some a ∧ Good q2 n ∧
        HeapEx m q2.heap n (fun s => s / 2 ≠ x2) ∧ Skip m q2.heap n x2 ∧
        down_test m q2 x2 = some false ∧
        (∀ nd, Nodes q2.heap n nd ↔ Nodes q.heap n nd) ∧
        q2.min = q.min ∧ q2.cap = q.cap ∧ q2.firstEmpty = q.firstEmpty := by
  intro fuel
  induction fuel with
  | zero => intro q x h; omega
  | succ fuel ih =>
    intro q x hf hfe hx1 hxn ha g h1 h2
    by_cases h0 : x * 2 + 1 < q.firstEmpty
    · obtain ⟨l, il, hl, hil, hlx⟩ := g.slot (x * 2) (by omega) (by omega)
      obtain ⟨r, ir, hr, hir, hrx⟩ := g.slot (x * 2 + 1) (by omega) (by omega)
      obtain ⟨ia2, e1, e2, e3⟩ := g.id_of hx1 hxn ha
      have : ia2 = ia := by
        have : (ia2 : Int) = (ia : Int) := by rw [← e1, ← hia]
        exact_mod_cast this
      subst this
      have hll : il < q.ids.length := (List.getElem?_eq_some.mp hlx).1
      have hrl : ir < q.ids.length := (List.getElem?_eq_some.mp hrx).1
      have ht := down_test_two m q x a l r h0 ha hl hr
      by_cases hv : ordLt m l.priority a.priority ∨ ordLt m r.priority a.priority
      · simp only [hv, decide_True] at ht
        rw [perc_down_loop_succ m fuel q x a l r ia2 il ir ht ha hl hr hil hir e3 hll hrl]
        by_cases hlr : ordLt m l.priority r.priority
        · simp only [hlr, if_true]
          have hlt : ordLt m l.priority a.priority := by
            rcases hv with hv | hv
            · exact hv
            · exact ordLt_of_ordLe_of_ordLt (ordLe_of_ordLt hlr) hv
          have hbest : ∀ s c, s / 2 = x → s ≤ n → look q.heap s = some c →
              ordLe m l.priority c.priority := by
            intro s c hs _ hc
            have : s = x * 2 ∨ s = x * 2 + 1 := by omega
            rcases this with e | e
            · subst e; rw [hl] at hc; cases hc; exact ordLe_refl m _
            · subst e; rw [hr] at hc; cases hc; exact ordLe_of_ordLt hlr
          have hst := HeapEx.down_step (y := x * 2) hx1 (by omega) (by omega) ha hl hlt hbest
            h1 h2
          have hg := g.swap hx1 hxn (y := x * 2) (by omega) (by omega) (by omega) ha hl hia hil
          have hla : look (swapState q x (x * 2) a l ia2 il).heap (x * 2) = some a := by
            show look (swapHeap q.heap x (x * 2) a l) (x * 2) = some a
            rw [look_swap _ _ _ _ _ (look_lt ha) (look_lt hl)]
            have : x * 2 ≠ x := by omega
            simp [this]
          obtain ⟨q2, x2, r1, r2, r3, r4, r5, r6, r7, r8, r9, r10, r11, r12⟩ :=
            ih (swapState q x (x * 2) a l ia2 il) (x * 2) (by omega) hfe (by omega) (by omega)
              hla hg hst.1 hst.2
          refine ⟨q2, x2, r1, r2, r3, r4, r5, r6, r7, r8, ?_, r10, r11, r12⟩
          intro nd
          rw [r9 nd]
          exact Nodes.swap_iff hx1 hxn (by omega) (by omega) ha hl nd
        · simp only [hlr, if_false]
          have hrl2 : ordLe m r.priority l.priority := ordLe_of_not_ordLt hlr
          have hlt : ordLt m r.priority a.priority := by
            rcases hv with hv | hv
            · exact ordLt_of_ordLe_of_ordLt hrl2 hv
            · exact hv
          have hbest : ∀ s c, s / 2 = x → s ≤ n → look q.heap s = some c →
              ordLe m r.priority c.priority := by
            intro s c hs _ hc
            have : s = x * 2 ∨ s = x * 2 + 1 := by omega
            rcases this with e | e
            · subst e; rw [hl] at hc; cases hc; exact hrl2
            · subst e; rw [hr] at hc; cases hc; exact ordLe_refl m _
          have hst := HeapEx.down_step (y := x * 2 + 1) hx1 (by omega) (by omega) ha hr hlt hbest
            h1 h2
          have hg := g.swap hx1 hxn (y := x * 2 + 1) (by omega) (by omega) (by omega) ha hr
            hia hir
          have hla : look (swapState q x (x * 2 + 1) a r ia2 ir).heap (x * 2 + 1) = some a := by
            show look (swapHeap q.heap x (x * 2 + 1) a r) (x * 2 + 1) = some a
            rw [look_swap _ _ _ _ _ (look_lt ha) (look_lt hr)]
            have : x * 2 + 1 ≠ x := by omega
            simp [this]
          obtain ⟨q2, x2, r1, r2, r3, r4, r5, r6, r7, r8, r9, r10, r11, r12⟩ :=
            ih (swapState q x (x * 2 + 1) a r ia2 ir) (x * 2 + 1) (by omega) hfe (by omega)
              (by omega) hla hg hst.1 hst.2
          refine ⟨q2, x2, r1, r2, r3, r4, r5, r6, r7, r8, ?_, r10, r11, r12⟩
          intro nd
          rw [r9 nd]
          exact Nodes.swap_iff hx1 hxn (by omega) (by omega) ha hr nd
      · simp only [hv, decide_False] at ht
        rw [perc_down_loop_stop m fuel q x _ ht]
        exact ⟨q, x, rfl, hx1, hxn, ha, g, h1, h2, ht, fun _ => Iff.rfl, rfl, rfl, rfl⟩
    · have ht := down_test_leaf m q x h0
      rw [perc_down_loop_stop m fuel q x _ ht]
      exact ⟨q, x, rfl, hx1, hxn, ha, g, h1, h2, ht, fun _ => Iff.rfl, rfl, rfl, rfl⟩

end Down2

section Fix

variable [LinearOrder α]

theorem lone_tail (m : Bool) (n : Nat) (a : Node α) (ia : Nat) (hia : a.id = (ia : Int))
    (q : pqueue α) (x : Nat) (hfe : q.firstEmpty = n + 1) (hx1 : 1 ≤ x) (hxn : x ≤ n)
    (ha : look q.heap x = some a) (g : Good q n)
    (h1 : HeapEx m q.heap n (fun s => s / 2 ≠ x)) (h2 : Skip m q.heap n x)
    (ht : down_test m q x = some false) :
    ∃ q2, ((lone_test m q x).bind fun c =>
          if c then lone_swap q x (ia : Int) else some q) = some q2 ∧
      ((lone_test m q x).bind fun c =>
          if c then (lone_swap q x (ia : Int)).bind fun q1 => idsSet q1 (ia : Int) (x * 2)
          else idsSet q (ia : Int) x) = some q2 ∧
      Good q2 n ∧ HeapOrd m q2.heap n ∧ (∀ nd, Nodes q2.heap n nd ↔ Nodes q.heap n nd) ∧
      q2.min = q.min ∧ q2.cap = q.cap ∧ q2.firstEmpty = q.firstEmpty := by
  obtain ⟨ia2, e1, e2, e3⟩ := g.id_of hx1 hxn ha
  have : ia2 = ia := by
    have : (ia2 : Int) = (ia : Int) := by rw [← e1, ← hia]
    exact_mod_cast this
  subst this
  have hself : idsSet q (ia2 : Int) x = some q := by
    rw [idsSet_nat _ _ _ e3, set_eq_self _ _ _ e2]
  by_cases hl : x * 2 = q.firstEmpty - 1
  · obtain ⟨l, il, hl1, hil, hlx⟩ := g.slot (x * 2) (by omega) (by omega)
    have hll : il < q.ids.length := (List.getElem?_eq_some.mp hlx).1
    rw [lone_test_yes m q x a l hl ha hl1]
    by_cases hv : ordLt m l.priority a.priority
    · have hbest : ∀ s c, s / 2 = x → s ≤ n → look q.heap s = some c →
          ordLe m l.priority c.priority := by
        intro s c hs hsn hc
        have : s = x * 2 := by omega
        subst this; rw [hl1] at hc; cases hc; exact ordLe_refl m _
      have hst := HeapEx.down_step (y := x * 2) hx1 (by omega) (by omega) ha hl1 hv hbest h1 h2
      have hg := g.swap hx1 hxn (y := x * 2) (by omega) (by omega) (by omega) ha hl1 hia hil
      refine ⟨swapState q x (x * 2) a l ia2 il, ?_, ?_, hg, ?_, ?_, rfl, rfl, rfl⟩
      · simp [hv, lone_swap_eq q x a l ia2 il ha hl1 hil e3 hll]
      · have hlen : ia2 < (swapState q x (x * 2) a l ia2 il).ids.length := by
          simpa [swapState] using e3
        simp only [hv, decide_True, Option.some_bind, if_true,
          lone_swap_eq q x a l ia2 il ha hl1 hil e3 hll, idsSet_nat _ _ _ hlen]
        simp [swapState, List.set_set]
      · intro s c p hs2 hsn _ hc hp
        exact hst.1 s c p hs2 hsn (by omega) hc hp
      · intro nd
        exact Nodes.swap_iff hx1 hxn (by omega) (by omega) ha hl1 nd
    · refine ⟨q, ?_, ?_, g, ?_, fun _ => Iff.rfl, rfl, rfl, rfl⟩
      · simp [hv]
      · simp [hv, hself]
      · apply HeapEx.finish ha h1
        intro s c hs hsn hc
        have : s = x * 2 := by omega
        subst this; rw [hl1] at hc; cases hc; exact ordLe_of_not_ordLt hv
  · rw [lone_test_no m q x hl]
    refine ⟨q, ?_, ?_, g, ?_, fun _ => Iff.rfl, rfl, rfl, rfl⟩
    · simp
    · simp [hself]
    · apply HeapEx.finish ha h1
      intro s c hs hsn hc
      have h0 : x * 2 + 1 < q.firstEmpty := by omega
      obtain ⟨l, il, hl1, _, _⟩ := g.slot (x * 2) (by omega) (by omega)
      obtain ⟨r, ir, hr1, _, _⟩ := g.slot (x * 2 + 1) (by omega) (by omega)
      rw [down_test_two m q x a l r h0 ha hl1 hr1] at ht
      have hv : ¬ (ordLt m l.priority a.priority ∨ ordLt m r.priority a.priority) := by
        simpa using ht
      have : s = x * 2 ∨ s = x * 2 + 1 := by omega
      rcases this with e | e
      · subst e; rw [hl1] at hc; cases hc
        exact ordLe_of_not_ordLt (fun h => hv (Or.inl h))
      · subst e; rw [hr1] at hc; cases hc
        exact ordLe_of_not_ordLt (fun h => hv (Or.inr h))

theorem perc_down_spec (m : Bool) (n : Nat) (a : Node α) (ia : Nat) (hia : a.id = (ia : Int))
    (q : pqueue α) (x : Nat) (hfe : q.firstEmpty = n + 1) (hx1 : 1 ≤ x) (hxn : x ≤ n)
    (ha : look q.heap x = some a) (g : Good q n)
    (h1 : HeapEx m q.heap n (fun s => s / 2 ≠ x)) (h2 : Skip m q.heap n x) :
    ∃ q2, perc_down m q x (ia : Int) = some q2 ∧ Good q2 n ∧
      HeapOrd m q2.heap n ∧ (∀ nd, Nodes q2.heap n nd ↔ Nodes q.heap n nd) ∧
      q2.min = q.min ∧ q2.cap = q.cap ∧ q2.firstEmpty = q.firstEmpty := by
  obtain ⟨q1, x1, r1, r2, r3, r4, r5, r6, r7, r8, r9, r10, r11, r12⟩ :=
    perc_down_loop_spec m n a ia hia (q.firstEmpty + 1) q x (by omega) hfe hx1 hxn ha g h1 h2
  obtain ⟨q2, _, s2, s3, s4, s5, s6, s7, s8⟩ :=
    lone_tail m n a ia hia q1 x1 (by omega) r2 r3 r4 r5 r6 r7 r8
  refine ⟨q2, ?_, s3, s4, fun nd => (s5 nd).trans (r9 nd), s6.trans r10, s7.trans r11,
    s8.trans r12⟩
  cases m
  · simp only [perc_down, perc_down_max]
    simp only [perc_down_loop] at r1
    simp only [lone_test] at s2
    rw [r1]
    exact s2
  · simp only [perc_down, perc_down_min]
    simp only [perc_down_loop] at r1
    simp only [lone_test] at s2
    rw [r1]
    exact s2

theorem up_test_root (m : Bool) (q : pqueue α) : up_test m q 1 = some false := by
  cases m <;> simp [up_test, up_test_min, up_test_max]

theorem up_test_eq (m : Bool) (q : pqueue α) (x : Nat) (a b : Node α) (hx : x ≠ 1)
    (ha : look q.heap x = some a) (hb : look q.heap (x / 2) = some b) :
    up_test m q x = some (decide (ordLt m a.priority b.priority)) := by
  cases m
  · simp [up_test, up_test_max, hx, heapAt_eq_look, ha, hb, ordLt]
  · simp [up_test, up_test_min, hx, heapAt_eq_look, ha, hb, ordLt]

theorem fixup_spec (m : Bool) (n : Nat) (a : Node α) (ia : Nat) (hia : a.id = (ia : Int))
    (q : pqueue α) (x : Nat) (hfe : q.firstEmpty = n + 1) (hx1 : 1 ≤ x) (hxn : x ≤ n)
    (ha : look q.heap x = some a) (g : Good q n)
    (h1 : HeapEx m q.heap n (fun s => s ≠ x ∧ s / 2 ≠ x)) (h2 : Skip m q.heap n x) :
    ∃ q2, fixup m q x (ia : Int) = some q2 ∧ Good q2 n ∧
      HeapOrd m q2.heap n ∧ (∀ nd, Nodes q2.heap n nd ↔ Nodes q.heap n nd) ∧
      q2.min = q.min ∧ q2.cap = q.cap ∧ q2.firstEmpty = q.firstEmpty := by
  obtain ⟨ia2, e1, e2, e3⟩ := g.id_of hx1 hxn ha
  have : ia2 = ia := by
    have : (ia2 : Int) = (ia : Int) := by rw [← e1, ← hia]
    exact_mod_cast this
  subst this
  -- the case of a slot that is not sifted up
  have down : up_test m q x = some false →
      (x ≠ 1 → ∀ b, look q.heap (x / 2) = some b → ¬ ordLt m a.priority b.priority) →
      ∃ q2, fixup m q x (ia2 : Int) = some q2 ∧ Good q2 n ∧
        HeapOrd m q2.heap n ∧ (∀ nd, Nodes q2.heap n nd ↔ Nodes q.heap n nd) ∧
        q2.min = q.min ∧ q2.cap = q.cap ∧ q2.firstEmpty = q.firstEmpty := by
    intro hup hnl
    have h1d : HeapEx m q.heap n (fun s => s / 2 ≠ x) := by
      intro s c p hs2 hsn hP hc hp
      by_cases e : s = x
      · subst e
        rw [ha] at hc; cases hc
        exact ordLe_of_not_ordLt (hnl (by omega) p hp)
      · exact h1 s c p hs2 hsn ⟨e, hP⟩ hc hp
    unfold fixup
    simp only [hup, Option.some_bind, Bool.false_eq_true, if_false]
    cases hd : down_test m q x with
    | none =>
      exfalso
      by_cases h0 : x * 2 + 1 < q.firstEmpty
      · obtain ⟨l, il, hl1, _, _⟩ := g.slot (x * 2) (by omega) (by omega)
        obtain ⟨r, ir, hr1, _, _⟩ := g.slot (x * 2 + 1) (by omega) (by omega)
        rw [down_test_two m q x a l r h0 ha hl1 hr1] at hd
        cases hd
      · rw [down_test_leaf m q x h0] at hd
        cases hd
    | some d =>
      cases d
      · simp only [Option.some_bind, Bool.false_eq_true, if_false]
        obtain ⟨q2, s1, _, s3, s4, s5, s6, s7, s8⟩ :=
          lone_tail m n a ia2 hia q x hfe hx1 hxn ha g h1d h2 hd
        exact ⟨q2, s1, s3, s4, s5, s6, s7, s8⟩
      · simp only [Option.some_bind, if_true]
        exact perc_down_spec m n a ia2 hia q x hfe hx1 hxn ha g h1d h2
  by_cases hx : x = 1
  · subst hx
    exact down (up_test_root m q) (fun h => absurd rfl h)
  · obtain ⟨b, ib, hb, _, _⟩ := g.slot (x / 2) (by omega) (by omega)
    have hup := up_test_eq m q x a b hx ha hb
    by_cases hlt : ordLt m a.priority b.priority
    · simp only [hlt, decide_True] at hup
      unfold fixup
      simp only [hup, Option.some_bind, if_true]
      have hq : ({ q with ids := q.ids.set ia2 x } : pqueue α) = q := by
        rw [set_eq_self _ _ _ e2]
      apply perc_up_spec m n a ia2 hia q x hx1 hxn ha (by rw [hq]; exact g) _ h2
      intro s c p hs2 hsn hP hc hp
      by_cases e : s / 2 = x
      · rw [e, ha] at hp; cases hp
        have := h2 s c b (by omega) hsn e hc hb
        exact ordLe_trans (ordLe_of_ordLt hlt) this
      · exact h1 s c p hs2 hsn ⟨hP, e⟩ hc hp
    · simp only [hlt, decide_False] at hup
      apply down hup
      intro _ b2 hb2
      rw [hb] at hb2; cases hb2
      exact hlt

end Fix

theorem Good.with_firstEmpty {q : pqueue α} {n : Nat} (g : Good q n) (k : Nat) :
    Good { q with firstEmpty := k } n :=
  ⟨g.heap_len, g.ids_len, g.le_cap, g.slot, g.index, g.empty⟩

theorem Good.node_id_lt {q : pqueue α} {n : Nat} (g : Good q n) {nd : Node α}
    (h : Nodes q.heap n nd) : ∃ i : Nat, nd.id = (i : Int) ∧ i < q.cap ∧
      ∃ s, 1 ≤ s ∧ s ≤ n ∧ q.ids[i]? = some s ∧ look q.heap s = some nd := by
  obtain ⟨s, h1, h2, h3⟩ := h
  obtain ⟨i, e1, e2, e3⟩ := g.id_of h1 h2 h3
  exact ⟨i, e1, by rw [← g.ids_len]; exact e3, s, h1, h2, e2, h3⟩

/-- Pigeonhole: while some identifier is absent, fewer than `cap` slots are occupied. -/
theorem Good.lt_cap_of_absent {q : pqueue α} {n : Nat} (g : Good q n) {i : Nat}
    (hi : i < q.cap) (h0 : q.ids[i]? = some 0) : n < q.cap := by
  have hsurj : Set.SurjOn (fun j => (q.ids[j]?).getD 0)
      (((Finset.range q.cap).erase i : Finset Nat) : Set Nat)
      ((Finset.Icc 1 n : Finset Nat) : Set Nat) := by
    intro s hs
    simp only [Finset.coe_Icc, Set.mem_Icc] at hs
    obtain ⟨nd, j, _, _, hj⟩ := g.slot s hs.1 hs.2
    refine ⟨j, ?_, by simp [hj]⟩
    have hjl : j < q.ids.length := (List.getElem?_eq_some.mp hj).1
    simp only [Finset.coe_erase, Finset.coe_range, Set.mem_diff, Set.mem_Iio,
      Set.mem_singleton_iff]
    refine ⟨by rw [← g.ids_len]; exact hjl, ?_⟩
    intro e
    subst e
    rw [h0] at hj
    have := Option.some.inj hj
    omega
  have hc := Finset.card_le_card_of_surjOn _ hsurj
  rw [Finset.card_erase_of_mem (Finset.mem_range.mpr hi)] at hc
  simp at hc
  omega

theorem Good.push {q : pqueue α} {n : Nat} (g : Good q n) (hfe : q.firstEmpty = n + 1)
    {i : Nat} (hi : i < q.cap) (h0 : q.ids[i]? = some 0) (p : α) :
    Good (pushState q i p) (n + 1) := by
  have hn := g.lt_cap_of_absent hi h0
  have hl : q.firstEmpty < q.heap.length := by rw [g.heap_len]; omega
  have hil : i < q.ids.length := by rw [g.ids_len]; exact hi
  have hh : ∀ s, look (pushState q i p).heap s =
      if s = n + 1 then some { priority := p, id := (i : Int) } else look q.heap s := by
    intro s
    show look (q.heap.set q.firstEmpty _) s = _
    rw [look_set _ _ _ _ hl, hfe]
  have hids : ∀ j, (pushState q i p).ids[j]? = if j = i then some (n + 1) else q.ids[j]? := by
    intro j
    show (q.ids.set i q.firstEmpty)[j]? = _
    rw [List.getElem?_set, hfe]
    by_cases e : i = j
    · subst e; simp [hil]
    · have : ¬ j = i := fun h => e h.symm
      simp [e, this]
  refine ⟨?_, ?_, ?_, ?_, ?_, ?_⟩
  · simpa [pushState] using g.heap_len
  · simpa [pushState] using g.ids_len
  · exact hn
  · intro s hs1 hs2
    by_cases e : s = n + 1
    · subst e
      exact ⟨{ priority := p, id := (i : Int) }, i, by rw [hh]; simp, rfl, by rw [hids]; simp⟩
    · obtain ⟨nd, j, k1, k2, k3⟩ := g.slot s hs1 (by omega)
      refine ⟨nd, j, by rw [hh]; simp [e, k1], k2, ?_⟩
      rw [hids]
      have : j ≠ i := by
        intro h; subst h; rw [h0] at k3
        have := Option.some.inj k3
        omega
      simp [this, k3]
  · intro j s hj hs
    rw [hids] at hj
    by_cases e : j = i
    · subst e
      simp at hj
      subst hj
      exact ⟨le_refl _, { priority := p, id := (j : Int) }, by rw [hh]; simp, rfl⟩
    · simp only [e, if_false] at hj
      obtain ⟨k1, nd, k2, k3⟩ := g.index j s hj hs
      refine ⟨by omega, nd, ?_, k3⟩
      rw [hh]
      have : s ≠ n + 1 := by omega
      simp [this, k2]
  · intro s hs
    rw [hh]
    have : s ≠ n + 1 := by omega
    simp only [this, if_false]
    exact g.empty s (by omega)

theorem Nodes.push_iff {q : pqueue α} {n : Nat} (hfe : q.firstEmpty = n + 1)
    (hl : q.firstEmpty < q.heap.length) (i : Nat) (p : α) (nd : Node α) :
    Nodes (pushState q i p).heap (n + 1) nd ↔
      nd = { priority := p, id := (i : Int) } ∨ Nodes q.heap n nd := by
  have hh : ∀ s, look (pushState q i p).heap s =
      if s = n + 1 then some { priority := p, id := (i : Int) } else look q.heap s := by
    intro s
    show look (q.heap.set q.firstEmpty _) s = _
    rw [look_set _ _ _ _ hl, hfe]
  constructor
  · rintro ⟨s, h1, h2, h3⟩
    rw [hh] at h3
    by_cases e : s = n + 1
    · simp only [e, if_true] at h3
      exact Or.inl (Option.some.inj h3).symm
    · simp only [e, if_false] at h3
      exact Or.inr ⟨s, h1, by omega, h3⟩
  · rintro (h | ⟨s, h1, h2, h3⟩)
    · exact ⟨n + 1, by omega, le_refl _, by rw [hh]; simp [h]⟩
    · refine ⟨s, h1, by omega, ?_⟩
      rw [hh]
      have : s ≠ n + 1 := by omega
      simp [this, h3]

section Insert

variable [LinearOrder α]

theorem insert_reject (q : pqueue α) (id : Int) (p : α) (h : id ≥ q.cap ∨ id < 0) :
    insert q id p = some (q, false) := by
  simp only [insert]
  rw [if_pos h]

theorem insert_present (q : pqueue α) (i : Nat) (p : α) (s : Nat)
    (hi : i < q.cap) (hs : q.ids[i]? = some s) (h0 : s ≠ 0) :
    insert q (i : Int) p = some (q, false) := by
  have : ¬ ((i : Int) ≥ q.cap ∨ (i : Int) < 0) := by omega
  simp only [insert]
  rw [if_neg this]
  simp [idsAt_nat, hs, h0]

theorem insert_absent (q : pqueue α) (i : Nat) (p : α) (b : Node α)
    (hi : i < q.cap) (h0 : q.ids[i]? = some 0) (hl : q.firstEmpty < q.heap.length)
    (hpos : 0 < q.firstEmpty)
    (hb : q.firstEmpty ≠ 1 → look q.heap (q.firstEmpty / 2) = some b) :
    insert q (i : Int) p =
      (if q.firstEmpty ≠ 1 ∧ ordLt q.min p b.priority then
          perc_up q.min (pushState q i p) q.firstEmpty (i : Int)
        else some (pushState q i p)).bind fun q3 =>
      some ({ q3 with firstEmpty := q3.firstEmpty + 1 }, true) := by
  have hg : ¬ ((i : Int) ≥ q.cap ∨ (i : Int) < 0) := by omega
  have hil : i < q.ids.length := (List.getElem?_eq_some.mp h0).1
  simp only [insert]
  rw [if_neg hg]
  simp only [idsAt_nat, h0, Option.some_bind, ne_eq, not_true_eq_false, if_false, heapSet, hl,
    if_true]
  rw [idsSet_nat _ _ _ (by simpa using hil)]
  simp only [Option.some_bind]
  congr 1
  show ((ins_test_min (pushState q i p) p).bind fun up =>
      if up = true then perc_up_min (pushState q i p) q.firstEmpty (i : Int) else
      (ins_test_max (pushState q i p) p).bind fun up2 =>
      if up2 = true then perc_up_max (pushState q i p) q.firstEmpty (i : Int)
      else some (pushState q i p)) =
    if q.firstEmpty ≠ 1 ∧ ordLt q.min p b.priority then
      perc_up q.min (pushState q i p) q.firstEmpty (i : Int) else some (pushState q i p)
  have hfe2 : (pushState q i p).firstEmpty = q.firstEmpty := rfl
  have hmin : (pushState q i p).min = q.min := rfl
  by_cases h1 : q.firstEmpty = 1
  · have e1 : ins_test_min (pushState q i p) p = some false := by
      simp [ins_test_min, hfe2, h1]
    have e2 : ins_test_max (pushState q i p) p = some false := by
      simp [ins_test_max, hfe2, h1]
    rw [e1]
    simp [e2, h1]
  · have hb2 := hb h1
    have hne : q.firstEmpty / 2 ≠ q.firstEmpty := by omega
    have hb3 : look (pushState q i p).heap (q.firstEmpty / 2) = some b := by
      show look (q.heap.set q.firstEmpty _) _ = _
      rw [look_set _ _ _ _ hl]
      simp [hne, hb2]
    have hb4 : heapAt (pushState q i p) (q.firstEmpty / 2) = some b := hb3
    rcases Bool.eq_false_or_eq_true q.min with hm | hm
    · have e1 : ins_test_min (pushState q i p) p = some (decide (p < b.priority)) := by
        simp only [ins_test_min, hfe2, hmin]
        rw [if_pos ⟨h1, hm⟩, hb4]
        rfl
      have e2 : ins_test_max (pushState q i p) p = some false := by
        simp [ins_test_max, hmin, hm]
      rw [e1, hm]
      simp only [Option.some_bind, e2, Bool.false_eq_true, if_false]
      by_cases hlt : p < b.priority
      · simp [hlt, h1, ordLt, perc_up]
      · simp [hlt, h1, ordLt, perc_up]
    · have e1 : ins_test_min (pushState q i p) p = some false := by
        simp [ins_test_min, hmin, hm]
      have e2 : ins_test_max (pushState q i p) p = some (decide (p > b.priority)) := by
        simp only [ins_test_max, hfe2, hmin]
        rw [if_pos ⟨h1, hm⟩, hb4]
        rfl
      rw [e1, hm]
      simp only [Option.some_bind, Bool.false_eq_true, if_false, e2]
      by_cases hlt : p > b.priority
      · simp [hlt, h1, ordLt, perc_up]
      · simp [hlt, h1, ordLt, perc_up]

end Insert

section InsertSpec

variable [LinearOrder α]

theorem insert_ok (q : pqueue α) (hq : Inv q) (i : Nat) (p : α) (hi : i < q.cap)
    (h0 : q.ids[i]? = some 0) :
    ∃ q2, insert q (i : Int) p = some (q2, true) ∧ Inv q2 ∧
      q2.firstEmpty = q.firstEmpty + 1 ∧ q2.cap = q.cap ∧ q2.min = q.min ∧
      ∀ nd, Nodes q2.heap (size q2) nd ↔
        nd = { priority := p, id := (i : Int) } ∨ Nodes q.heap (size q) nd := by
  obtain ⟨hpos, g, ho⟩ := hq
  generalize hn : size q = n at g ho
  have hfe : q.firstEmpty = n + 1 := by simp only [size] at hn; omega
  have hlt := g.lt_cap_of_absent hi h0
  have hl : q.firstEmpty < q.heap.length := by rw [g.heap_len]; omega
  have hg2 := g.push hfe hi h0 p
  have hnodes := fun nd => Nodes.push_iff hfe hl i p nd
  have hh : ∀ s, look (pushState q i p).heap s =
      if s = n + 1 then some { priority := p, id := (i : Int) } else look q.heap s := by
    intro s
    show look (q.heap.set q.firstEmpty _) s = _
    rw [look_set _ _ _ _ hl, hfe]
  -- the parent of the new slot
  have hpar : ∃ b : Node α, q.firstEmpty ≠ 1 → look q.heap (q.firstEmpty / 2) = some b := by
    by_cases h1 : q.firstEmpty = 1
    · exact ⟨{ priority := p, id := (i : Int) }, fun h => absurd h1 h⟩
    · obtain ⟨b, _, hb, _, _⟩ := g.slot (q.firstEmpty / 2) (by omega) (by omega)
      exact ⟨b, fun _ => hb⟩
  obtain ⟨b, hb⟩ := hpar
  rw [insert_absent q i p b hi h0 hl (by omega) hb]
  have hex : HeapEx q.min (pushState q i p).heap (n + 1) (fun s => s ≠ q.firstEmpty) := by
    intro s c pp hs2 hsn hP hc hp
    rw [hh] at hc hp
    have e1 : s ≠ n + 1 := by omega
    have e2 : s / 2 ≠ n + 1 := by omega
    simp only [e1, e2, if_false] at hc hp
    exact ho s c pp hs2 (by omega) trivial hc hp
  have fin : ∀ q3 : pqueue α, Good q3 (n + 1) → HeapOrd q.min q3.heap (n + 1) →
      (∀ nd, Nodes q3.heap (n + 1) nd ↔ Nodes (pushState q i p).heap (n + 1) nd) →
      q3.min = q.min → q3.cap = q.cap → q3.firstEmpty = q.firstEmpty →
      ∃ q2, some ({ q3 with firstEmpty := q3.firstEmpty + 1 }, true) = some (q2, true) ∧
        Inv q2 ∧ q2.firstEmpty = q.firstEmpty + 1 ∧ q2.cap = q.cap ∧ q2.min = q.min ∧
        ∀ nd, Nodes q2.heap (size q2) nd ↔
          nd = { priority := p, id := (i : Int) } ∨ Nodes q.heap n nd := by
    intro q3 g3 o3 n3 m3 c3 f3
    have hs3 : size { q3 with firstEmpty := q3.firstEmpty + 1 } = n + 1 := by
      simp only [size]; omega
    refine ⟨_, rfl, ⟨?_, ?_, ?_⟩, ?_, c3, m3, ?_⟩
    · show 1 ≤ q3.firstEmpty + 1
      omega
    · rw [hs3]; exact g3.with_firstEmpty _
    · rw [hs3]; show HeapOrd q3.min q3.heap (n + 1); rw [m3]; exact o3
    · show q3.firstEmpty + 1 = q.firstEmpty + 1
      rw [f3]
    · intro nd
      rw [hs3]
      exact (n3 nd).trans (hnodes nd)
  by_cases hc : q.firstEmpty ≠ 1 ∧ ordLt q.min p b.priority
  · rw [if_pos hc]
    have hla : look (pushState q i p).heap q.firstEmpty =
        some { priority := p, id := (i : Int) } := by
      rw [hh]; simp [hfe]
    have hgs : ({ pushState q i p with ids := (pushState q i p).ids.set i q.firstEmpty } :
        pqueue α) = pushState q i p := by
      simp [pushState, List.set_set]
    have hsk : Skip q.min (pushState q i p).heap (n + 1) q.firstEmpty := by
      intro s c gg _ hsn hs _ _
      omega
    obtain ⟨q3, r1, r2, r3, r4, r5, r6, r7⟩ :=
      perc_up_spec q.min (n + 1) { priority := p, id := (i : Int) } i rfl (pushState q i p)
        q.firstEmpty (by omega) (by omega) hla (by rw [hgs]; exact hg2) hex hsk
    rw [r1]
    exact fin q3 r2 r3 r4 r5 r6 r7
  · rw [if_neg hc]
    apply fin (pushState q i p) hg2 _ (fun _ => Iff.rfl) rfl rfl rfl
    intro s c pp hs2 hsn _ hc1 hp1
    by_cases e : s = q.firstEmpty
    · have h1 : q.firstEmpty ≠ 1 := by omega
      have hb2 := hb h1
      have hnl : ¬ ordLt q.min p b.priority := fun h => hc ⟨h1, h⟩
      rw [hh] at hc1 hp1
      have e1 : s = n + 1 := by omega
      have e2 : s / 2 ≠ n + 1 := by omega
      simp only [e1, if_true] at hc1
      simp only [e2, if_false] at hp1
      rw [e, hb2] at hp1
      cases hc1; cases hp1
      exact ordLe_of_not_ordLt hnl
    · exact hex s c pp hs2 hsn e hc1 hp1

end InsertSpec

theorem setPriority_eq (q : pqueue α) (x : Nat) (a : Node α) (p : α)
    (ha : look q.heap x = some a) :
    setPriority q x p =
      some { q with heap := q.heap.set x (some { priority := p, id := a.id }) } := by
  have hx := look_lt ha
  simp [setPriority, heapAt_eq_look, ha, heapSet, hx]

theorem Good.set_priority {q : pqueue α} {n : Nat} (g : Good q n) {x : Nat} {a : Node α}
    (hx1 : 1 ≤ x) (hxn : x ≤ n) (ha : look q.heap x = some a) (p : α) :
    Good { q with heap := q.heap.set x (some { priority := p, id := a.id }) } n := by
  have hl := look_lt ha
  have hh : ∀ s, look (q.heap.set x (some { priority := p, id := a.id })) s =
      if s = x then some { priority := p, id := a.id } else look q.heap s :=
    fun s => look_set _ _ _ _ hl
  refine ⟨?_, g.ids_len, g.le_cap, ?_, ?_, ?_⟩
  · simpa using g.heap_len
  · intro s hs1 hs2
    obtain ⟨nd, j, k1, k2, k3⟩ := g.slot s hs1 hs2
    by_cases e : s = x
    · subst e
      rw [ha] at k1; cases k1
      exact ⟨{ priority := p, id := a.id }, j, by show look (q.heap.set _ _) _ = _; rw [hh]; simp,
        k2, k3⟩
    · exact ⟨nd, j, by show look (q.heap.set _ _) _ = _; rw [hh]; simp [e, k1], k2, k3⟩
  · intro j s hj hs
    obtain ⟨k1, nd, k2, k3⟩ := g.index j s hj hs
    by_cases e : s = x
    · subst e
      rw [ha] at k2; cases k2
      exact ⟨k1, { priority := p, id := a.id },
        by show look (q.heap.set _ _) _ = _; rw [hh]; simp, k3⟩
    · exact ⟨k1, nd, by show look (q.heap.set _ _) _ = _; rw [hh]; simp [e, k2], k3⟩
  · intro s hs
    show look (q.heap.set _ _) _ = _
    rw [hh]
    have : s ≠ x := by omega
    simp only [this, if_false]
    exact g.empty s hs

section Change

variable [LinearOrder α]

theorem fixup_eq (q1 : pqueue α) (spot : Nat) (id : Int) :
    (if q1.min = true then
      (up_test_min q1 spot).bind fun up =>
      if up then perc_up_min q1 spot id else
      (down_test_min q1 spot).bind fun down =>
      if down then perc_down_min q1 spot id else
      (lone_test_min q1 spot).bind fun lone =>
      if lone then lone_swap q1 spot id else some q1
    else
      (up_test_max q1 spot).bind fun up =>
      if up then perc_up_max q1 spot id else
      (down_test_max q1 spot).bind fun down =>
      if down then perc_down_max q1 spot id else
      (lone_test_max q1 spot).bind fun lone =>
      if lone then lone_swap q1 spot id else some q1) = fixup q1.min q1 spot id := by
  rcases Bool.eq_false_or_eq_true q1.min with hm | hm
  · rw [hm]; rfl
  · rw [hm]; rfl

theorem change_priority_eq (q : pqueue α) (id : Int) (p : α) :
    change_priority q id p =
      if id ≥ q.cap ∨ id < 0 then some (q, false) else
      (idsAt q id).bind fun spot =>
      if spot = 0 then some (q, false) else
      (setPriority q spot p).bind fun q1 =>
      (fixup q1.min q1 spot id).bind fun q2 => some (q2, true) := by
  simp only [change_priority, fixup_eq]

theorem change_priority_reject (q : pqueue α) (id : Int) (p : α) (h : id ≥ q.cap ∨ id < 0) :
    change_priority q id p = some (q, false) := by
  rw [change_priority_eq, if_pos h]

theorem change_priority_absent (q : pqueue α) (i : Nat) (p : α)
    (hi : i < q.cap) (h0 : q.ids[i]? = some 0) :
    change_priority q (i : Int) p = some (q, false) := by
  have : ¬ ((i : Int) ≥ q.cap ∨ (i : Int) < 0) := by omega
  rw [change_priority_eq, if_neg this]
  simp [idsAt_nat, h0]

theorem change_core (q : pqueue α) (n : Nat) (hfe : q.firstEmpty = n + 1) (g : Good q n)
    (i x : Nat) (hx : q.ids[i]? = some x) (hx0 : x ≠ 0) (p : α)
    (h1 : HeapEx q.min q.heap n (fun s => s ≠ x ∧ s / 2 ≠ x)) (h2 : Skip q.min q.heap n x) :
    ∃ q2, change_priority q (i : Int) p = some (q2, true) ∧ Good q2 n ∧
      HeapOrd q.min q2.heap n ∧ q2.min = q.min ∧ q2.cap = q.cap ∧
      q2.firstEmpty = q.firstEmpty ∧
      ∀ nd, Nodes q2.heap n nd ↔
        nd = { priority := p, id := (i : Int) } ∨ (nd.id ≠ (i : Int) ∧ Nodes q.heap n nd) := by
  obtain ⟨hxn, a, ha, hia⟩ := g.index i x hx hx0
  have hx1 : 1 ≤ x := by omega
  have hil : i < q.ids.length := (List.getElem?_eq_some.mp hx).1
  have hi : i < q.cap := by rw [← g.ids_len]; exact hil
  have hg : ¬ ((i : Int) ≥ q.cap ∨ (i : Int) < 0) := by omega
  have hl := look_lt ha
  have hh : ∀ s, look (q.heap.set x (some { priority := p, id := a.id })) s =
      if s = x then some { priority := p, id := a.id } else look q.heap s :=
    fun s => look_set _ _ _ _ hl
  rw [change_priority_eq, if_neg hg]
  simp only [idsAt_nat, hx, Option.some_bind, hx0, if_false, setPriority_eq q x a p ha]
  have g1 := g.set_priority hx1 hxn ha p
  have e1 : HeapEx q.min (q.heap.set x (some { priority := p, id := a.id })) n
      (fun s => s ≠ x ∧ s / 2 ≠ x) := by
    intro s c pp hs2 hsn hP hc hp
    rw [hh] at hc hp
    simp only [hP.1, hP.2, if_false] at hc hp
    exact h1 s c pp hs2 hsn hP hc hp
  have e2 : Skip q.min (q.heap.set x (some { priority := p, id := a.id })) n x := by
    intro s c gg hx2 hsn hs hc hgg
    rw [hh] at hc hgg
    have k1 : s ≠ x := by omega
    have k2 : x / 2 ≠ x := by omega
    simp only [k1, k2, if_false] at hc hgg
    exact h2 s c gg hx2 hsn hs hc hgg
  have hla : look (q.heap.set x (some { priority := p, id := a.id })) x =
      some { priority := p, id := a.id } := by
    rw [hh]; simp
  obtain ⟨q2, r1, r2, r3, r4, r5, r6, r7⟩ :=
    fixup_spec q.min n { priority := p, id := a.id } i hia
      { q with heap := q.heap.set x (some { priority := p, id := a.id }) } x hfe hx1 hxn hla g1
      e1 e2
  refine ⟨q2, ?_, r2, r3, r5, r6, r7, ?_⟩
  · show (fixup q.min _ x (i : Int)).bind _ = _
    rw [r1]
    rfl
  · intro nd
    rw [r4 nd]
    constructor
    · rintro ⟨s, k1, k2, k3⟩
      rw [show look ({ q with heap := q.heap.set x (some { priority := p, id := a.id }) } :
        pqueue α).heap s = look (q.heap.set x (some { priority := p, id := a.id })) s from rfl,
        hh] at k3
      by_cases e : s = x
      · simp only [e, if_true] at k3
        left
        rw [← Option.some.inj k3, hia]
      · simp only [e, if_false] at k3
        right
        refine ⟨?_, s, k1, k2, k3⟩
        intro hid
        exact e (g.inj k1 k2 hx1 hxn k3 ha (by rw [hid, hia]))
    · rintro (h | ⟨hid, s, k1, k2, k3⟩)
      · refine ⟨x, hx1, hxn, ?_⟩
        show look (q.heap.set x _) x = _
        rw [hh, h, hia]; simp
      · refine ⟨s, k1, k2, ?_⟩
        show look (q.heap.set x _) s = _
        rw [hh]
        have : s ≠ x := by
          intro e; subst e; rw [ha] at k3; cases k3; exact hid hia
        simp [this, k3]

theorem Inv.skip {q : pqueue α} (hq : Inv q) (x : Nat) (hx1 : 1 ≤ x) (hxn : x ≤ size q) :
    Skip q.min q.heap (size q) x := by
  intro s c gg hx2 hsn hs hc hgg
  obtain ⟨a, _, ha, _, _⟩ := hq.good.slot x hx1 hxn
  have k1 := hq.ord x a gg hx2 hxn trivial ha hgg
  have k2 := hq.ord s c a (by omega) hsn trivial hc (by rw [hs]; exact ha)
  exact ordLe_trans k1 k2

theorem change_priority_ok (q : pqueue α) (hq : Inv q) (i x : Nat) (p : α)
    (hx : q.ids[i]? = some x) (hx0 : x ≠ 0) :
    ∃ q2, change_priority q (i : Int) p = some (q2, true) ∧ Inv q2 ∧
      q2.firstEmpty = q.firstEmpty ∧ q2.cap = q.cap ∧ q2.min = q.min ∧
      ∀ nd, Nodes q2.heap (size q2) nd ↔
        nd = { priority := p, id := (i : Int) } ∨
          (nd.id ≠ (i : Int) ∧ Nodes q.heap (size q) nd) := by
  have hfe : q.firstEmpty = size q + 1 := by have := hq.pos; simp only [size]; omega
  obtain ⟨hxn, _⟩ := hq.good.index i x hx hx0
  obtain ⟨q2, r1, r2, r3, r4, r5, r6, r7⟩ :=
    change_core q (size q) hfe hq.good i x hx hx0 p
      (fun s c pp hs2 hsn _ hc hp => hq.ord s c pp hs2 hsn trivial hc hp)
      (hq.skip x (by omega) hxn)
  have hs : size q2 = size q := by simp only [size, r6]
  refine ⟨q2, r1, ⟨by rw [r6]; exact hq.pos, by rw [hs]; exact r2, by rw [hs, r4]; exact r3⟩,
    r6, r5, r4, ?_⟩
  intro nd
  rw [hs]
  exact r7 nd

end Change

theorem ids_set_zero (l : List Nat) (i : Nat) (hi : i < l.length) (j : Nat) :
    (l.set i 0)[j]? = if j = i then some 0 else l[j]? := by
  rw [List.getElem?_set]
  by_cases e : i = j
  · subst e; simp [hi]
  · have : ¬ j = i := fun h => e h.symm
    simp [e, this]

theorem Good.pop {q : pqueue α} {n : Nat} (g : Good q (n + 1)) {i : Nat}
    (hx : q.ids[i]? = some (n + 1)) :
    Good (popState q i (n + 1)) n ∧
      ∀ nd, Nodes (popState q i (n + 1)).heap n nd ↔
        (nd.id ≠ (i : Int) ∧ Nodes q.heap (n + 1) nd) := by
  obtain ⟨_, a, ha, hia⟩ := g.index i (n + 1) hx (by omega)
  have hl := look_lt ha
  have hil : i < q.ids.length := (List.getElem?_eq_some.mp hx).1
  have hh : ∀ s, look (popState q i (n + 1)).heap s =
      if s = n + 1 then none else look q.heap s :=
    fun s => look_set _ _ _ _ hl
  have hids : ∀ j, (popState q i (n + 1)).ids[j]? = if j = i then some 0 else q.ids[j]? :=
    ids_set_zero q.ids i hil
  refine ⟨⟨?_, ?_, ?_, ?_, ?_, ?_⟩, ?_⟩
  · simpa [popState] using g.heap_len
  · simpa [popState] using g.ids_len
  · have := g.le_cap
    show n ≤ q.cap
    omega
  · intro s hs1 hs2
    obtain ⟨nd, j, k1, k2, k3⟩ := g.slot s hs1 (by omega)
    refine ⟨nd, j, ?_, k2, ?_⟩
    · rw [hh]
      have : s ≠ n + 1 := by omega
      simp [this, k1]
    · rw [hids]
      have : j ≠ i := by
        intro e; subst e; rw [hx] at k3
        have := Option.some.inj k3
        omega
      simp [this, k3]
  · intro j s hj hs
    rw [hids] at hj
    by_cases e : j = i
    · simp only [e, if_true] at hj
      exact absurd (Option.some.inj hj).symm hs
    · simp only [e, if_false] at hj
      obtain ⟨k1, nd, k2, k3⟩ := g.index j s hj hs
      have hne : s ≠ n + 1 := by
        intro e2
        subst e2
        rw [ha] at k2; cases k2
        apply e
        have : (j : Int) = (i : Int) := by rw [← k3, ← hia]
        exact_mod_cast this
      refine ⟨by omega, nd, ?_, k3⟩
      rw [hh]
      simp [hne, k2]
  · intro s hs
    rw [hh]
    by_cases e : s = n + 1
    · simp [e]
    · simp only [e, if_false]
      exact g.empty s (by omega)
  · intro nd
    constructor
    · rintro ⟨s, k1, k2, k3⟩
      rw [hh] at k3
      have e : s ≠ n + 1 := by omega
      simp only [e, if_false] at k3
      refine ⟨?_, s, k1, by omega, k3⟩
      intro hid
      have := g.inj k1 (by omega) (by omega) (le_refl _) k3 ha (by rw [hid, hia])
      omega
    · rintro ⟨hid, s, k1, k2, k3⟩
      have e : s ≠ n + 1 := by
        intro e; subst e; rw [ha] at k3; cases k3; exact hid hia
      refine ⟨s, k1, by omega, ?_⟩
      rw [hh]
      simp [e, k3]

theorem Good.mid {q : pqueue α} {n : Nat} (g : Good q (n + 1)) (hfe : q.firstEmpty = n + 2)
    {i x : Nat} (hx : q.ids[i]? = some x) (hx0 : x ≠ 0) (hxn : x ≠ n + 1)
    {last : Node α} {il : Nat} (hlast : look q.heap (n + 1) = some last)
    (hil : last.id = (il : Int)) :
    Good (midState q i x last il) n ∧
      look (midState q i x last il).heap x = some last ∧
      (midState q i x last il).ids[il]? = some x ∧
      (∀ s, s ≠ x → s ≠ n + 1 → look (midState q i x last il).heap s = look q.heap s) ∧
      ∀ nd, Nodes (midState q i x last il).heap n nd ↔
        (nd.id ≠ (i : Int) ∧ Nodes q.heap (n + 1) nd) := by
  obtain ⟨hxle, a, ha, hia⟩ := g.index i x hx hx0
  have hx1 : 1 ≤ x := by omega
  obtain ⟨il2, e1, e2, e3⟩ := g.id_of (by omega) (le_refl _) hlast
  have : il2 = il := by
    have : (il2 : Int) = (il : Int) := by rw [← e1, ← hil]
    exact_mod_cast this
  subst this
  have hne : il2 ≠ i := by
    intro e; subst e; rw [hx] at e2
    exact hxn (Option.some.inj e2)
  have hl := look_lt ha
  have hl2 := look_lt hlast
  have hi : i < q.ids.length := (List.getElem?_eq_some.mp hx).1
  have hh : ∀ s, look (midState q i x last il2).heap s =
      if s = n + 1 then none else if s = x then some last else look q.heap s := by
    intro s
    show look ((q.heap.set x (some last)).set (q.firstEmpty - 1) none) s = _
    have : q.firstEmpty - 1 = n + 1 := by omega
    rw [this, look_set _ _ _ _ (by simpa using hl2), look_set _ _ _ _ hl]
  have hids : ∀ j, (midState q i x last il2).ids[j]? =
      if j = il2 then some x else if j = i then some 0 else q.ids[j]? := by
    intro j
    show ((q.ids.set i 0).set il2 x)[j]? = _
    rw [List.getElem?_set, ids_set_zero _ _ hi]
    by_cases e : il2 = j
    · subst e; simp [e3]
    · have : ¬ j = il2 := fun h => e h.symm
      simp [e, this]
  refine ⟨⟨?_, ?_, ?_, ?_, ?_, ?_⟩, ?_, ?_, ?_, ?_⟩
  · simpa [midState] using g.heap_len
  · simpa [midState] using g.ids_len
  · have := g.le_cap
    show n ≤ q.cap
    omega
  · intro s hs1 hs2
    have k0 : s ≠ n + 1 := by omega
    by_cases e : s = x
    · subst e
      exact ⟨last, il2, by rw [hh]; simp [k0], hil, by rw [hids]; simp⟩
    · obtain ⟨nd, j, k1, k2, k3⟩ := g.slot s hs1 (by omega)
      refine ⟨nd, j, by rw [hh]; simp [k0, e, k1], k2, ?_⟩
      rw [hids]
      have n1 : j ≠ il2 := by
        intro h; subst h; rw [e2] at k3
        exact k0 (Option.some.inj k3).symm
      have n2 : j ≠ i := by
        intro h; subst h; rw [hx] at k3
        exact e (Option.some.inj k3).symm
      simp [n1, n2, k3]
  · intro j s hj hs
    rw [hids] at hj
    by_cases c1 : j = il2
    · simp only [c1, if_true] at hj
      have : s = x := (Option.some.inj hj).symm
      subst this
      refine ⟨by omega, last, ?_, by rw [c1]; exact hil⟩
      rw [hh]; simp [hxn]
    · by_cases c2 : j = i
      · subst c2
        simp only [c1, if_true, if_false] at hj
        exact absurd (Option.some.inj hj).symm hs
      · simp only [c1, c2, if_false] at hj
        obtain ⟨k1, nd, k2, k3⟩ := g.index j s hj hs
        have n1 : s ≠ n + 1 := by
          intro e; subst e; rw [hlast] at k2; cases k2
          apply c1
          have : (j : Int) = (il2 : Int) := by rw [← k3, ← hil]
          exact_mod_cast this
        have n2 : s ≠ x := by
          intro e; subst e; rw [ha] at k2; cases k2
          apply c2
          have : (j : Int) = (i : Int) := by rw [← k3, ← hia]
          exact_mod_cast this
        refine ⟨by omega, nd, ?_, k3⟩
        rw [hh]; simp [n1, n2, k2]
  · intro s hs
    rw [hh]
    by_cases e : s = n + 1
    · simp [e]
    · have : s ≠ x := by omega
      simp only [e, this, if_false]
      exact g.empty s (by omega)
  · rw [hh]; simp [hxn]
  · rw [hids]; simp
  · intro s k1 k2
    rw [hh]; simp [k1, k2]
  · intro nd
    constructor
    · rintro ⟨s, k1, k2, k3⟩
      rw [hh] at k3
      have e : s ≠ n + 1 := by omega
      by_cases e2 : s = x
      · simp only [e, e2, if_true, if_false] at k3
        simp only [hxn, if_false] at k3
        cases k3
        refine ⟨?_, n + 1, by omega, le_refl _, hlast⟩
        rw [hil]
        intro h
        apply hne
        exact_mod_cast h
      · simp only [e, e2, if_false] at k3
        refine ⟨?_, s, k1, by omega, k3⟩
        intro hid
        exact e2 (g.inj k1 (by omega) hx1 hxle k3 ha (by rw [hid, hia]))
    · rintro ⟨hid, s, k1, k2, k3⟩
      have e2 : s ≠ x := by
        intro e; subst e; rw [ha] at k3; cases k3; exact hid hia
      by_cases e : s = n + 1
      · subst e
        rw [hlast] at k3; cases k3
        refine ⟨x, hx1, by omega, ?_⟩
        rw [hh]; simp [hxn]
      · refine ⟨s, k1, by omega, ?_⟩
        rw [hh]; simp [e, e2, k3]

section Remove

variable [LinearOrder α]

theorem remove_reject (q : pqueue α) (id : Int) (h : id ≥ q.cap ∨ id < 0) :
    remove_by_id q id = some (q, false) := by
  simp only [remove_by_id]
  rw [if_pos h]

theorem remove_absent (q : pqueue α) (i : Nat) (hi : i < q.cap) (h0 : q.ids[i]? = some 0) :
    remove_by_id q (i : Int) = some (q, false) := by
  have : ¬ ((i : Int) ≥ q.cap ∨ (i : Int) < 0) := by omega
  simp only [remove_by_id]
  rw [if_neg this]
  simp [idsAt_nat, h0]

theorem remove_last_eq (q : pqueue α) (i x : Nat) (hi : i < q.cap)
    (hx : q.ids[i]? = some x) (hx0 : x ≠ 0) (hxl : x = q.firstEmpty - 1)
    (hl : x < q.heap.length) :
    remove_by_id q (i : Int) = some (popState q i x, true) := by
  have hg : ¬ ((i : Int) ≥ q.cap ∨ (i : Int) < 0) := by omega
  have hil : i < q.ids.length := (List.getElem?_eq_some.mp hx).1
  simp only [remove_by_id]
  rw [if_neg hg]
  simp only [idsAt_nat, hx, Option.some_bind, hx0, if_false]
  rw [if_pos hxl]
  simp [idsAt_nat, hx, heapPtr, heapSet, hl, idsSet, hil, popState]

theorem remove_mid_eq (q : pqueue α) (i x : Nat) (last : Node α) (il : Nat) (hi : i < q.cap)
    (hx : q.ids[i]? = some x) (hx0 : x ≠ 0) (hxl : x ≠ q.firstEmpty - 1)
    (hl : x < q.heap.length) (hlast : look q.heap (q.firstEmpty - 1) = some last)
    (hil : last.id = (il : Int)) (hill : il < q.ids.length) :
    remove_by_id q (i : Int) =
      (change_priority (midState q i x last il) (il : Int) last.priority).bind fun r =>
        some (r.1, true) := by
  have hg : ¬ ((i : Int) ≥ q.cap ∨ (i : Int) < 0) := by omega
  have hi2 : i < q.ids.length := (List.getElem?_eq_some.mp hx).1
  have hl2 := look_lt hlast
  have hl3 := look_getElem hlast hl2
  simp only [remove_by_id]
  rw [if_neg hg]
  simp only [idsAt_nat, hx, Option.some_bind, hx0, if_false]
  rw [if_neg hxl]
  simp only [heapAt_eq_look, hlast, Option.some_bind, hil]
  rw [idsSet_nat _ _ _ hi2]
  simp only [Option.some_bind]
  rw [idsSet_nat _ _ _ (by simpa using hill)]
  simp [heapPtr, heapSet, hl, hl2, hl3, midState]

theorem remove_ok (q : pqueue α) (hq : Inv q) (i x : Nat)
    (hx : q.ids[i]? = some x) (hx0 : x ≠ 0) :
    ∃ q2, remove_by_id q (i : Int) = some (q2, true) ∧ Inv q2 ∧
      q2.firstEmpty + 1 = q.firstEmpty ∧ q2.cap = q.cap ∧ q2.min = q.min ∧
      ∀ nd, Nodes q2.heap (size q2) nd ↔ (nd.id ≠ (i : Int) ∧ Nodes q.heap (size q) nd) := by
  obtain ⟨hpos, g, ho⟩ := hq
  obtain ⟨hxle, a, ha, hia⟩ := g.index i x hx hx0
  have hi2 : i < q.ids.length := (List.getElem?_eq_some.mp hx).1
  have hi : i < q.cap := by rw [← g.ids_len]; exact hi2
  obtain ⟨n, hn⟩ : ∃ n, size q = n + 1 := ⟨size q - 1, by omega⟩
  rw [hn] at g ho hxle
  have hfe : q.firstEmpty = n + 2 := by simp only [size] at hn; omega
  have hl := look_lt ha
  by_cases hxl : x = q.firstEmpty - 1
  · have hxe : x = n + 1 := by omega
    subst hxe
    obtain ⟨g2, hnodes⟩ := g.pop hx
    have hsz : size (popState q i (n + 1)) = n := by
      show q.firstEmpty - 1 - 1 = n
      omega
    refine ⟨popState q i (n + 1), remove_last_eq q i (n + 1) hi hx hx0 hxl hl,
      ⟨?_, by rw [hsz]; exact g2, ?_⟩, ?_, rfl, rfl, ?_⟩
    · show 1 ≤ q.firstEmpty - 1
      omega
    · rw [hsz]
      intro s c p hs2 hsn _ hc hp
      have hh : ∀ s, look (popState q i (n + 1)).heap s =
          if s = n + 1 then none else look q.heap s :=
        fun s => look_set _ _ _ _ hl
      rw [hh] at hc hp
      have k1 : s ≠ n + 1 := by omega
      have k2 : s / 2 ≠ n + 1 := by omega
      simp only [k1, k2, if_false] at hc hp
      exact ho s c p hs2 (by omega) trivial hc hp
    · show q.firstEmpty - 1 + 1 = q.firstEmpty
      omega
    · intro nd
      rw [hsz, hn]
      exact hnodes nd
  · have hxn : x ≠ n + 1 := by omega
    obtain ⟨last, il, hlast, hil, hilx⟩ := g.slot (n + 1) (by omega) (le_refl _)
    have hill : il < q.ids.length := (List.getElem?_eq_some.mp hilx).1
    have hlast2 : look q.heap (q.firstEmpty - 1) = some last := by
      have : q.firstEmpty - 1 = n + 1 := by omega
      rw [this]; exact hlast
    rw [remove_mid_eq q i x last il hi hx hx0 hxl hl hlast2 hil hill]
    obtain ⟨g2, hlx, hidx, hsame, hnodes⟩ := g.mid hfe hx hx0 hxn hlast hil
    have hfe2 : (midState q i x last il).firstEmpty = n + 1 := by
      show q.firstEmpty - 1 = n + 1
      omega
    have hinv : Inv q := ⟨hpos, by rw [hn]; exact g, by rw [hn]; exact ho⟩
    have h1 : HeapEx q.min (midState q i x last il).heap n (fun s => s ≠ x ∧ s / 2 ≠ x) := by
      intro s c p hs2 hsn hP hc hp
      rw [hsame s hP.1 (by omega)] at hc
      rw [hsame (s / 2) hP.2 (by omega)] at hp
      exact ho s c p hs2 (by omega) trivial hc hp
    have h2 : Skip q.min (midState q i x last il).heap n x := by
      intro s c gg hx2 hsn hs hc hgg
      rw [hsame s (by omega) (by omega)] at hc
      rw [hsame (x / 2) (by omega) (by omega)] at hgg
      have := hinv.skip x (by omega) (by rw [hn]; exact hxle)
      exact this s c gg hx2 (by rw [hn]; omega) hs hc hgg
    obtain ⟨q2, r1, r2, r3, r4, r5, r6, r7⟩ :=
      change_core (midState q i x last il) n hfe2 g2 il x hidx hx0 last.priority h1 h2
    have hsz : size q2 = n := by simp only [size, r6, hfe2]; omega
    refine ⟨q2, by rw [r1]; rfl, ⟨by rw [r6, hfe2]; omega, by rw [hsz]; exact r2,
      by rw [hsz, r4]; exact r3⟩, by rw [r6, hfe2, hfe], r5, r4, ?_⟩
    intro nd
    rw [hsz, hn, ← hnodes nd, r7 nd]
    have hlast_eq : ({ priority := last.priority, id := (il : Int) } : Node α) = last := by
      cases last
      simp only at hil
      simp [hil]
    rw [hlast_eq]
    constructor
    · rintro (h | ⟨_, h⟩)
      · exact ⟨x, by omega, by omega, by rw [h]; exact hlx⟩
      · exact h
    · intro h
      by_cases e : nd.id = (il : Int)
      · left
        obtain ⟨s, k1, k2, k3⟩ := h
        have := g2.inj k1 k2 (by omega) (by omega) k3 hlx (by rw [e, hil])
        subst this
        rw [hlx] at k3
        exact (Option.some.inj k3).symm
      · exact Or.inr ⟨e, h⟩

end Remove

theorem int_in_range {id : Int} {cap : Nat} (h : ¬ (id ≥ (cap : Int) ∨ id < 0)) :
    ∃ i : Nat, id = (i : Int) ∧ i < cap := by
  refine ⟨id.toNat, ?_, ?_⟩ <;> omega

theorem Good.ids_total {q : pqueue α} {n : Nat} (g : Good q n) {i : Nat} (hi : i < q.cap) :
    ∃ x, q.ids[i]? = some x := by
  have : i < q.ids.length := by rw [g.ids_len]; exact hi
  exact ⟨q.ids[i], List.getElem?_eq_getElem this⟩

theorem Good.of_construct (N : Nat) (dir : Bool) : Good (construct N dir : pqueue α) 0 := by
  refine ⟨?_, ?_, ?_, ?_, ?_, ?_⟩
  · simp [PQueue.construct]
  · simp [PQueue.construct]
  · exact Nat.zero_le _
  · intro s h1 h2; omega
  · intro i s hi hs
    simp only [PQueue.construct, List.getElem?_replicate] at hi
    split_ifs at hi
    exact absurd (Option.some.inj hi).symm hs
  · intro s _
    simp only [PQueue.construct, look, List.getElem?_replicate]
    split_ifs <;> rfl

theorem get_priority_reject (q : pqueue α) (id : Int) (h : id ≥ q.cap ∨ id < 0) :
    get_priority q id = some none := by
  simp only [get_priority]
  rw [if_pos h]

theorem get_priority_absent (q : pqueue α) (i : Nat) (hi : i < q.cap)
    (h0 : q.ids[i]? = some 0) : get_priority q (i : Int) = some none := by
  have : ¬ ((i : Int) ≥ q.cap ∨ (i : Int) < 0) := by omega
  simp only [get_priority]
  rw [if_neg this]
  simp [idsAt_nat, h0]

theorem get_priority_present (q : pqueue α) (i x : Nat) (nd : Node α) (hi : i < q.cap)
    (hx : q.ids[i]? = some x) (hx0 : x ≠ 0) (hnd : look q.heap x = some nd) :
    get_priority q (i : Int) = some (some nd.priority) := by
  have : ¬ ((i : Int) ≥ q.cap ∨ (i : Int) < 0) := by omega
  simp only [get_priority]
  rw [if_neg this]
  simp [idsAt_nat, hx, hx0, heapAt_eq_look, hnd]

theorem peek_top_empty (q : pqueue α) (h : q.firstEmpty = 1) : peek_top q = some none := by
  simp [peek_top, h]

theorem peek_top_nonempty (q : pqueue α) (nd : Node α) (h : q.firstEmpty ≠ 1)
    (h1 : look q.heap 1 = some nd) : peek_top q = some (some (nd.id, nd.priority)) := by
  simp [peek_top, h, heapAt_eq_look, h1]

section Reach

variable [LinearOrder α]

/-- Under the structural invariant `get_priority` returns, and it reports exactly the
entries of the occupied slots. -/
theorem get_priority_spec {q : pqueue α} {n : Nat} (g : Good q n) (id : Int) :
    ∃ r, get_priority q id = some r ∧
      ∀ p, r = some p ↔ Nodes q.heap n { priority := p, id := id } := by
  by_cases h : id ≥ q.cap ∨ id < 0
  · refine ⟨none, get_priority_reject q id h, ?_⟩
    intro p
    constructor
    · intro e; cases e
    · intro hn
      obtain ⟨i, e1, e2, _⟩ := g.node_id_lt hn
      simp only at e1
      omega
  · obtain ⟨i, rfl, hi⟩ := int_in_range h
    obtain ⟨x, hx⟩ := g.ids_total hi
    by_cases hx0 : x = 0
    · subst hx0
      refine ⟨none, get_priority_absent q i hi hx, ?_⟩
      intro p
      constructor
      · intro e; cases e
      · intro hn
        obtain ⟨j, e1, _, s, k1, _, k3, _⟩ := g.node_id_lt hn
        simp only at e1
        have : i = j := by exact_mod_cast e1
        subst this
        rw [hx] at k3
        have := Option.some.inj k3
        omega
    · obtain ⟨hxn, nd, hnd, hid⟩ := g.index i x hx hx0
      refine ⟨some nd.priority, get_priority_present q i x nd hi hx hx0 hnd, ?_⟩
      intro p
      constructor
      · intro e
        have e2 : nd.priority = p := Option.some.inj e
        refine ⟨x, by omega, hxn, ?_⟩
        rw [hnd, ← e2, ← hid]
      · rintro ⟨s, k1, k2, k3⟩
        have := g.inj k1 k2 (by omega) hxn k3 hnd (by rw [hid])
        subst this
        rw [hnd] at k3
        rw [Option.some.inj k3]

theorem get_priority_congr {q q2 : pqueue α} {n n2 : Nat} (g : Good q n) (g2 : Good q2 n2)
    (id : Int)
    (h : ∀ p, Nodes q2.heap n2 { priority := p, id := id } ↔
      Nodes q.heap n { priority := p, id := id }) :
    get_priority q2 id = get_priority q id := by
  obtain ⟨r, e1, e2⟩ := get_priority_spec g id
  obtain ⟨r2, f1, f2⟩ := get_priority_spec g2 id
  rw [e1, f1]
  congr 1
  cases r2 with
  | none =>
    cases r with
    | none => rfl
    | some p => exact absurd ((f2 p).mpr ((h p).mpr ((e2 p).mp rfl))) (by simp)
  | some p2 => exact ((e2 p2).mpr ((h p2).mp ((f2 p2).mp rfl))).symm

theorem delete_top_empty (q : pqueue α) (h : q.firstEmpty = 1) :
    delete_top q = some (q, none) := by
  simp [delete_top, h]

theorem delete_top_nonempty (q : pqueue α) (nd : Node α) (h : q.firstEmpty ≠ 1)
    (h1 : look q.heap 1 = some nd) :
    delete_top q = (remove_by_id q nd.id).bind fun r =>
      some (r.1, some (nd.id, nd.priority)) := by
  simp [delete_top, h, heapAt_eq_look, h1]

theorem Inv.at_construct (N : Nat) (dir : Bool) : Inv (construct N dir : pqueue α) := by
  refine ⟨by simp [PQueue.construct], Good.of_construct N dir, ?_⟩
  intro s c p hs2 hsn
  simp only [size, PQueue.construct] at hsn
  omega

theorem Inv.top {q : pqueue α} (hq : Inv q) (h : q.firstEmpty ≠ 1) :
    ∃ nd : Node α, ∃ i : Nat, look q.heap 1 = some nd ∧ nd.id = (i : Int) ∧
      q.ids[i]? = some 1 := by
  have := hq.pos
  exact hq.good.slot 1 (le_refl _) (by simp only [size]; omega)

/-- Every public member function returns on a state that satisfies the representation
invariant, and it re-establishes the invariant and keeps `cap` and `min`. -/
theorem Inv.step {q q2 : pqueue α} (hq : Inv q) (op : Op α) (h : op.run q = some q2) :
    Inv q2 ∧ q2.cap = q.cap ∧ q2.min = q.min := by
  cases op with
  | insert id p =>
    simp only [Op.run] at h
    by_cases hr : id ≥ q.cap ∨ id < 0
    · rw [insert_reject q id p hr] at h
      cases h; exact ⟨hq, rfl, rfl⟩
    · obtain ⟨i, rfl, hi⟩ := int_in_range hr
      obtain ⟨x, hx⟩ := hq.good.ids_total hi
      by_cases hx0 : x = 0
      · subst hx0
        obtain ⟨q3, r1, r2, _, r4, r5, _⟩ := insert_ok q hq i p hi hx
        rw [r1] at h
        cases h; exact ⟨r2, r4, r5⟩
      · rw [insert_present q i p x hi hx hx0] at h
        cases h; exact ⟨hq, rfl, rfl⟩
  | change_priority id p =>
    simp only [Op.run] at h
    by_cases hr : id ≥ q.cap ∨ id < 0
    · rw [change_priority_reject q id p hr] at h
      cases h; exact ⟨hq, rfl, rfl⟩
    · obtain ⟨i, rfl, hi⟩ := int_in_range hr
      obtain ⟨x, hx⟩ := hq.good.ids_total hi
      by_cases hx0 : x = 0
      · subst hx0
        rw [change_priority_absent q i p hi hx] at h
        cases h; exact ⟨hq, rfl, rfl⟩
      · obtain ⟨q3, r1, r2, _, r4, r5, _⟩ := change_priority_ok q hq i x p hx hx0
        rw [r1] at h
        cases h; exact ⟨r2, r4, r5⟩
  | remove_by_id id =>
    simp only [Op.run] at h
    by_cases hr : id ≥ q.cap ∨ id < 0
    · rw [remove_reject q id hr] at h
      cases h; exact ⟨hq, rfl, rfl⟩
    · obtain ⟨i, rfl, hi⟩ := int_in_range hr
      obtain ⟨x, hx⟩ := hq.good.ids_total hi
      by_cases hx0 : x = 0
      · subst hx0
        rw [remove_absent q i hi hx] at h
        cases h; exact ⟨hq, rfl, rfl⟩
      · obtain ⟨q3, r1, r2, _, r4, r5, _⟩ := remove_ok q hq i x hx hx0
        rw [r1] at h
        cases h; exact ⟨r2, r4, r5⟩
  | get_priority id =>
    simp only [Op.run] at h
    cases hg : get_priority q id with
    | none => rw [hg] at h; cases h
    | some r => rw [hg] at h; cases h; exact ⟨hq, rfl, rfl⟩
  | delete_top =>
    simp only [Op.run] at h
    by_cases h1 : q.firstEmpty = 1
    · rw [delete_top_empty q h1] at h
      cases h; exact ⟨hq, rfl, rfl⟩
    · obtain ⟨nd, i, hnd, hid, hidx⟩ := hq.top h1
      rw [delete_top_nonempty q nd h1 hnd, hid] at h
      obtain ⟨q3, r1, r2, _, r4, r5, _⟩ := remove_ok q hq i 1 hidx (by omega)
      rw [r1] at h
      cases h; exact ⟨r2, r4, r5⟩
  | peek_top =>
    simp only [Op.run] at h
    cases hg : peek_top q with
    | none => rw [hg] at h; cases h
    | some r => rw [hg] at h; cases h; exact ⟨hq, rfl, rfl⟩
  | capacity =>
    simp only [Op.run] at h
    cases h; exact ⟨hq, rfl, rfl⟩
  | size =>
    simp only [Op.run] at h
    cases h; exact ⟨hq, rfl, rfl⟩

theorem Reachable.inv {N : Nat} {dir : Bool} {q : pqueue α} (h : Reachable N dir q) :
    Inv q ∧ q.cap = N ∧ q.min = dir := by
  induction h with
  | init => exact ⟨Inv.at_construct N dir, rfl, rfl⟩
  | step q q2 op _ hrun ih =>
    obtain ⟨h1, h2, h3⟩ := ih.1.step op hrun
    exact ⟨h1, h2.trans ih.2.1, h3.trans ih.2.2⟩

end Reach

section Claims

variable [LinearOrder α]

theorem Reachable.of_runOps {N : Nat} {dir : Bool} (ops : List (Op α)) :
    ∀ {q q2 : pqueue α}, Reachable N dir q → runOps q ops = some q2 → Reachable N dir q2 := by
  induction ops with
  | nil =>
    intro q q2 hq h
    simp only [PQueue.runOps] at h
    cases h
    exact hq
  | cons op ops ih =>
    intro q q2 hq h
    simp only [PQueue.runOps] at h
    cases h1 : op.run q with
    | none => rw [h1] at h; cases h
    | some q1 =>
      rw [h1] at h
      exact ih (Reachable.step q q1 op hq h1) h

theorem HeapOrd.root_le {m : Bool} {q : pqueue α} {n : Nat} (g : Good q n)
    (ho : HeapOrd m q.heap n) {r : Node α} (hr : look q.heap 1 = some r) :
    ∀ s c, 1 ≤ s → s ≤ n → look q.heap s = some c → ordLe m r.priority c.priority := by
  intro s
  induction s using Nat.strong_induction_on with
  | _ s ih =>
    intro c hs1 hsn hc
    by_cases e : s = 1
    · subst e
      rw [hr] at hc; cases hc
      exact ordLe_refl m _
    · obtain ⟨p, _, hp, _, _⟩ := g.slot (s / 2) (by omega) (by omega)
      have k1 := ih (s / 2) (by omega) p (by omega) (by omega) hp
      have k2 := ho s c p (by omega) hsn trivial hc hp
      exact ordLe_trans k1 k2

end Claims

theorem sampleMin_reachable : Reachable 3 true sampleMin :=
  Reachable.of_runOps [Op.insert 0 5, Op.insert 1 3, Op.insert 2 8] Reachable.init (by decide)

theorem sampleMax_reachable : Reachable 4 false sampleMax :=
  Reachable.of_runOps [Op.insert 0 5, Op.insert 1 3, Op.insert 2 8] Reachable.init (by decide)

section Claims2

variable [LinearOrder α]

/-- C1: in every reachable state with `size() > 0`, `peek_top` succeeds and returns a
pair `(id, p)` such that `get_priority(id)` succeeds with value `p`, and every priority
`r` reported by `get_priority` satisfies `p ≤ r` for a min-heap and `r ≤ p` for a
max-heap. -/
theorem C1_peek_top_extreme (N : Nat) (dir : Bool) (q : pqueue α)
    (hr : Reachable N dir q) (hs : 0 < size q) :
    ∃ id p, peek_top q = some (some (id, p)) ∧ get_priority q id = some (some p) ∧
      ∀ j r, get_priority q j = some (some r) →
        (dir = true → p ≤ r) ∧ (dir = false → r ≤ p) := by
  obtain ⟨hq, _, hm⟩ := hr.inv
  have h1 : q.firstEmpty ≠ 1 := by simp only [size] at hs; omega
  obtain ⟨nd, i, hnd, hid, hidx⟩ := hq.top h1
  have hi : i < q.cap := by
    rw [← hq.good.ids_len]; exact (List.getElem?_eq_some.mp hidx).1
  refine ⟨nd.id, nd.priority, peek_top_nonempty q nd h1 hnd, ?_, ?_⟩
  · rw [hid]
    exact get_priority_present q i 1 nd hi hidx (by omega) hnd
  · intro j r hj
    obtain ⟨r2, e1, e2⟩ := get_priority_spec hq.good j
    rw [e1] at hj
    obtain ⟨s, k1, k2, k3⟩ := (e2 r).mp (Option.some.inj hj)
    have := HeapOrd.root_le hq.good hq.ord hnd s _ k1 k2 k3
    rw [hm] at this
    simp only [ordLe] at this
    constructor
    · intro hd; simpa [hd] using this
    · intro hd; simpa [hd] using this

end Claims2

theorem C1_witness :
    ∃ id p, peek_top sampleMin = some (some (id, p)) ∧
      get_priority sampleMin id = some (some p) ∧
      ∀ j r, get_priority sampleMin j = some (some r) →
        (true = true → p ≤ r) ∧ (true = false → r ≤ p) :=
  C1_peek_top_extreme 3 true sampleMin sampleMin_reachable (by decide)

/-- The three situations of an identifier in a state that satisfies the structural
invariant: out of range, in range and absent, in range and present. -/
theorem Good.id_cases {q : pqueue α} {n : Nat} (g : Good q n) (id : Int) :
    ((id ≥ q.cap ∨ id < 0) ∧ get_priority q id = some none) ∨
    (∃ i : Nat, id = (i : Int) ∧ i < q.cap ∧ q.ids[i]? = some 0 ∧
      get_priority q id = some none) ∨
    (∃ (i x : Nat) (nd : Node α), id = (i : Int) ∧ i < q.cap ∧ q.ids[i]? = some x ∧ x ≠ 0 ∧
      look q.heap x = some nd ∧ get_priority q id = some (some nd.priority)) := by
  by_cases h : id ≥ q.cap ∨ id < 0
  · exact Or.inl ⟨h, get_priority_reject q id h⟩
  · obtain ⟨i, rfl, hi⟩ := int_in_range h
    obtain ⟨x, hx⟩ := g.ids_total hi
    by_cases hx0 : x = 0
    · subst hx0
      exact Or.inr (Or.inl ⟨i, rfl, hi, hx, get_priority_absent q i hi hx⟩)
    · obtain ⟨_, nd, hnd, _⟩ := g.index i x hx hx0
      exact Or.inr (Or.inr ⟨i, x, nd, rfl, hi, hx, hx0, hnd,
        get_priority_present q i x nd hi hx hx0 hnd⟩)

section Claims3

variable [LinearOrder α]

/-- C3 (heap-order invariant): in every reachable state, for every slot `s` with
`2 ≤ s ≤ size()`, the slots `s / 2` and `s` hold entries, and the priority in slot
`s / 2` is `≤` the priority in slot `s` for a min-heap and `≥` it for a max-heap. -/
theorem C3_heap_order (N : Nat) (dir : Bool) (q : pqueue α) (hr : Reachable N dir q)
    (s : Nat) (h2 : 2 ≤ s) (hs : s ≤ size q) :
    ∃ c p, heapAt q s = some c ∧ heapAt q (s / 2) = some p ∧
      (dir = true → p.priority ≤ c.priority) ∧ (dir = false → c.priority ≤ p.priority) := by
  obtain ⟨hq, _, hm⟩ := hr.inv
  obtain ⟨c, _, hc, _, _⟩ := hq.good.slot s (by omega) hs
  obtain ⟨p, _, hp, _, _⟩ := hq.good.slot (s / 2) (by omega) (by omega)
  have := hq.ord s c p h2 hs trivial hc hp
  rw [hm] at this
  simp only [ordLe] at this
  refine ⟨c, p, hc, hp, ?_, ?_⟩
  · intro hd; simpa [hd] using this
  · intro hd; simpa [hd] using this

/-- C4 (bijection invariant): in every reachable state of a queue of capacity `N`, for
every identifier `i < N` either `ids[i]` is `0` and no slot of `1..size()` holds an entry
with identifier `i`, or `1 ≤ ids[i] ≤ size()` and the entry in slot `ids[i]` has
identifier `i`; every slot `s` of `1..size()` holds an entry whose identifier `i` is in
range and satisfies `ids[i] = s`; and no identifier occurs in two slots. -/
theorem C4_bijection (N : Nat) (dir : Bool) (q : pqueue α) (hr : Reachable N dir q) :
    (∀ i : Nat, i < N →
      (idsAt q (i : Int) = some 0 ∧
        ∀ s nd, 1 ≤ s → s ≤ size q → heapAt q s = some nd → nd.id ≠ (i : Int)) ∨
      (∃ x nd, idsAt q (i : Int) = some x ∧ 1 ≤ x ∧ x ≤ size q ∧
        heapAt q x = some nd ∧ nd.id = (i : Int))) ∧
    (∀ s, 1 ≤ s → s ≤ size q →
      ∃ nd, heapAt q s = some nd ∧ 0 ≤ nd.id ∧ nd.id < (N : Int) ∧
        idsAt q nd.id = some s) ∧
    (∀ s t a b, 1 ≤ s → s ≤ size q → 1 ≤ t → t ≤ size q →
      heapAt q s = some a → heapAt q t = some b → a.id = b.id → s = t) := by
  obtain ⟨hq, hcap, _⟩ := hr.inv
  have g := hq.good
  refine ⟨?_, ?_, ?_⟩
  · intro i hi
    rw [← hcap] at hi
    obtain ⟨x, hx⟩ := g.ids_total hi
    by_cases hx0 : x = 0
    · subst hx0
      left
      refine ⟨by rw [idsAt_nat]; exact hx, ?_⟩
      intro s nd hs1 hs2 hnd hid
      obtain ⟨j, e1, e2, _⟩ := g.id_of hs1 hs2 hnd
      have : j = i := by
        have : (j : Int) = (i : Int) := by rw [← e1, hid]
        exact_mod_cast this
      subst this
      rw [hx] at e2
      have := Option.some.inj e2
      omega
    · right
      obtain ⟨hxn, nd, hnd, hid⟩ := g.index i x hx hx0
      exact ⟨x, nd, by rw [idsAt_nat]; exact hx, by omega, hxn, hnd, hid⟩
  · intro s hs1 hs2
    obtain ⟨nd, i, hnd, hid, hidx⟩ := g.slot s hs1 hs2
    have hi : i < q.cap := by
      rw [← g.ids_len]; exact (List.getElem?_eq_some.mp hidx).1
    refine ⟨nd, hnd, by omega, by omega, ?_⟩
    rw [hid, idsAt_nat]
    exact hidx
  · intro s t a b hs1 hs2 ht1 ht2 ha hb hab
    exact g.inj hs1 hs2 ht1 ht2 ha hb hab

/-- C5: in every reachable state of a queue of capacity `N`, `insert(id, p)` returns,
and it returns `false` exactly when `id < 0`, or `id ≥ N`, or `id` is present; a call
that returns `false` leaves the whole state unchanged (so the stored priority of a present
`id` is unchanged). `insert(-1, p)` and `insert(N, p)` fail, and `insert(N - 1, p)`
succeeds on a freshly constructed queue with `N > 0`. -/
theorem C5_insert_failure (N : Nat) (dir : Bool) (q : pqueue α) (hr : Reachable N dir q)
    (id : Int) (p : α) :
    (∃ q2 b, insert q id p = some (q2, b) ∧
      (b = false ↔ (id < 0 ∨ id ≥ (N : Int) ∨ ∃ r, get_priority q id = some (some r))) ∧
      (b = false → q2 = q ∧ get_priority q2 id = get_priority q id)) ∧
    insert q (-1) p = some (q, false) ∧
    insert q (N : Int) p = some (q, false) ∧
    (0 < N → ∃ q3, insert (construct N dir : pqueue α) ((N : Int) - 1) p = some (q3, true)) := by
  obtain ⟨hq, hcap, _⟩ := hr.inv
  refine ⟨?_, insert_reject q _ p (Or.inr (by omega)),
    insert_reject q _ p (Or.inl (by rw [hcap])), ?_⟩
  · rcases hq.good.id_cases id with
      ⟨h, hg⟩ | ⟨i, rfl, hi, hx, hg⟩ | ⟨i, x, nd, rfl, hi, hx, hx0, _, hg⟩
    · refine ⟨q, false, insert_reject q id p h, ?_, fun _ => ⟨rfl, rfl⟩⟩
      constructor
      · intro _
        rw [hcap] at h
        rcases h with h | h
        · exact Or.inr (Or.inl h)
        · exact Or.inl h
      · intro _; rfl
    · obtain ⟨q2, r1, _⟩ := insert_ok q hq i p hi hx
      refine ⟨q2, true, r1, ?_, fun h => by cases h⟩
      constructor
      · intro h; cases h
      · rintro (h | h | ⟨r, h⟩)
        · omega
        · rw [hcap] at hi; omega
        · rw [hg] at h; cases h
    · refine ⟨q, false, insert_present q i p x hi hx hx0, ?_, fun _ => ⟨rfl, rfl⟩⟩
      constructor
      · intro _
        exact Or.inr (Or.inr ⟨_, hg⟩)
      · intro _; rfl
  · intro hN
    have hc : Inv (construct N dir : pqueue α) := Inv.at_construct N dir
    have e : ((N : Int) - 1) = ((N - 1 : Nat) : Int) := by omega
    have hx : (construct N dir : pqueue α).ids[N - 1]? = some 0 := by
      simp only [construct, List.getElem?_replicate]
      rw [if_pos (by omega)]
    obtain ⟨q3, r1, _⟩ := insert_ok (construct N dir) hc (N - 1) p
      (by show N - 1 < N; omega) hx
    exact ⟨q3, by rw [e]; exact r1⟩

/-- C6: in every reachable state, for an in-range identifier `id` that is absent,
`insert(id, p)` returns `true`; afterwards `size()` is one more than before,
`get_priority(id)` succeeds with value `p`, and `get_priority(j)` is unchanged for every
other identifier `j`. -/
theorem C6_insert_effect (N : Nat) (dir : Bool) (q : pqueue α) (hr : Reachable N dir q)
    (id : Int) (p : α) (h0 : 0 ≤ id) (hN : id < (N : Int))
    (habs : get_priority q id = some none) :
    ∃ q2, insert q id p = some (q2, true) ∧ size q2 = size q + 1 ∧
      get_priority q2 id = some (some p) ∧
      ∀ j, j ≠ id → get_priority q2 j = get_priority q j := by
  obtain ⟨hq, hcap, _⟩ := hr.inv
  rcases hq.good.id_cases id with ⟨h, _⟩ | ⟨i, rfl, hi, hx, _⟩ | ⟨i, x, nd, rfl, _, _, _, _, hg⟩
  · rw [hcap] at h; omega
  · obtain ⟨q2, r1, r2, r3, _, _, r6⟩ := insert_ok q hq i p hi hx
    refine ⟨q2, r1, by simp only [size, r3]; have := hq.pos; omega, ?_, ?_⟩
    · obtain ⟨r, e1, e2⟩ := get_priority_spec r2.good (i : Int)
      rw [e1]
      congr 1
      exact (e2 p).mpr ((r6 _).mpr (Or.inl rfl))
    · intro j hj
      apply get_priority_congr hq.good r2.good
      intro p2
      rw [r6]
      constructor
      · rintro (h | h)
        · exact absurd (congrArg Node.id h) hj
        · exact h
      · exact Or.inr
  · rw [hg] at habs; cases habs

/-- C7: in every reachable state of a queue of capacity `N`, `change_priority(id, p)`
returns, and it returns `false` exactly when `id < 0`, or `id ≥ N`, or `id` is absent;
a call that returns `false` leaves the whole state unchanged. -/
theorem C7_change_priority_failure (N : Nat) (dir : Bool) (q : pqueue α)
    (hr : Reachable N dir q) (id : Int) (p : α) :
    ∃ q2 b, change_priority q id p = some (q2, b) ∧
      (b = false ↔ (id < 0 ∨ id ≥ (N : Int) ∨ get_priority q id = some none)) ∧
      (b = false → q2 = q) := by
  obtain ⟨hq, hcap, _⟩ := hr.inv
  rcases hq.good.id_cases id with
    ⟨h, hg⟩ | ⟨i, rfl, hi, hx, hg⟩ | ⟨i, x, nd, rfl, hi, hx, hx0, _, hg⟩
  · exact ⟨q, false, change_priority_reject q id p h, ⟨fun _ => Or.inr (Or.inr hg), fun _ => rfl⟩,
      fun _ => rfl⟩
  · exact ⟨q, false, change_priority_absent q i p hi hx,
      ⟨fun _ => Or.inr (Or.inr hg), fun _ => rfl⟩, fun _ => rfl⟩
  · obtain ⟨q2, r1, _⟩ := change_priority_ok q hq i x p hx hx0
    refine ⟨q2, true, r1, ?_, fun h => by cases h⟩
    constructor
    · intro h; cases h
    · rintro (h | h | h)
      · omega
      · rw [hcap] at hi; omega
      · rw [hg] at h; cases h

/-- C8: in every reachable state, for a present identifier `id`, `change_priority(id, p)`
returns `true`; afterwards `get_priority(id)` succeeds with value `p`, `size()` is
unchanged, and `get_priority(j)` is unchanged for every other identifier `j`. -/
theorem C8_change_priority_effect (N : Nat) (dir : Bool) (q : pqueue α)
    (hr : Reachable N dir q) (id : Int) (p r0 : α)
    (hpres : get_priority q id = some (some r0)) :
    ∃ q2, change_priority q id p = some (q2, true) ∧ size q2 = size q ∧
      get_priority q2 id = some (some p) ∧
      ∀ j, j ≠ id → get_priority q2 j = get_priority q j := by
  obtain ⟨hq, hcap, _⟩ := hr.inv
  rcases hq.good.id_cases id with ⟨_, hg⟩ | ⟨i, rfl, _, _, hg⟩ | ⟨i, x, nd, rfl, hi, hx, hx0, _, _⟩
  · rw [hg] at hpres; cases hpres
  · rw [hg] at hpres; cases hpres
  · obtain ⟨q2, r1, r2, r3, _, _, r6⟩ := change_priority_ok q hq i x p hx hx0
    refine ⟨q2, r1, by simp only [size, r3], ?_, ?_⟩
    · obtain ⟨r, e1, e2⟩ := get_priority_spec r2.good (i : Int)
      rw [e1]
      congr 1
      exact (e2 p).mpr ((r6 _).mpr (Or.inl rfl))
    · intro j hj
      apply get_priority_congr hq.good r2.good
      intro p2
      rw [r6]
      constructor
      · rintro (h | h)
        · exact absurd (congrArg Node.id h) hj
        · exact h.2
      · intro h
        exact Or.inr ⟨hj, h⟩

/-- C10: in every reachable state of a queue of capacity `N`, `remove_by_id(id)` returns,
and it returns `false` exactly when `id < 0`, or `id ≥ N`, or `id` is absent; a call that
returns `false` leaves the whole state unchanged. -/
theorem C10_remove_failure (N : Nat) (dir : Bool) (q : pqueue α)
    (hr : Reachable N dir q) (id : Int) :
    ∃ q2 b, remove_by_id q id = some (q2, b) ∧
      (b = false ↔ (id < 0 ∨ id ≥ (N : Int) ∨ get_priority q id = some none)) ∧
      (b = false → q2 = q) := by
  obtain ⟨hq, hcap, _⟩ := hr.inv
  rcases hq.good.id_cases id with
    ⟨h, hg⟩ | ⟨i, rfl, hi, hx, hg⟩ | ⟨i, x, nd, rfl, hi, hx, hx0, _, hg⟩
  · exact ⟨q, false, remove_reject q id h, ⟨fun _ => Or.inr (Or.inr hg), fun _ => rfl⟩,
      fun _ => rfl⟩
  · exact ⟨q, false, remove_absent q i hi hx,
      ⟨fun _ => Or.inr (Or.inr hg), fun _ => rfl⟩, fun _ => rfl⟩
  · obtain ⟨q2, r1, _⟩ := remove_ok q hq i x hx hx0
    refine ⟨q2, true, r1, ?_, fun h => by cases h⟩
    constructor
    · intro h; cases h
    · rintro (h | h | h)
      · omega
      · rw [hcap] at hi; omega
      · rw [hg] at h; cases h

end Claims3

theorem C3_witness :
    ∃ c p, heapAt sampleMin 3 = some c ∧ heapAt sampleMin (3 / 2) = some p ∧
      (true = true → p.priority ≤ c.priority) ∧ (true = false → c.priority ≤ p.priority) :=
  C3_heap_order 3 true sampleMin sampleMin_reachable 3 (by decide) (by decide)

theorem C4_witness :
    (∀ i : Nat, i < 3 →
      (idsAt sampleMin (i : Int) = some 0 ∧
        ∀ s nd, 1 ≤ s → s ≤ size sampleMin → heapAt sampleMin s = some nd → nd.id ≠ (i : Int)) ∨
      (∃ x nd, idsAt sampleMin (i : Int) = some x ∧ 1 ≤ x ∧ x ≤ size sampleMin ∧
        heapAt sampleMin x = some nd ∧ nd.id = (i : Int))) ∧
    (∀ s, 1 ≤ s → s ≤ size sampleMin →
      ∃ nd, heapAt sampleMin s = some nd ∧ 0 ≤ nd.id ∧ nd.id < ((3 : Nat) : Int) ∧
        idsAt sampleMin nd.id = some s) ∧
    (∀ s t a b, 1 ≤ s → s ≤ size sampleMin → 1 ≤ t → t ≤ size sampleMin →
      heapAt sampleMin s = some a → heapAt sampleMin t = some b → a.id = b.id → s = t) :=
  C4_bijection 3 true sampleMin sampleMin_reachable

theorem C5_witness :
    (∃ q2 b, insert sampleMin 1 7 = some (q2, b) ∧
      (b = false ↔ ((1 : Int) < 0 ∨ (1 : Int) ≥ ((3 : Nat) : Int) ∨
        ∃ r, get_priority sampleMin 1 = some (some r))) ∧
      (b = false → q2 = sampleMin ∧ get_priority q2 1 = get_priority sampleMin 1)) ∧
    insert sampleMin (-1) 7 = some (sampleMin, false) ∧
    insert sampleMin ((3 : Nat) : Int) 7 = some (sampleMin, false) ∧
    (0 < 3 → ∃ q3, insert (construct 3 true : pqueue Int) (((3 : Nat) : Int) - 1) 7 =
      some (q3, true)) :=
  C5_insert_failure 3 true sampleMin sampleMin_reachable 1 7

theorem C6_witness :
    ∃ q2, insert sampleMax 3 9 = some (q2, true) ∧ size q2 = size sampleMax + 1 ∧
      get_priority q2 3 = some (some 9) ∧
      ∀ j, j ≠ 3 → get_priority q2 j = get_priority sampleMax j :=
  C6_insert_effect 4 false sampleMax sampleMax_reachable 3 9 (by decide) (by decide) (by decide)

theorem C7_witness :
    ∃ q2 b, change_priority sampleMin 5 1 = some (q2, b) ∧
      (b = false ↔ ((5 : Int) < 0 ∨ (5 : Int) ≥ ((3 : Nat) : Int) ∨
        get_priority sampleMin 5 = some none)) ∧
      (b = false → q2 = sampleMin) :=
  C7_change_priority_failure 3 true sampleMin sampleMin_reachable 5 1

theorem C8_witness :
    ∃ q2, change_priority sampleMin 2 1 = some (q2, true) ∧ size q2 = size sampleMin ∧
      get_priority q2 2 = some (some 1) ∧
      ∀ j, j ≠ 2 → get_priority q2 j = get_priority sampleMin j :=
  C8_change_priority_effect 3 true sampleMin sampleMin_reachable 2 1 8 (by decide)

theorem C10_witness :
    ∃ q2 b, remove_by_id sampleMax 3 = some (q2, b) ∧
      (b = false ↔ ((3 : Int) < 0 ∨ (3 : Int) ≥ ((4 : Nat) : Int) ∨
        get_priority sampleMax 3 = some none)) ∧
      (b = false → q2 = sampleMax) :=
  C10_remove_failure 4 false sampleMax sampleMax_reachable 3

section Claims4

variable [LinearOrder α]

theorem get_priority_fresh (N : Nat) (dir : Bool) (j : Int) :
    get_priority (construct N dir : pqueue α) j = some none := by
  obtain ⟨r, e1, e2⟩ := get_priority_spec (Good.of_construct (α := α) N dir) j
  rw [e1]
  cases r with
  | none => rfl
  | some p =>
    obtain ⟨s, k1, k2, _⟩ := (e2 p).mp rfl
    omega

theorem Inv.insert_effect {q : pqueue α} (hq : Inv q) (id : Int) (p : α) (h0 : 0 ≤ id)
    (hN : id < (q.cap : Int)) (habs : get_priority q id = some none) :
    ∃ q2, insert q id p = some (q2, true) ∧ Inv q2 ∧ q2.cap = q.cap ∧ q2.min = q.min ∧
      get_priority q2 id = some (some p) ∧
      ∀ j, j ≠ id → get_priority q2 j = get_priority q j := by
  rcases hq.good.id_cases id with ⟨h, _⟩ | ⟨i, rfl, hi, hx, _⟩ | ⟨i, x, nd, rfl, _, _, _, _, hg⟩
  · omega
  · obtain ⟨q2, r1, r2, _, r4, r5, r6⟩ := insert_ok q hq i p hi hx
    refine ⟨q2, r1, r2, r4, r5, ?_, ?_⟩
    · obtain ⟨r, e1, e2⟩ := get_priority_spec r2.good (i : Int)
      rw [e1]
      congr 1
      exact (e2 p).mpr ((r6 _).mpr (Or.inl rfl))
    · intro j hj
      apply get_priority_congr hq.good r2.good
      intro p2
      rw [r6]
      constructor
      · rintro (h | h)
        · exact absurd (congrArg Node.id h) hj
        · exact h
      · exact Or.inr
  · rw [hg] at habs; cases habs

theorem Inv.change_extreme {q : pqueue α} (hq : Inv q) (id : Int) (p r0 : α)
    (hpres : get_priority q id = some (some r0))
    (hbest : ∀ j r, j ≠ id → get_priority q j = some (some r) → ordLt q.min p r) :
    ∃ q2, change_priority q id p = some (q2, true) ∧
      peek_top q2 = some (some (id, p)) := by
  rcases hq.good.id_cases id with ⟨_, hg⟩ | ⟨i, rfl, _, _, hg⟩ | ⟨i, x, nd, rfl, hi, hx, hx0, _, _⟩
  · rw [hg] at hpres; cases hpres
  · rw [hg] at hpres; cases hpres
  · obtain ⟨q2, r1, r2, r3, _, r5, r6⟩ := change_priority_ok q hq i x p hx hx0
    obtain ⟨hxn, _⟩ := hq.good.index i x hx hx0
    have hs : size q2 = size q := by simp only [size, r3]
    have h1 : q2.firstEmpty ≠ 1 := by
      rw [r3]
      simp only [size] at hxn
      omega
    obtain ⟨t, _, ht, _, _⟩ := r2.top h1
    refine ⟨q2, r1, ?_⟩
    rw [peek_top_nonempty q2 t h1 ht]
    have htn : Nodes q2.heap (size q2) t :=
      ⟨1, le_refl _, by simp only [size]; have := r2.pos; omega, ht⟩
    rcases (r6 t).mp htn with h | ⟨hid, hn⟩
    · rw [h]
    · exfalso
      obtain ⟨s, k1, k2, k3⟩ := (r6 { priority := p, id := (i : Int) }).mpr (Or.inl rfl)
      have hle := HeapOrd.root_le r2.good r2.ord ht s _ k1 k2 k3
      obtain ⟨r, e1, e2⟩ := get_priority_spec hq.good t.id
      have : r = some t.priority := (e2 t.priority).mpr hn
      rw [this] at e1
      have hlt := hbest t.id t.priority hid e1
      rw [r5] at hle
      exact not_ordLt_of_ordLe hle hlt

/-- C9: in a reachable state, when `id` is present and `p` is strictly before the
priority of every other present identifier (strictly smaller for a min-heap, strictly
larger for a max-heap), `change_priority(id, p)` succeeds and `peek_top` then returns
exactly `(id, p)`. Scenario of the specification: inserting `A`, `B`, `C` (distinct, in
range) with priorities `pa`, `pb`, `pc` into a fresh min-heap and then calling
`change_priority(C, pd)` with `pd < pa` and `pd < pb` (as for 5, 3, 8 and 1) makes
`peek_top` return `(C, pd)`. -/
theorem C9_change_then_extreme (N : Nat) (dir : Bool) (q : pqueue α)
    (hr : Reachable N dir q) (id : Int) (p r0 : α)
    (hpres : get_priority q id = some (some r0))
    (hbest : ∀ j r, j ≠ id → get_priority q j = some (some r) →
      (dir = true → p < r) ∧ (dir = false → r < p)) :
    (∃ q2, change_priority q id p = some (q2, true) ∧
      peek_top q2 = some (some (id, p))) ∧
    ∀ (M : Nat) (A B C : Int) (pa pb pc pd : α),
      0 ≤ A → A < (M : Int) → 0 ≤ B → B < (M : Int) → 0 ≤ C → C < (M : Int) →
      A ≠ B → A ≠ C → B ≠ C → pd < pa → pd < pb →
      ∃ q1 q2 q3 q4, insert (construct M true) A pa = some (q1, true) ∧
        insert q1 B pb = some (q2, true) ∧ insert q2 C pc = some (q3, true) ∧
        change_priority q3 C pd = some (q4, true) ∧ peek_top q4 = some (some (C, pd)) := by
  obtain ⟨hq, _, hm⟩ := hr.inv
  constructor
  · apply hq.change_extreme id p r0 hpres
    intro j r hj hg
    have := hbest j r hj hg
    rw [hm]
    simp only [ordLt]
    cases dir
    · simpa using this.2
    · simpa using this.1
  · intro M A B C pa pb pc pd hA0 hA hB0 hB hC0 hC hAB hAC hBC hda hdb
    have i0 : Inv (construct M true : pqueue α) := Inv.at_construct M true
    obtain ⟨q1, a1, a2, a3, a4, a5, a6⟩ :=
      i0.insert_effect A pa hA0 hA (get_priority_fresh M true A)
    obtain ⟨q2, b1, b2, b3, b4, b5, b6⟩ :=
      a2.insert_effect B pb hB0 (by rw [a3]; exact hB)
        (by rw [a6 B (Ne.symm hAB)]; exact get_priority_fresh M true B)
    obtain ⟨q3, c1, c2, c3, c4, c5, c6⟩ :=
      b2.insert_effect C pc hC0 (by rw [b3, a3]; exact hC)
        (by rw [b6 C (Ne.symm hBC), a6 C (Ne.symm hAC)]; exact get_priority_fresh M true C)
    have hmin : q3.min = true := by rw [c4, b4, a4]; rfl
    obtain ⟨q4, d1, d2⟩ := c2.change_extreme C pd pc c5 (by
      intro j r hj hg
      rw [hmin]
      simp only [ordLt, if_true]
      rw [c6 j hj] at hg
      by_cases e1 : j = B
      · rw [e1, b5] at hg
        cases hg
        exact hdb
      · rw [b6 j e1] at hg
        by_cases e2 : j = A
        · rw [e2, a5] at hg
          cases hg
          exact hda
        · rw [a6 j e2, get_priority_fresh] at hg
          cases hg)
    exact ⟨q1, q2, q3, q4, a1, b1, c1, d1, d2⟩

end Claims4

theorem C9_witness :
    (∃ q2, change_priority sampleMin 2 1 = some (q2, true) ∧
      peek_top q2 = some (some (2, 1))) ∧
    ∀ (M : Nat) (A B C : Int) (pa pb pc pd : Int),
      0 ≤ A → A < (M : Int) → 0 ≤ B → B < (M : Int) → 0 ≤ C → C < (M : Int) →
      A ≠ B → A ≠ C → B ≠ C → pd < pa → pd < pb →
      ∃ q1 q2 q3 q4, insert (construct M true) A pa = some (q1, true) ∧
        insert q1 B pb = some (q2, true) ∧ insert q2 C pc = some (q3, true) ∧
        change_priority q3 C pd = some (q4, true) ∧ peek_top q4 = some (some (C, pd)) :=
  C9_change_then_extreme 3 true sampleMin sampleMin_reachable 2 1 8 (by decide) (by
    intro j r hj hg
    refine ⟨fun _ => ?_, fun h => by cases h⟩
    have h3 := (Reachable.inv sampleMin_reachable).1.good
    rcases h3.id_cases j with ⟨_, e⟩ | ⟨i, _, _, _, e⟩ | ⟨i, x, nd, rfl, hi, hx, hx0, hnd, e⟩
    · rw [e] at hg; cases hg
    · rw [e] at hg; cases hg
    · rw [e] at hg
      have hr : nd.priority = r := Option.some.inj (Option.some.inj hg)
      have hi3 : i < 3 := hi
      have : i = 0 ∨ i = 1 := by
        have : (i : Int) ≠ 2 := hj
        omega
      rcases this with rfl | rfl
      · have : x = 2 := by
          have : sampleMin.ids[0]? = some 2 := rfl
          rw [this] at hx
          exact (Option.some.inj hx).symm
        subst this
        have : look sampleMin.heap 2 = some { priority := 5, id := 0 } := rfl
        rw [this] at hnd
        rw [← hr, ← Option.some.inj hnd]
        decide
      · have : x = 1 := by
          have : sampleMin.ids[1]? = some 1 := rfl
          rw [this] at hx
          exact (Option.some.inj hx).symm
        subst this
        have : look sampleMin.heap 1 = some { priority := 3, id := 1 } := rfl
        rw [this] at hnd
        rw [← hr, ← Option.some.inj hnd]
        decide)

section RoundTrip

variable [LinearOrder α]

theorem insert_all_spec : ∀ (l : List (Int × α)) (q : pqueue α), Inv q →
    (∀ x ∈ l, 0 ≤ x.1 ∧ x.1 < (q.cap : Int) ∧ get_priority q x.1 = some none) →
    (l.map Prod.fst).Nodup →
    ∃ q1, insert_all q l = some (q1, true) ∧ Inv q1 ∧ q1.min = q.min ∧ q1.cap = q.cap ∧
      size q1 = size q + l.length ∧
      ∀ nd, Nodes q1.heap (size q1) nd ↔
        ((nd.id, nd.priority) ∈ l ∨ Nodes q.heap (size q) nd) := by
  intro l
  induction l with
  | nil =>
    intro q hq _ _
    exact ⟨q, rfl, hq, rfl, rfl, rfl, fun nd => by simp⟩
  | cons x xs ih =>
    intro q hq hall hnd
    obtain ⟨h0, hN, habs⟩ := hall x (List.mem_cons_self _ _)
    rcases hq.good.id_cases x.1 with ⟨h, _⟩ | ⟨i, hxi, hi, hx, _⟩ | ⟨i, y, nd, _, _, _, _, _, hg⟩
    · omega
    · rw [hxi] at habs h0 hN
      obtain ⟨q2, r1, r2, r3, r4, r5, r6⟩ := insert_ok q hq i x.2 hi hx
      have hnd2 : (xs.map Prod.fst).Nodup := (List.nodup_cons.mp hnd).2
      have hnot : x.1 ∉ xs.map Prod.fst := (List.nodup_cons.mp hnd).1
      have hall2 : ∀ y ∈ xs,
          0 ≤ y.1 ∧ y.1 < (q2.cap : Int) ∧ get_priority q2 y.1 = some none := by
        intro y hy
        obtain ⟨k0, kN, kabs⟩ := hall y (List.mem_cons_of_mem _ hy)
        refine ⟨k0, by rw [r4]; exact kN, ?_⟩
        have hne : y.1 ≠ x.1 := by
          intro e
          exact hnot (List.mem_map.mpr ⟨y, hy, e⟩)
        rw [← kabs]
        apply get_priority_congr hq.good r2.good
        intro p2
        rw [r6]
        constructor
        · rintro (h | h)
          · exact absurd (by rw [hxi]; exact congrArg Node.id h) hne
          · exact h
        · exact Or.inr
      obtain ⟨q3, s1, s2, s3, s4, s5, s6⟩ := ih q2 r2 hall2 hnd2
      refine ⟨q3, ?_, s2, s3.trans r5, s4.trans r4, ?_, ?_⟩
      · simp only [insert_all]
        rw [hxi, r1]
        simp only [Option.some_bind]
        rw [s1]
        rfl
      · rw [s5]
        simp only [size, r3, List.length_cons]
        have := hq.pos
        omega
      · intro nd
        rw [s6, r6, List.mem_cons]
        have hx2 : x = ((i : Int), x.2) := by rw [← hxi]
        constructor
        · rintro (h | h | h)
          · exact Or.inl (Or.inr h)
          · left; left
            rw [h, hx2]
          · exact Or.inr h
        · rintro ((h | h) | h)
          · right; left
            rw [hx2] at h
            cases nd
            simp only [Prod.mk.injEq] at h
            simp [h.1, h.2]
          · exact Or.inl h
          · exact Or.inr (Or.inr h)
    · rw [hg] at habs; cases habs

theorem delete_n_spec : ∀ (k : Nat) (q : pqueue α), Inv q → size q = k →
    ∃ q2, ∃ outs : List (Int × α), delete_n k q = some (q2, outs.map some) ∧ Inv q2 ∧
      size q2 = 0 ∧
      (∀ x : Int × α, x ∈ outs ↔ Nodes q.heap (size q) { priority := x.2, id := x.1 }) ∧
      (outs.map Prod.fst).Nodup ∧
      outs.Pairwise (fun a b => ordLe q.min a.2 b.2) := by
  intro k
  induction k with
  | zero =>
    intro q hq hs
    refine ⟨q, [], rfl, hq, hs, ?_, List.nodup_nil, List.Pairwise.nil⟩
    intro x
    simp only [List.not_mem_nil, false_iff]
    rintro ⟨s, k1, k2, _⟩
    omega
  | succ k ih =>
    intro q hq hs
    have h1 : q.firstEmpty ≠ 1 := by simp only [size] at hs; omega
    obtain ⟨t, i, ht, hid, hidx⟩ := hq.top h1
    obtain ⟨q1, r1, r2, r3, r4, r5, r6⟩ := remove_ok q hq i 1 hidx (by omega)
    have hs1 : size q1 = k := by simp only [size] at hs ⊢; omega
    obtain ⟨q2, outs, s1, s2, s3, s4, s5, s6⟩ := ih q1 r2 hs1
    have htn : Nodes q.heap (size q) t := ⟨1, le_refl _, by omega, ht⟩
    have hteta : ({ priority := t.priority, id := t.id } : Node α) = t := rfl
    refine ⟨q2, (t.id, t.priority) :: outs, ?_, s2, s3, ?_, ?_, ?_⟩
    · simp only [delete_n]
      rw [delete_top_nonempty q t h1 ht, hid, r1]
      simp only [Option.some_bind]
      rw [s1]
      rfl
    · intro x
      rw [List.mem_cons, s4, r6]
      constructor
      · rintro (h | ⟨_, h⟩)
        · rw [h]; exact htn
        · exact h
      · intro h
        by_cases e : x.1 = t.id
        · left
          obtain ⟨s, k1, k2, k3⟩ := h
          have := hq.good.inj k1 k2 (le_refl _) (by omega) k3 ht e
          subst this
          rw [ht] at k3
          have := Option.some.inj k3
          rw [this]
        · right
          exact ⟨by rw [← hid]; exact e, h⟩
    · rw [List.map_cons, List.nodup_cons]
      refine ⟨?_, s5⟩
      intro hmem
      obtain ⟨y, hy, e⟩ := List.mem_map.mp hmem
      have := ((r6 _).mp ((s4 y).mp hy)).1
      exact this (by rw [← hid]; exact e)
    · rw [List.pairwise_cons]
      refine ⟨?_, by rw [← r5]; exact s6⟩
      intro y hy
      obtain ⟨s, k1, k2, k3⟩ := ((r6 _).mp ((s4 y).mp hy)).2
      exact HeapOrd.root_le hq.good hq.ord ht s _ k1 k2 k3

/-- C2: for every capacity `N > 0` and every list of `k ≤ N` pairs with pairwise
distinct identifiers in `[0, N)` and pairwise distinct priorities, inserting the pairs
in the order of the list into a freshly constructed queue succeeds for every pair, the
`k` following calls of `delete_top` all succeed, and the returned pairs are exactly the
inserted pairs in strictly increasing order of priority for a min-heap and in strictly
decreasing order for a max-heap (a permutation of the input that is sorted, hence equal
to the sorted input); one more `delete_top` fails. -/
theorem C2_round_trip (N : Nat) (dir : Bool) (l : List (Int × α)) (_hN : 0 < N)
    (_hk : l.length ≤ N) (hid : (l.map Prod.fst).Nodup)
    (hrange : ∀ x ∈ l, 0 ≤ x.1 ∧ x.1 < (N : Int)) (hpr : (l.map Prod.snd).Nodup) :
    ∃ q1 q2, ∃ outs : List (Int × α), insert_all (construct N dir) l = some (q1, true) ∧
      delete_n l.length q1 = some (q2, outs.map some) ∧
      outs.Perm l ∧
      outs.Pairwise (fun a b => (dir = true → a.2 < b.2) ∧ (dir = false → b.2 < a.2)) ∧
      outs = l.insertionSort (fun a b => ordLe dir a.2 b.2) ∧
      delete_top q2 = some (q2, none) := by
  have i0 : Inv (construct N dir : pqueue α) := Inv.at_construct N dir
  obtain ⟨q1, a1, a2, a3, a4, a5, a6⟩ := insert_all_spec l (construct N dir) i0
    (fun x hx => ⟨(hrange x hx).1, (hrange x hx).2, get_priority_fresh N dir x.1⟩) hid
  have hs1 : size q1 = l.length := by
    rw [a5]
    simp [size, construct]
  obtain ⟨q2, outs, b1, b2, b3, b4, b5, b6⟩ := delete_n_spec l.length q1 a2 hs1
  have hmin : q1.min = dir := a3
  have hmem : ∀ x : Int × α, x ∈ outs ↔ x ∈ l := by
    intro x
    rw [b4, a6]
    constructor
    · rintro (h | ⟨s, k1, k2, _⟩)
      · exact h
      · simp only [size, construct] at k2
        omega
    · exact Or.inl
  have hperm : outs.Perm l :=
    (List.perm_ext_iff_of_nodup (List.Nodup.of_map _ b5) (List.Nodup.of_map _ hid)).mpr hmem
  have hpr2 : (outs.map Prod.snd).Nodup := (hperm.map Prod.snd).nodup_iff.mpr hpr
  have hne : outs.Pairwise (fun a b => a.2 ≠ b.2) := by
    have := List.pairwise_map.mp hpr2
    exact this
  have hstrict : outs.Pairwise (fun a b => ordLt dir a.2 b.2) := by
    rw [hmin] at b6
    refine (b6.and hne).imp ?_
    rintro a b ⟨h1, h2⟩
    by_contra h3
    exact h2 (ordLe_antisymm h1 (ordLe_of_not_ordLt h3))
  have hempty : q2.firstEmpty = 1 := by
    have := b2.pos
    simp only [size] at b3
    omega
  refine ⟨q1, q2, outs, a1, b1, hperm, ?_, ?_, delete_top_empty q2 hempty⟩
  · refine hstrict.imp ?_
    intro a b h
    simp only [ordLt] at h
    constructor
    · intro hd; simpa [hd] using h
    · intro hd; simpa [hd] using h
  · -- the sorted permutation of a list with distinct priorities is unique
    haveI : IsTotal (Int × α) (fun a b => ordLe dir a.2 b.2) :=
      ⟨fun a b => by
        by_cases h : ordLt dir a.2 b.2
        · exact Or.inl (ordLe_of_ordLt h)
        · exact Or.inr (ordLe_of_not_ordLt h)⟩
    haveI : IsTrans (Int × α) (fun a b => ordLe dir a.2 b.2) :=
      ⟨fun _ _ _ h1 h2 => ordLe_trans h1 h2⟩
    haveI : IsAntisymm (Int × α) (fun a b => ordLt dir a.2 b.2) :=
      ⟨fun a b h1 h2 => absurd h2 (not_ordLt_of_ordLe (ordLe_of_ordLt h1))⟩
    have hsort := List.sorted_insertionSort (fun a b : Int × α => ordLe dir a.2 b.2) l
    have hp2 := List.perm_insertionSort (fun a b : Int × α => ordLe dir a.2 b.2) l
    have hpr3 : ((l.insertionSort (fun a b => ordLe dir a.2 b.2)).map Prod.snd).Nodup :=
      (hp2.map Prod.snd).nodup_iff.mpr hpr
    have hne2 : (l.insertionSort (fun a b => ordLe dir a.2 b.2)).Pairwise
        (fun a b => a.2 ≠ b.2) := List.pairwise_map.mp hpr3
    have hstrict2 : (l.insertionSort (fun a b => ordLe dir a.2 b.2)).Pairwise
        (fun a b => ordLt dir a.2 b.2) := by
      refine (List.Pairwise.and hsort hne2).imp ?_
      rintro a b ⟨h1, h2⟩
      by_contra h3
      exact h2 (ordLe_antisymm h1 (ordLe_of_not_ordLt h3))
    exact List.eq_of_perm_of_sorted (hperm.trans hp2.symm) hstrict hstrict2

end RoundTrip

theorem C2_witness :
    ∃ q1 q2, ∃ outs : List (Int × Int),
      insert_all (construct 3 true) [((0 : Int), (5 : Int)), (1, 3), (2, 8)] =
        some (q1, true) ∧
      delete_n [((0 : Int), (5 : Int)), (1, 3), (2, 8)].length q1 = some (q2, outs.map some) ∧
      outs.Perm [((0 : Int), (5 : Int)), (1, 3), (2, 8)] ∧
      outs.Pairwise (fun a b => (true = true → a.2 < b.2) ∧ (true = false → b.2 < a.2)) ∧
      outs = [((0 : Int), (5 : Int)), (1, 3), (2, 8)].insertionSort
        (fun a b => ordLe true a.2 b.2) ∧
      delete_top q2 = some (q2, none) :=
  C2_round_trip 3 true [(0, 5), (1, 3), (2, 8)] (by decide) (by decide) (by decide)
    (by decide) (by decide)

section Claims5

variable [LinearOrder α]

/-- C11: in every reachable state, for a present identifier `id` (in any slot, so also
in a slot that is neither the root nor the last one), `remove_by_id(id)` returns `true`;
afterwards `size()` is one less than before, `get_priority(id)` fails, and
`get_priority(j)` is unchanged for every other identifier `j`. -/
theorem C11_remove_effect (N : Nat) (dir : Bool) (q : pqueue α)
    (hr : Reachable N dir q) (id : Int) (r0 : α)
    (hpres : get_priority q id = some (some r0)) :
    ∃ q2, remove_by_id q id = some (q2, true) ∧ size q2 + 1 = size q ∧
      get_priority q2 id = some none ∧
      ∀ j, j ≠ id → get_priority q2 j = get_priority q j := by
  obtain ⟨hq, _, _⟩ := hr.inv
  rcases hq.good.id_cases id with
    ⟨_, hg⟩ | ⟨i, rfl, _, _, hg⟩ | ⟨i, x, nd, rfl, hi, hx, hx0, _, _⟩
  · rw [hg] at hpres; cases hpres
  · rw [hg] at hpres; cases hpres
  · obtain ⟨q2, r1, r2, r3, _, _, r6⟩ := remove_ok q hq i x hx hx0
    refine ⟨q2, r1, ?_, ?_, ?_⟩
    · have := r2.pos
      simp only [size]
      omega
    · obtain ⟨r, e1, e2⟩ := get_priority_spec r2.good (i : Int)
      rw [e1]
      cases r with
      | none => rfl
      | some p => exact absurd rfl ((r6 _).mp ((e2 p).mp rfl)).1
    · intro j hj
      apply get_priority_congr hq.good r2.good
      intro p2
      rw [r6]
      exact ⟨fun h => h.2, fun h => ⟨hj, h⟩⟩

/-- C12: in every reachable non-empty state, `delete_top` returns `true` with exactly
the pair `(id, p)` that `peek_top` returns in that state, and the state after
`delete_top` is the state after `remove_by_id(id)` on the original state. -/
theorem C12_delete_top_is_remove (N : Nat) (dir : Bool) (q : pqueue α)
    (hr : Reachable N dir q) (hs : 0 < size q) :
    ∃ id p q2, peek_top q = some (some (id, p)) ∧
      delete_top q = some (q2, some (id, p)) ∧ remove_by_id q id = some (q2, true) := by
  obtain ⟨hq, _, _⟩ := hr.inv
  have h1 : q.firstEmpty ≠ 1 := by simp only [size] at hs; omega
  obtain ⟨nd, i, hnd, hid, hidx⟩ := hq.top h1
  obtain ⟨q2, r1, _⟩ := remove_ok q hq i 1 hidx (by omega)
  refine ⟨nd.id, nd.priority, q2, peek_top_nonempty q nd h1 hnd, ?_, by rw [hid]; exact r1⟩
  rw [delete_top_nonempty q nd h1 hnd, hid, r1]
  rfl

/-- C13: in every reachable state `peek_top` and `delete_top` return; `peek_top`
returns `false` exactly when `size() = 0`, `delete_top` returns `false` exactly when
`size() = 0`, and a failing `delete_top` leaves the whole state unchanged (`peek_top`
writes no data member at all). Both fail on a freshly constructed queue. -/
theorem C13_empty_failure (N : Nat) (dir : Bool) (q : pqueue α) (hr : Reachable N dir q) :
    (∃ r, peek_top q = some r ∧ (r = none ↔ size q = 0)) ∧
    (∃ q2 r, delete_top q = some (q2, r) ∧ (r = none ↔ size q = 0) ∧ (r = none → q2 = q)) ∧
    peek_top (construct N dir : pqueue α) = some none ∧
    delete_top (construct N dir : pqueue α) = some (construct N dir, none) := by
  obtain ⟨hq, _, _⟩ := hr.inv
  have hpos := hq.pos
  refine ⟨?_, ?_, peek_top_empty _ rfl, delete_top_empty _ rfl⟩
  · by_cases h1 : q.firstEmpty = 1
    · exact ⟨none, peek_top_empty q h1, by simp [size, h1]⟩
    · obtain ⟨nd, _, hnd, _, _⟩ := hq.top h1
      refine ⟨some (nd.id, nd.priority), peek_top_nonempty q nd h1 hnd, ?_⟩
      constructor
      · intro h; cases h
      · intro h; simp only [size] at h; omega
  · by_cases h1 : q.firstEmpty = 1
    · exact ⟨q, none, delete_top_empty q h1, by simp [size, h1], fun _ => rfl⟩
    · obtain ⟨nd, i, hnd, hid, hidx⟩ := hq.top h1
      obtain ⟨q2, r1, _⟩ := remove_ok q hq i 1 hidx (by omega)
      refine ⟨q2, some (nd.id, nd.priority), ?_, ?_, fun h => by cases h⟩
      · rw [delete_top_nonempty q nd h1 hnd, hid, r1]
        rfl
      · constructor
        · intro h; cases h
        · intro h; simp only [size] at h; omega

/-- C14: `peek_top` writes no data member: from every state (empty or not, reachable
or not) a call that returns leaves the whole state unchanged, so any number of
consecutive calls of `peek_top` end in the same state, and each of them returns the same
success flag and the same pair as the first. -/
theorem C14_peek_top_pure (q : pqueue α) (n : Nat) :
    (∀ q2, Op.run Op.peek_top q = some q2 → q2 = q) ∧
    (∀ r, peek_top q = some r → runOps q (List.replicate n Op.peek_top) = some q) ∧
    (∀ q2, runOps q (List.replicate n Op.peek_top) = some q2 →
      q2 = q ∧ peek_top q2 = peek_top q) := by
  have h1 : ∀ q2, Op.run Op.peek_top q = some q2 → q2 = q := by
    intro q2 h
    simp only [Op.run] at h
    cases hp : peek_top q with
    | none => rw [hp] at h; cases h
    | some r => rw [hp] at h; exact (Option.some.inj h).symm
  refine ⟨h1, ?_, ?_⟩
  · intro r hr
    induction n with
    | zero => rfl
    | succ n ih =>
      simp only [List.replicate_succ, runOps, Op.run, hr, Option.map_some', Option.some_bind]
      exact ih
  · intro q2 h
    induction n with
    | zero =>
      simp only [List.replicate_zero, runOps] at h
      cases h
      exact ⟨rfl, rfl⟩
    | succ n ih =>
      simp only [List.replicate_succ, runOps] at h
      cases hp : Op.run Op.peek_top q with
      | none => rw [hp] at h; cases h
      | some q1 =>
        rw [hp] at h
        have := h1 q1 hp
        subst this
        exact ih h

end Claims5

theorem C11_witness :
    ∃ q2, remove_by_id sampleMin 0 = some (q2, true) ∧ size q2 + 1 = size sampleMin ∧
      get_priority q2 0 = some none ∧
      ∀ j, j ≠ 0 → get_priority q2 j = get_priority sampleMin j :=
  C11_remove_effect 3 true sampleMin sampleMin_reachable 0 5 (by decide)

theorem C12_witness :
    ∃ id p q2, peek_top sampleMax = some (some (id, p)) ∧
      delete_top sampleMax = some (q2, some (id, p)) ∧
      remove_by_id sampleMax id = some (q2, true) :=
  C12_delete_top_is_remove 4 false sampleMax sampleMax_reachable (by decide)

theorem C13_witness :
    (∃ r, peek_top sampleMin = some r ∧ (r = none ↔ size sampleMin = 0)) ∧
    (∃ q2 r, delete_top sampleMin = some (q2, r) ∧ (r = none ↔ size sampleMin = 0) ∧
      (r = none → q2 = sampleMin)) ∧
    peek_top (construct 3 true : pqueue Int) = some none ∧
    delete_top (construct 3 true : pqueue Int) = some (construct 3 true, none) :=
  C13_empty_failure 3 true sampleMin sampleMin_reachable

theorem C14_witness :
    runOps sampleMin (List.replicate 3 Op.peek_top) = some sampleMin :=
  (C14_peek_top_pure sampleMin 3).2.1 (some (1, 3)) (by decide)

theorem heap_set_self (h : List (Option (Node α))) (x : Nat) (nd : Node α)
    (e : look h x = some nd) : h.set x (some nd) = h := by
  apply List.ext_getElem?
  intro k
  rw [List.getElem?_set]
  by_cases c : x = k
  · subst c
    rw [if_pos rfl, if_pos (look_lt e)]
    exact ((look_eq_some h x nd).mp e).symm
  · rw [if_neg c]

section Total

variable [LinearOrder α]

theorem Inv.insert_total {q : pqueue α} (hq : Inv q) (id : Int) (p : α) :
    ∃ r, insert q id p = some r := by
  rcases hq.good.id_cases id with
    ⟨h, _⟩ | ⟨i, rfl, hi, hx, _⟩ | ⟨i, x, nd, rfl, hi, hx, hx0, _, _⟩
  · exact ⟨_, insert_reject q id p h⟩
  · obtain ⟨q2, r1, _⟩ := insert_ok q hq i p hi hx
    exact ⟨_, r1⟩
  · exact ⟨_, insert_present q i p x hi hx hx0⟩

theorem Inv.change_total {q : pqueue α} (hq : Inv q) (id : Int) (p : α) :
    ∃ r, change_priority q id p = some r := by
  rcases hq.good.id_cases id with
    ⟨h, _⟩ | ⟨i, rfl, hi, hx, _⟩ | ⟨i, x, nd, rfl, hi, hx, hx0, _, _⟩
  · exact ⟨_, change_priority_reject q id p h⟩
  · exact ⟨_, change_priority_absent q i p hi hx⟩
  · obtain ⟨q2, r1, _⟩ := change_priority_ok q hq i x p hx hx0
    exact ⟨_, r1⟩

theorem Inv.remove_total {q : pqueue α} (hq : Inv q) (id : Int) :
    ∃ r, remove_by_id q id = some r := by
  rcases hq.good.id_cases id with
    ⟨h, _⟩ | ⟨i, rfl, hi, hx, _⟩ | ⟨i, x, nd, rfl, hi, hx, hx0, _, _⟩
  · exact ⟨_, remove_reject q id h⟩
  · exact ⟨_, remove_absent q i hi hx⟩
  · obtain ⟨q2, r1, _⟩ := remove_ok q hq i x hx hx0
    exact ⟨_, r1⟩

theorem Inv.peek_total {q : pqueue α} (hq : Inv q) : ∃ r, peek_top q = some r := by
  by_cases h1 : q.firstEmpty = 1
  · exact ⟨_, peek_top_empty q h1⟩
  · obtain ⟨nd, _, hnd, _, _⟩ := hq.top h1
    exact ⟨_, peek_top_nonempty q nd h1 hnd⟩

theorem Inv.delete_total {q : pqueue α} (hq : Inv q) : ∃ r, delete_top q = some r := by
  by_cases h1 : q.firstEmpty = 1
  · exact ⟨_, delete_top_empty q h1⟩
  · obtain ⟨nd, i, hnd, hid, hidx⟩ := hq.top h1
    obtain ⟨q2, r1, _⟩ := remove_ok q hq i 1 hidx (by omega)
    refine ⟨(q2, some (nd.id, nd.priority)), ?_⟩
    rw [delete_top_nonempty q nd h1 hnd, hid, r1]
    rfl

theorem Inv.run_total {q : pqueue α} (hq : Inv q) (op : Op α) :
    ∃ q2, op.run q = some q2 := by
  cases op with
  | insert id p =>
    obtain ⟨r, h⟩ := hq.insert_total id p
    exact ⟨r.1, by simp [Op.run, h]⟩
  | change_priority id p =>
    obtain ⟨r, h⟩ := hq.change_total id p
    exact ⟨r.1, by simp [Op.run, h]⟩
  | remove_by_id id =>
    obtain ⟨r, h⟩ := hq.remove_total id
    exact ⟨r.1, by simp [Op.run, h]⟩
  | get_priority id =>
    obtain ⟨r, h, _⟩ := get_priority_spec hq.good id
    exact ⟨q, by simp [Op.run, h]⟩
  | delete_top =>
    obtain ⟨r, h⟩ := hq.delete_total
    exact ⟨r.1, by simp [Op.run, h]⟩
  | peek_top =>
    obtain ⟨r, h⟩ := hq.peek_total
    exact ⟨q, by simp [Op.run, h]⟩
  | capacity => exact ⟨q, rfl⟩
  | size => exact ⟨q, rfl⟩

/-- In a state that satisfies the structural invariant, the two-children test and the
lone-child test of the sift-down code return at every occupied slot. -/
theorem Good.tests_total {q : pqueue α} {n : Nat} (g : Good q n) (hfe : q.firstEmpty = n + 1)
    (m : Bool) (x : Nat) (hx1 : 1 ≤ x) (hxn : x ≤ n) :
    (∃ b, down_test m q x = some b) ∧ (∃ b, lone_test m q x = some b) := by
  obtain ⟨a, _, ha, _, _⟩ := g.slot x hx1 hxn
  constructor
  · by_cases h0 : x * 2 + 1 < q.firstEmpty
    · obtain ⟨l, _, hl, _, _⟩ := g.slot (x * 2) (by omega) (by omega)
      obtain ⟨r, _, hr, _, _⟩ := g.slot (x * 2 + 1) (by omega) (by omega)
      exact ⟨_, down_test_two m q x a l r h0 ha hl hr⟩
    · exact ⟨_, down_test_leaf m q x h0⟩
  · by_cases h0 : x * 2 = q.firstEmpty - 1
    · obtain ⟨l, _, hl, _, _⟩ := g.slot (x * 2) (by omega) (by omega)
      exact ⟨_, lone_test_yes m q x a l h0 ha hl⟩
    · exact ⟨_, lone_test_no m q x h0⟩

end Total

section Claims6

variable [LinearOrder α]

/-- C15: in every reachable state of a queue of capacity `N > 0`, every call of a
public member function with arbitrary arguments returns, that is, no `heap.at` or
`ids.at` of the call is out of range and no null slot is dereferenced. The slots beyond
`size()` are null, so a read through one of them would fail: in particular the
two-children test and the lone-child test of the sift-down code, which guard the reads
of the slots `2 * spot` and `2 * spot + 1`, return at every occupied slot, in both
directions. -/
theorem C15_no_access_fails (N : Nat) (dir : Bool) (q : pqueue α) (_hN : 0 < N)
    (hr : Reachable N dir q) :
    (∀ op : Op α, ∃ q2, op.run q = some q2) ∧
    (∀ id p, ∃ r, insert q id p = some r) ∧
    (∀ id p, ∃ r, change_priority q id p = some r) ∧
    (∀ id, ∃ r, remove_by_id q id = some r) ∧
    (∀ id, ∃ r, get_priority q id = some r) ∧
    (∃ r, delete_top q = some r) ∧
    (∃ r, peek_top q = some r) ∧
    (∀ k, size q < k → heapAt q k = none) ∧
    (∀ spot, 1 ≤ spot → spot ≤ size q →
      (∃ b, down_test_min q spot = some b) ∧ (∃ b, down_test_max q spot = some b) ∧
      (∃ b, lone_test_min q spot = some b) ∧ (∃ b, lone_test_max q spot = some b)) := by
  obtain ⟨hq, _, _⟩ := hr.inv
  have hfe : q.firstEmpty = size q + 1 := by have := hq.pos; simp only [size]; omega
  refine ⟨hq.run_total, hq.insert_total, hq.change_total, hq.remove_total, ?_,
    hq.delete_total, hq.peek_total, ?_, ?_⟩
  · intro id
    obtain ⟨r, h, _⟩ := get_priority_spec hq.good id
    exact ⟨r, h⟩
  · intro k hk
    exact hq.good.empty k (Or.inr hk)
  · intro spot h1 h2
    have t1 := hq.good.tests_total hfe true spot h1 h2
    have t2 := hq.good.tests_total hfe false spot h1 h2
    exact ⟨t1.1, t2.1, t1.2, t2.2⟩

/-- C16 (density invariant): in every reachable state of a queue of capacity `N` the
slot store has `N + 1` slots, the slots that hold an entry are exactly the slots
`1..size()` (slot `0` and the slots above `size()` are null), and `size()` is the number
of identifiers `i` of `[0, N)` for which `get_priority(i)` succeeds. -/
theorem C16_density (N : Nat) (dir : Bool) (q : pqueue α) (hr : Reachable N dir q) :
    q.heap.length = N + 1 ∧
    (∀ s, s ≤ N → ((∃ nd, heapAt q s = some nd) ↔ (1 ≤ s ∧ s ≤ size q))) ∧
    (∀ s, s ≤ N → (s = 0 ∨ size q < s) → heapPtr q s = some none) ∧
    size q = ((Finset.range N).filter
      (fun i : Nat => ((get_priority q (i : Int)).join).isSome = true)).card := by
  obtain ⟨hq, hcap, _⟩ := hr.inv
  have g := hq.good
  have hlen : q.heap.length = N + 1 := by rw [g.heap_len, hcap]
  refine ⟨hlen, ?_, ?_, ?_⟩
  · intro s _
    constructor
    · rintro ⟨nd, hnd⟩
      by_contra hc
      have : s = 0 ∨ size q < s := by omega
      have := g.empty s this
      rw [heapAt_eq_look] at hnd
      rw [hnd] at this
      cases this
    · rintro ⟨h1, h2⟩
      obtain ⟨nd, _, hnd, _, _⟩ := g.slot s h1 h2
      exact ⟨nd, hnd⟩
  · intro s hs hout
    have hn := g.empty s hout
    have hlt : s < q.heap.length := by omega
    simp only [heapPtr]
    simp only [look] at hn
    rw [List.getElem?_eq_getElem hlt] at hn ⊢
    cases hv : q.heap[s] with
    | none => rfl
    | some nd => rw [hv] at hn; cases hn
  · -- the present identifiers are in bijection with the occupied slots
    have hpres : ∀ i : Nat, i < N →
        (((get_priority q (i : Int)).join).isSome = true ↔
          ∃ x, q.ids[i]? = some x ∧ x ≠ 0) := by
      intro i hi
      rw [← hcap] at hi
      obtain ⟨x, hx⟩ := g.ids_total hi
      by_cases hx0 : x = 0
      · subst hx0
        rw [get_priority_absent q i hi hx]
        constructor
        · intro h; cases h
        · rintro ⟨y, hy, hy0⟩
          rw [hx] at hy
          exact absurd (Option.some.inj hy).symm hy0
      · obtain ⟨_, nd, hnd, _⟩ := g.index i x hx hx0
        rw [get_priority_present q i x nd hi hx hx0 hnd]
        exact ⟨fun _ => ⟨x, hx, hx0⟩, fun _ => rfl⟩
    have himg : ((Finset.range N).filter
        (fun i : Nat => ((get_priority q (i : Int)).join).isSome = true)).image
        (fun i => (q.ids[i]?).getD 0) = Finset.Icc 1 (size q) := by
      ext s
      simp only [Finset.mem_image, Finset.mem_filter, Finset.mem_range, Finset.mem_Icc]
      constructor
      · rintro ⟨i, ⟨hi, hp⟩, rfl⟩
        obtain ⟨x, hx, hx0⟩ := (hpres i hi).mp hp
        obtain ⟨hxn, _⟩ := g.index i x hx hx0
        rw [hx]
        simp only [Option.getD_some]
        omega
      · rintro ⟨h1, h2⟩
        obtain ⟨nd, i, _, _, hidx⟩ := g.slot s h1 h2
        have hi : i < N := by
          rw [← hcap, ← g.ids_len]; exact (List.getElem?_eq_some.mp hidx).1
        exact ⟨i, ⟨hi, (hpres i hi).mpr ⟨s, hidx, by omega⟩⟩, by rw [hidx]; rfl⟩
    have hinj : Set.InjOn (fun i => (q.ids[i]?).getD 0)
        (((Finset.range N).filter
          (fun i : Nat => ((get_priority q (i : Int)).join).isSome = true) : Finset Nat) :
          Set Nat) := by
      intro i hi j hj hij
      simp only [Finset.coe_filter, Finset.mem_range, Set.mem_setOf_eq] at hi hj
      obtain ⟨x, hx, hx0⟩ := (hpres i hi.1).mp hi.2
      obtain ⟨y, hy, hy0⟩ := (hpres j hj.1).mp hj.2
      simp only [hx, hy, Option.getD_some] at hij
      subst hij
      obtain ⟨_, nd, hnd, hid⟩ := g.index i x hx hx0
      obtain ⟨_, nd2, hnd2, hid2⟩ := g.index j x hy hy0
      rw [hnd] at hnd2
      have := Option.some.inj hnd2
      subst this
      have : (i : Int) = (j : Int) := by rw [← hid, ← hid2]
      exact_mod_cast this
    have := Finset.card_image_of_injOn hinj
    rw [himg] at this
    simp only [Nat.card_Icc] at this
    omega

/-- C19: in every reachable state of a queue of capacity `N ≥ 0`,
`0 ≤ size() ≤ capacity() = N` and the slot store has `N + 1` slots; whenever the guard
of `insert` lets an identifier through (in range and absent), `firstEmpty ≤ N`, so the
write `heap.at(firstEmpty)` is in range; and a full queue rejects every `insert`. -/
theorem C19_size_le_capacity (N : Nat) (dir : Bool) (q : pqueue α)
    (hr : Reachable N dir q) :
    size q ≤ capacity q ∧ capacity q = N ∧ q.heap.length = N + 1 ∧
    (∀ (id : Int) (p : α), 0 ≤ id → id < (N : Int) → get_priority q id = some none →
      q.firstEmpty ≤ N ∧
      ∃ q1, heapSet q q.firstEmpty (some { priority := p, id := id }) = some q1) ∧
    (size q = N → ∀ (id : Int) (p : α), insert q id p = some (q, false)) := by
  obtain ⟨hq, hcap, _⟩ := hr.inv
  have g := hq.good
  have hpos := hq.pos
  have hlen : q.heap.length = N + 1 := by rw [g.heap_len, hcap]
  refine ⟨g.le_cap, hcap, hlen, ?_, ?_⟩
  · intro id p h0 hN habs
    rcases g.id_cases id with
      ⟨h, _⟩ | ⟨i, rfl, hi, hx, _⟩ | ⟨i, x, nd, rfl, _, _, _, _, hg⟩
    · rw [hcap] at h; omega
    · have hlt := g.lt_cap_of_absent hi hx
      have hfe : q.firstEmpty ≤ N := by
        rw [← hcap]; simp only [size] at hlt; omega
      refine ⟨hfe, ?_⟩
      simp only [heapSet]
      rw [if_pos (by omega)]
      exact ⟨_, rfl⟩
    · rw [hg] at habs; cases habs
  · intro hfull id p
    rcases g.id_cases id with
      ⟨h, _⟩ | ⟨i, rfl, hi, hx, _⟩ | ⟨i, x, nd, rfl, hi, hx, hx0, _, _⟩
    · exact insert_reject q id p h
    · have hlt := g.lt_cap_of_absent hi hx
      omega
    · exact insert_present q i p x hi hx hx0

end Claims6

theorem C15_witness :
    (∀ op : Op Int, ∃ q2, op.run sampleMin = some q2) ∧
    (∀ id p, ∃ r, insert sampleMin id p = some r) ∧
    (∀ id p, ∃ r, change_priority sampleMin id p = some r) ∧
    (∀ id, ∃ r, remove_by_id sampleMin id = some r) ∧
    (∀ id, ∃ r, get_priority sampleMin id = some r) ∧
    (∃ r, delete_top sampleMin = some r) ∧
    (∃ r, peek_top sampleMin = some r) ∧
    (∀ k, size sampleMin < k → heapAt sampleMin k = none) ∧
    (∀ spot, 1 ≤ spot → spot ≤ size sampleMin →
      (∃ b, down_test_min sampleMin spot = some b) ∧
      (∃ b, down_test_max sampleMin spot = some b) ∧
      (∃ b, lone_test_min sampleMin spot = some b) ∧
      (∃ b, lone_test_max sampleMin spot = some b)) :=
  C15_no_access_fails 3 true sampleMin (by decide) sampleMin_reachable

theorem C16_witness :
    sampleMax.heap.length = 4 + 1 ∧
    (∀ s, s ≤ 4 → ((∃ nd, heapAt sampleMax s = some nd) ↔ (1 ≤ s ∧ s ≤ size sampleMax))) ∧
    (∀ s, s ≤ 4 → (s = 0 ∨ size sampleMax < s) → heapPtr sampleMax s = some none) ∧
    size sampleMax = ((Finset.range 4).filter
      (fun i : Nat => ((get_priority sampleMax (i : Int)).join).isSome = true)).card :=
  C16_density 4 false sampleMax sampleMax_reachable

theorem C19_witness :
    size sampleMax ≤ capacity sampleMax ∧ capacity sampleMax = 4 ∧
    sampleMax.heap.length = 4 + 1 ∧
    (∀ (id : Int) (p : Int), 0 ≤ id → id < ((4 : Nat) : Int) →
      get_priority sampleMax id = some none →
      sampleMax.firstEmpty ≤ 4 ∧
      ∃ q1, heapSet sampleMax sampleMax.firstEmpty (some { priority := p, id := id }) =
        some q1) ∧
    (size sampleMax = 4 → ∀ (id : Int) (p : Int),
      insert sampleMax id p = some (sampleMax, false)) :=
  C19_size_le_capacity 4 false sampleMax sampleMax_reachable

section Noop

variable [LinearOrder α]

/-- On a heap-ordered state none of the three tests of `change_priority` fires, and the
state is left as it is. -/
theorem fixup_noop (m : Bool) (n : Nat) (q : pqueue α) (x : Nat) (id : Int)
    (hfe : q.firstEmpty = n + 1) (hx1 : 1 ≤ x) (hxn : x ≤ n) (g : Good q n)
    (ho : HeapOrd m q.heap n) : fixup m q x id = some q := by
  obtain ⟨a, _, ha, _, _⟩ := g.slot x hx1 hxn
  have hup : up_test m q x = some false := by
    by_cases h1 : x = 1
    · subst h1; exact up_test_root m q
    · obtain ⟨b, _, hb, _, _⟩ := g.slot (x / 2) (by omega) (by omega)
      rw [up_test_eq m q x a b h1 ha hb]
      have := not_ordLt_of_ordLe (ho x a b (by omega) hxn trivial ha hb)
      simp [this]
  have hdown : down_test m q x = some false := by
    by_cases h0 : x * 2 + 1 < q.firstEmpty
    · obtain ⟨l, _, hl, _, _⟩ := g.slot (x * 2) (by omega) (by omega)
      obtain ⟨r, _, hr, _, _⟩ := g.slot (x * 2 + 1) (by omega) (by omega)
      rw [down_test_two m q x a l r h0 ha hl hr]
      have k1 := not_ordLt_of_ordLe
        (ho (x * 2) l a (by omega) (by omega) trivial hl
          (by rw [show x * 2 / 2 = x by omega]; exact ha))
      have k2 := not_ordLt_of_ordLe
        (ho (x * 2 + 1) r a (by omega) (by omega) trivial hr
          (by rw [show (x * 2 + 1) / 2 = x by omega]; exact ha))
      simp [k1, k2]
    · exact down_test_leaf m q x h0
  have hlone : lone_test m q x = some false := by
    by_cases h0 : x * 2 = q.firstEmpty - 1
    · obtain ⟨l, _, hl, _, _⟩ := g.slot (x * 2) (by omega) (by omega)
      rw [lone_test_yes m q x a l h0 ha hl]
      have k1 := not_ordLt_of_ordLe
        (ho (x * 2) l a (by omega) (by omega) trivial hl
          (by rw [show x * 2 / 2 = x by omega]; exact ha))
      simp [k1]
    · exact lone_test_no m q x h0
  simp [fixup, hup, hdown, hlone]

theorem change_priority_noop (q : pqueue α) (hq : Inv q) (i x : Nat) (nd : Node α)
    (hx : q.ids[i]? = some x) (hx0 : x ≠ 0) (hnd : look q.heap x = some nd) :
    change_priority q (i : Int) nd.priority = some (q, true) := by
  obtain ⟨hxn, nd2, hnd2, hid⟩ := hq.good.index i x hx hx0
  have hi : i < q.cap := by
    rw [← hq.good.ids_len]; exact (List.getElem?_eq_some.mp hx).1
  have hg : ¬ ((i : Int) ≥ q.cap ∨ (i : Int) < 0) := by omega
  have hfe : q.firstEmpty = size q + 1 := by have := hq.pos; simp only [size]; omega
  have hself : ({ q with heap := q.heap.set x (some { priority := nd.priority, id := nd.id }) } :
      pqueue α) = q := by
    have : ({ priority := nd.priority, id := nd.id } : Node α) = nd := rfl
    rw [this, heap_set_self q.heap x nd hnd]
  rw [change_priority_eq, if_neg hg]
  simp only [idsAt_nat, hx, Option.some_bind, hx0, if_false, setPriority_eq q x nd _ hnd, hself]
  rw [fixup_noop q.min (size q) q x _ hfe (by omega) hxn hq.good hq.ord]
  rfl

/-- C20: in every reachable state, for a present identifier `id` whose current priority
is `r0`, `change_priority(id, r0)` returns `true` and leaves the whole state (slot
layout, priorities, position index, size) exactly as it was; and for every priority `p`,
a second call of `change_priority(id, p)` right after the first returns `true` and
leaves the state reached by the first call unchanged. -/
theorem C20_change_priority_idempotent (N : Nat) (dir : Bool) (q : pqueue α)
    (hr : Reachable N dir q) (id : Int) (r0 : α)
    (hpres : get_priority q id = some (some r0)) :
    change_priority q id r0 = some (q, true) ∧
    ∀ p, ∃ q2, change_priority q id p = some (q2, true) ∧
      change_priority q2 id p = some (q2, true) := by
  obtain ⟨hq, _, _⟩ := hr.inv
  rcases hq.good.id_cases id with
    ⟨_, hg⟩ | ⟨i, rfl, _, _, hg⟩ | ⟨i, x, nd, rfl, hi, hx, hx0, hnd, hg⟩
  · rw [hg] at hpres; cases hpres
  · rw [hg] at hpres; cases hpres
  · rw [hg] at hpres
    have hr0 : nd.priority = r0 := Option.some.inj (Option.some.inj hpres)
    constructor
    · rw [← hr0]
      exact change_priority_noop q hq i x nd hx hx0 hnd
    · intro p
      obtain ⟨q2, r1, r2, _, _, _, r6⟩ := change_priority_ok q hq i x p hx hx0
      refine ⟨q2, r1, ?_⟩
      obtain ⟨s, k1, k2, k3⟩ := (r6 { priority := p, id := (i : Int) }).mpr (Or.inl rfl)
      obtain ⟨j, e1, e2, _⟩ := r2.good.id_of k1 k2 k3
      have : j = i := by
        have : (j : Int) = (i : Int) := e1.symm
        exact_mod_cast this
      subst this
      exact change_priority_noop q2 r2 j s _ e2 (by omega) k3

end Noop

theorem C20_witness :
    change_priority sampleMin 0 5 = some (sampleMin, true) ∧
    ∀ p, ∃ q2, change_priority sampleMin 0 p = some (q2, true) ∧
      change_priority q2 0 p = some (q2, true) :=
  C20_change_priority_idempotent 3 true sampleMin sampleMin_reachable 0 5 (by decide)

theorem idsSet_firstEmpty {q q2 : pqueue α} {i : Int} {v : Nat} (h : idsSet q i v = some q2) :
    q2.firstEmpty = q.firstEmpty := by
  simp only [idsSet] at h
  split_ifs at h
  cases h
  rfl

theorem heapSet_firstEmpty {q q2 : pqueue α} {k : Nat} {v : Option (Node α)}
    (h : heapSet q k v = some q2) : q2.firstEmpty = q.firstEmpty := by
  simp only [heapSet] at h
  split_ifs at h
  cases h
  rfl

section Count

variable [LinearOrder α]

theorem perc_up_count_erase (m : Bool) : ∀ (fuel : Nat) (q : pqueue α) (x : Nat),
    (perc_up_count m fuel q x).map (fun r => (r.1, r.2.1)) = perc_up_loop m fuel q x := by
  intro fuel
  induction fuel with
  | zero => intro q x; cases m <;> rfl
  | succ fuel ih =>
    intro q x
    cases m
    · simp only [perc_up_count, perc_up_loop, perc_up_max_loop, ordLt, Bool.false_eq_true,
        if_false, gt_iff_lt]
      simp only [perc_up_loop] at ih
      split_ifs <;> simp [Option.map_bind, ih, apply_ite, Option.map_map, Function.comp_def]
    · simp only [perc_up_count, perc_up_loop, perc_up_min_loop, ordLt, if_true]
      simp only [perc_up_loop] at ih
      split_ifs <;> simp [Option.map_bind, ih, apply_ite, Option.map_map, Function.comp_def]

theorem perc_down_count_loop_erase (m : Bool) :
    ∀ (fuel : Nat) (q : pqueue α) (x : Nat) (id : Int),
    (perc_down_count_loop m fuel q x id).map (fun r => (r.1, r.2.1)) =
      perc_down_loop m fuel q x id := by
  intro fuel
  induction fuel with
  | zero => intro q x id; cases m <;> rfl
  | succ fuel ih =>
    intro q x id
    cases m
    · simp only [perc_down_count_loop, perc_down_loop, perc_down_max_loop, ordLt,
        Bool.false_eq_true, if_false, gt_iff_lt, down_test]
      simp only [perc_down_loop] at ih
      simp [Option.map_bind, ih, apply_ite, Option.map_map, Function.comp_def]
    · simp only [perc_down_count_loop, perc_down_loop, perc_down_min_loop, ordLt, if_true,
        down_test]
      simp only [perc_down_loop] at ih
      simp [Option.map_bind, ih, apply_ite, Option.map_map, Function.comp_def]

theorem perc_down_count_erase (m : Bool) (q : pqueue α) (x : Nat) (id : Int) :
    (perc_down_count m q x id).map Prod.fst = perc_down m q x id := by
  have h := perc_down_count_loop_erase m (q.firstEmpty + 1) q x id
  cases m
  · simp only [perc_down, perc_down_max, perc_down_count]
    simp only [perc_down_loop] at h
    rw [← h]
    cases perc_down_count_loop false (q.firstEmpty + 1) q x id with
    | none => rfl
    | some r =>
      simp [Option.map_bind, lone_test, apply_ite, Option.map_map, Function.comp_def]
  · simp only [perc_down, perc_down_min, perc_down_count]
    simp only [perc_down_loop] at h
    rw [← h]
    cases perc_down_count_loop true (q.firstEmpty + 1) q x id with
    | none => rfl
    | some r =>
      simp [Option.map_bind, lone_test, apply_ite, Option.map_map, Function.comp_def]

theorem perc_up_count_bound (m : Bool) :
    ∀ (fuel : Nat) (q : pqueue α) (x : Nat) (q1 : pqueue α) (x1 k : Nat),
    perc_up_count m fuel q x = some (q1, x1, k) →
      x1 * 2 ^ k ≤ x ∧ (1 ≤ x → 1 ≤ x1) ∧ (x = 0 → k = 0) := by
  intro fuel
  induction fuel with
  | zero => intro q x q1 x1 k h; cases h
  | succ fuel ih =>
    intro q x q1 x1 k h
    simp only [perc_up_count] at h
    by_cases h0 : x / 2 > 0
    · rw [if_pos h0] at h
      simp only [Option.bind_eq_some] at h
      obtain ⟨a, _, b, _, h⟩ := h
      by_cases hlt : ordLt m a.priority b.priority
      · rw [if_pos hlt] at h
        simp only [Option.bind_eq_some, Option.map_eq_some'] at h
        obtain ⟨_, _, _, _, _, _, _, _, _, _, q3, _, r, hrec, heq⟩ := h
        obtain ⟨q', x', k'⟩ := r
        simp only [Prod.mk.injEq] at heq
        obtain ⟨rfl, rfl, rfl⟩ := heq
        obtain ⟨i1, i2, _⟩ := ih q3 (x / 2) q' x' k' hrec
        refine ⟨?_, fun _ => i2 (by omega), fun h => by omega⟩
        rw [pow_succ, ← mul_assoc]
        omega
      · rw [if_neg hlt] at h
        simp only [Option.some.injEq, Prod.mk.injEq] at h
        obtain ⟨_, rfl, rfl⟩ := h
        simp
    · rw [if_neg h0] at h
      simp only [Option.some.injEq, Prod.mk.injEq] at h
      obtain ⟨_, rfl, rfl⟩ := h
      simp

theorem perc_up_count_log (m : Bool) (fuel : Nat) (q : pqueue α) (x : Nat) (q1 : pqueue α)
    (x1 k : Nat) (h : perc_up_count m fuel q x = some (q1, x1, k)) : k ≤ Nat.log 2 x := by
  obtain ⟨h1, h2, h3⟩ := perc_up_count_bound m fuel q x q1 x1 k h
  by_cases hx : x = 0
  · rw [h3 hx]; exact Nat.zero_le _
  · apply Nat.le_log_of_pow_le (by omega)
    have := h2 (by omega)
    calc 2 ^ k = 1 * 2 ^ k := (Nat.one_mul _).symm
      _ ≤ x1 * 2 ^ k := Nat.mul_le_mul_right _ this
      _ ≤ x := h1

theorem down_test_true (m : Bool) (q : pqueue α) (x : Nat) (h : down_test m q x = some true) :
    x * 2 + 1 < q.firstEmpty := by
  by_contra hc
  rw [down_test_leaf m q x hc] at h
  cases h

theorem lone_test_true (m : Bool) (q : pqueue α) (x : Nat) (h : lone_test m q x = some true) :
    x * 2 = q.firstEmpty - 1 := by
  by_contra hc
  rw [lone_test_no m q x hc] at h
  cases h

theorem perc_down_count_loop_bound (m : Bool) :
    ∀ (fuel : Nat) (q : pqueue α) (x : Nat) (id : Int) (q1 : pqueue α) (x1 k : Nat),
    perc_down_count_loop m fuel q x id = some (q1, x1, k) →
      x * 2 ^ k ≤ x1 ∧ (x1 = x ∨ x1 < q.firstEmpty) ∧ q1.firstEmpty = q.firstEmpty := by
  intro fuel
  induction fuel with
  | zero => intro q x id q1 x1 k h; cases h
  | succ fuel ih =>
    intro q x id q1 x1 k h
    simp only [perc_down_count_loop] at h
    simp only [Option.bind_eq_some] at h
    obtain ⟨c, hc, h⟩ := h
    cases c
    · simp only [Bool.false_eq_true, if_false, Option.some.injEq, Prod.mk.injEq] at h
      obtain ⟨rfl, rfl, rfl⟩ := h
      simp
    · simp only [if_true, Option.bind_eq_some, Option.map_eq_some'] at h
      obtain ⟨l, _, r, _, _, _, qa, ha, qb, hb, _, _, _, _, qc, hcc, qd, hd, rr, hrec, heq⟩ := h
      obtain ⟨q', x', k'⟩ := rr
      simp only [Prod.mk.injEq] at heq
      obtain ⟨rfl, rfl, rfl⟩ := heq
      have hfe : qd.firstEmpty = q.firstEmpty := by
        rw [heapSet_firstEmpty hd, heapSet_firstEmpty hcc, idsSet_firstEmpty hb,
          idsSet_firstEmpty ha]
      have hlt := down_test_true m q x hc
      obtain ⟨i1, i2, i3⟩ := ih qd _ id q' x' k' hrec
      have hsw : x * 2 ≤ (if ordLt m l.priority r.priority then x * 2 else x * 2 + 1) ∧
          (if ordLt m l.priority r.priority then x * 2 else x * 2 + 1) < q.firstEmpty := by
        split_ifs <;> omega
      refine ⟨?_, ?_, by rw [i3, hfe]⟩
      · calc x * 2 ^ (k' + 1) = (x * 2) * 2 ^ k' := by rw [pow_succ]; ring
          _ ≤ (if ordLt m l.priority r.priority then x * 2 else x * 2 + 1) * 2 ^ k' :=
            Nat.mul_le_mul_right _ hsw.1
          _ ≤ x' := i1
      · right
        rw [hfe] at i2
        rcases i2 with e | e
        · rw [e]; exact hsw.2
        · exact e

theorem perc_down_count_log (m : Bool) (q : pqueue α) (x : Nat) (id : Int) (q1 : pqueue α)
    (k : Nat) (hx : 1 ≤ x) (h : perc_down_count m q x id = some (q1, k)) :
    k ≤ Nat.log 2 (size q / x) := by
  simp only [perc_down_count, Option.bind_eq_some] at h
  obtain ⟨⟨qa, xa, ka⟩, hloop, c, hc, h⟩ := h
  obtain ⟨i1, i2, i3⟩ := perc_down_count_loop_bound m _ q x id qa xa ka hloop
  cases c
  · simp only [Bool.false_eq_true, if_false, Option.map_eq_some', Prod.mk.injEq] at h
    obtain ⟨_, _, _, rfl⟩ := h
    by_cases hk : ka = 0
    · rw [hk]; exact Nat.zero_le _
    · apply Nat.le_log_of_pow_le (by omega)
      rw [Nat.le_div_iff_mul_le (by omega)]
      have h2 : 2 ≤ 2 ^ ka := by
        calc 2 = 2 ^ 1 := rfl
          _ ≤ 2 ^ ka := Nat.pow_le_pow_right (by omega) (by omega)
      have h3 : x * 2 ≤ x * 2 ^ ka := Nat.mul_le_mul_left _ h2
      rw [Nat.mul_comm]
      rcases i2 with e | e
      · omega
      · simp only [size]; omega
  · simp only [if_true, Option.bind_eq_some, Option.map_eq_some', Prod.mk.injEq] at h
    obtain ⟨_, _, _, _, _, rfl⟩ := h
    have hl := lone_test_true m qa xa hc
    rw [i3] at hl
    apply Nat.le_log_of_pow_le (by omega)
    rw [Nat.le_div_iff_mul_le (by omega)]
    simp only [size]
    calc 2 ^ (ka + 1) * x = (x * 2 ^ ka) * 2 := by rw [pow_succ]; ring
      _ ≤ xa * 2 := Nat.mul_le_mul_right _ i1
      _ = q.firstEmpty - 1 := hl

end Count

section Claims7

variable [LinearOrder α]

/-- C18: the counted loops are the loops of `perc_up_min`, `perc_up_max`,
`perc_down_min` and `perc_down_max` (erasing the counter gives the member function's
result); from every state a sift-up started at slot `s` executes at most
`floor(log2(s))` swaps, and a sift-down started at slot `s ≥ 1` executes at most
`floor(log2(size() / s))` swaps, the exchange with a lone last child included; and every
public member function returns on every reachable state. -/
theorem C18_sift_within_height (N : Nat) (dir : Bool) (q : pqueue α)
    (hr : Reachable N dir q) :
    (∀ (fuel : Nat) (q0 : pqueue α) (s : Nat),
      (perc_up_count true fuel q0 s).map (fun r => (r.1, r.2.1)) = perc_up_min_loop fuel q0 s ∧
      (perc_up_count false fuel q0 s).map (fun r => (r.1, r.2.1)) =
        perc_up_max_loop fuel q0 s) ∧
    (∀ (q0 : pqueue α) (s : Nat) (id : Int),
      (perc_down_count true q0 s id).map Prod.fst = perc_down_min q0 s id ∧
      (perc_down_count false q0 s id).map Prod.fst = perc_down_max q0 s id) ∧
    (∀ (m : Bool) (fuel : Nat) (q0 : pqueue α) (s : Nat) (q1 : pqueue α) (s1 k : Nat),
      perc_up_count m fuel q0 s = some (q1, s1, k) → k ≤ Nat.log 2 s) ∧
    (∀ (m : Bool) (q0 : pqueue α) (s : Nat) (id : Int) (q1 : pqueue α) (k : Nat),
      1 ≤ s → perc_down_count m q0 s id = some (q1, k) → k ≤ Nat.log 2 (size q0 / s)) ∧
    (∀ op : Op α, ∃ q2, op.run q = some q2) := by
  obtain ⟨hq, _, _⟩ := hr.inv
  refine ⟨?_, ?_, ?_, ?_, hq.run_total⟩
  · intro fuel q0 s
    exact ⟨perc_up_count_erase true fuel q0 s, perc_up_count_erase false fuel q0 s⟩
  · intro q0 s id
    exact ⟨perc_down_count_erase true q0 s id, perc_down_count_erase false q0 s id⟩
  · intro m fuel q0 s q1 s1 k h
    exact perc_up_count_log m fuel q0 s q1 s1 k h
  · intro m q0 s id q1 k hs h
    exact perc_down_count_log m q0 s id q1 k hs h

end Claims7

theorem C18_witness :
    (∀ (fuel : Nat) (q0 : pqueue Int) (s : Nat),
      (perc_up_count true fuel q0 s).map (fun r => (r.1, r.2.1)) = perc_up_min_loop fuel q0 s ∧
      (perc_up_count false fuel q0 s).map (fun r => (r.1, r.2.1)) =
        perc_up_max_loop fuel q0 s) ∧
    (∀ (q0 : pqueue Int) (s : Nat) (id : Int),
      (perc_down_count true q0 s id).map Prod.fst = perc_down_min q0 s id ∧
      (perc_down_count false q0 s id).map Prod.fst = perc_down_max q0 s id) ∧
    (∀ (m : Bool) (fuel : Nat) (q0 : pqueue Int) (s : Nat) (q1 : pqueue Int) (s1 k : Nat),
      perc_up_count m fuel q0 s = some (q1, s1, k) → k ≤ Nat.log 2 s) ∧
    (∀ (m : Bool) (q0 : pqueue Int) (s : Nat) (id : Int) (q1 : pqueue Int) (k : Nat),
      1 ≤ s → perc_down_count m q0 s id = some (q1, k) → k ≤ Nat.log 2 (size q0 / s)) ∧
    (∀ op : Op Int, ∃ q2, op.run sampleMin = some q2) :=
  C18_sift_within_height 3 true sampleMin sampleMin_reachable

/-! ## Mirror image of the two ordering directions -/

@[simp] theorem Node.mapP_id (f : α → α) (nd : Node α) : (Node.mapP f nd).id = nd.id := rfl

@[simp] theorem Node.mapP_priority (f : α → α) (nd : Node α) :
    (Node.mapP f nd).priority = f nd.priority := rfl

@[simp] theorem mirror_firstEmpty (f : α → α) (q : pqueue α) :
    (mirror f q).firstEmpty = q.firstEmpty := rfl

@[simp] theorem mirror_cap (f : α → α) (q : pqueue α) : (mirror f q).cap = q.cap := rfl

@[simp] theorem mirror_min (f : α → α) (q : pqueue α) : (mirror f q).min = !q.min := rfl

theorem heapPtr_mirror (f : α → α) (q : pqueue α) (k : Nat) :
    heapPtr (mirror f q) k = (heapPtr q k).map (Option.map (Node.mapP f)) := by
  simp [heapPtr, mirror, List.getElem?_map]

theorem heapAt_mirror (f : α → α) (q : pqueue α) (k : Nat) :
    heapAt (mirror f q) k = (heapAt q k).map (Node.mapP f) := by
  simp only [heapAt, mirror, List.getElem?_map]
  cases q.heap[k]? with
  | none => rfl
  | some v => cases v <;> rfl

theorem heapSet_mirror (f : α → α) (q : pqueue α) (k : Nat) (v : Option (Node α)) :
    heapSet (mirror f q) k (v.map (Node.mapP f)) = (heapSet q k v).map (mirror f) := by
  simp only [heapSet, mirror, List.length_map]
  split_ifs
  · simp [mirror, List.map_set]
  · rfl

theorem idsAt_mirror (f : α → α) (q : pqueue α) (i : Int) :
    idsAt (mirror f q) i = idsAt q i := rfl

theorem idsSet_mirror (f : α → α) (q : pqueue α) (i : Int) (v : Nat) :
    idsSet (mirror f q) i v = (idsSet q i v).map (mirror f) := by
  simp only [idsSet, mirror]
  split_ifs <;> rfl

theorem lone_swap_mirror (f : α → α) (q : pqueue α) (x : Nat) (id : Int) :
    lone_swap (mirror f q) x id = (lone_swap q x id).map (mirror f) := by
  simp only [lone_swap, heapAt_mirror, heapPtr_mirror, idsSet_mirror, Option.bind_map,
    Function.comp_def, Node.mapP_id, heapSet_mirror, Option.map_bind]

theorem heapSet_mirror_none (f : α → α) (q : pqueue α) (k : Nat) :
    heapSet (mirror f q) k none = (heapSet q k none).map (mirror f) :=
  heapSet_mirror f q k none

theorem mirror_fe_eta (f : α → α) (q : pqueue α) (k : Nat) :
    ({ min := (mirror f q).min, cap := q.cap, firstEmpty := k, heap := (mirror f q).heap,
        ids := (mirror f q).ids } : pqueue α) = mirror f { q with firstEmpty := k } := rfl

theorem setPriority_mirror (f : α → α) (q : pqueue α) (k : Nat) (p : α) :
    setPriority (mirror f q) k (f p) = (setPriority q k p).map (mirror f) := by
  unfold setPriority
  rw [heapAt_mirror]
  cases heapAt q k with
  | none => rfl
  | some nd => exact heapSet_mirror f q k (some { nd with priority := p })

theorem get_priority_mirror (f : α → α) (q : pqueue α) (id : Int) :
    get_priority (mirror f q) id = (get_priority q id).map (Option.map f) := by
  unfold get_priority
  simp only [mirror_cap, idsAt_mirror, heapAt_mirror]
  by_cases hg : id ≥ q.cap ∨ id < 0
  · rw [if_pos hg, if_pos hg]; rfl
  · rw [if_neg hg, if_neg hg]
    cases idsAt q id with
    | none => rfl
    | some spot =>
      simp only [Option.some_bind]
      by_cases hc : spot = 0
      · rw [if_pos hc, if_pos hc]; rfl
      · rw [if_neg hc, if_neg hc]
        cases heapAt q spot with
        | none => rfl
        | some nd => rfl

theorem peek_top_mirror (f : α → α) (q : pqueue α) :
    peek_top (mirror f q) = (peek_top q).map (Option.map fun x => (x.1, f x.2)) := by
  unfold peek_top
  simp only [mirror_firstEmpty, heapAt_mirror]
  by_cases hg : q.firstEmpty = 1
  · rw [if_pos hg, if_pos hg]; rfl
  · rw [if_neg hg, if_neg hg]
    cases heapAt q 1 with
    | none => rfl
    | some nd => rfl

theorem mirror_construct (f : α → α) (N : Nat) :
    mirror f (construct N false : pqueue α) = construct N true := by
  simp [mirror, construct]

section Mirror

variable [LinearOrder α]

theorem perc_up_min_loop_mirror (f : α → α) (hf : ∀ a b : α, a < b ↔ f b < f a) :
    ∀ (fuel : Nat) (q : pqueue α) (x : Nat),
    perc_up_min_loop fuel (mirror f q) x =
      (perc_up_max_loop fuel q x).map (fun r => (mirror f r.1, r.2)) := by
  intro fuel
  induction fuel with
  | zero => intro q x; rfl
  | succ fuel ih =>
    intro q x
    simp only [perc_up_min_loop, perc_up_max_loop, heapAt_mirror, heapPtr_mirror,
      idsSet_mirror, Option.bind_map, Function.comp_def, Node.mapP_id, Node.mapP_priority,
      heapSet_mirror, ih, gt_iff_lt, ← hf]
    simp only [Option.map_bind, Function.comp_def, apply_ite (Option.map _), Option.map_some']

theorem perc_up_max_loop_mirror (f : α → α) (hf : ∀ a b : α, a < b ↔ f b < f a) :
    ∀ (fuel : Nat) (q : pqueue α) (x : Nat),
    perc_up_max_loop fuel (mirror f q) x =
      (perc_up_min_loop fuel q x).map (fun r => (mirror f r.1, r.2)) := by
  intro fuel
  induction fuel with
  | zero => intro q x; rfl
  | succ fuel ih =>
    intro q x
    simp only [perc_up_min_loop, perc_up_max_loop, heapAt_mirror, heapPtr_mirror,
      idsSet_mirror, Option.bind_map, Function.comp_def, Node.mapP_id, Node.mapP_priority,
      heapSet_mirror, ih, gt_iff_lt, ← hf]
    simp only [Option.map_bind, Function.comp_def, apply_ite (Option.map _), Option.map_some']

theorem perc_up_min_mirror (f : α → α) (hf : ∀ a b : α, a < b ↔ f b < f a)
    (q : pqueue α) (x : Nat) (id : Int) :
    perc_up_min (mirror f q) x id = (perc_up_max q x id).map (mirror f) := by
  simp only [perc_up_min, perc_up_max, perc_up_min_loop_mirror f hf, Option.bind_map,
    Function.comp_def, idsSet_mirror, Option.map_bind]

theorem perc_up_max_mirror (f : α → α) (hf : ∀ a b : α, a < b ↔ f b < f a)
    (q : pqueue α) (x : Nat) (id : Int) :
    perc_up_max (mirror f q) x id = (perc_up_min q x id).map (mirror f) := by
  simp only [perc_up_min, perc_up_max, perc_up_max_loop_mirror f hf, Option.bind_map,
    Function.comp_def, idsSet_mirror, Option.map_bind]

theorem up_test_min_mirror (f : α → α) (hf : ∀ a b : α, a < b ↔ f b < f a)
    (q : pqueue α) (x : Nat) : up_test_min (mirror f q) x = up_test_max q x := by
  simp only [up_test_min, up_test_max, heapAt_mirror, Option.bind_map, Function.comp_def,
    Node.mapP_priority, gt_iff_lt, ← hf]

theorem up_test_max_mirror (f : α → α) (hf : ∀ a b : α, a < b ↔ f b < f a)
    (q : pqueue α) (x : Nat) : up_test_max (mirror f q) x = up_test_min q x := by
  simp only [up_test_min, up_test_max, heapAt_mirror, Option.bind_map, Function.comp_def,
    Node.mapP_priority, gt_iff_lt, ← hf]

theorem down_test_min_mirror (f : α → α) (hf : ∀ a b : α, a < b ↔ f b < f a)
    (q : pqueue α) (x : Nat) : down_test_min (mirror f q) x = down_test_max q x := by
  simp only [down_test_min, down_test_max, heapAt_mirror, Option.bind_map, Function.comp_def,
    Node.mapP_priority, gt_iff_lt, ← hf, mirror_firstEmpty]

theorem down_test_max_mirror (f : α → α) (hf : ∀ a b : α, a < b ↔ f b < f a)
    (q : pqueue α) (x : Nat) : down_test_max (mirror f q) x = down_test_min q x := by
  simp only [down_test_min, down_test_max, heapAt_mirror, Option.bind_map, Function.comp_def,
    Node.mapP_priority, gt_iff_lt, ← hf, mirror_firstEmpty]

theorem lone_test_min_mirror (f : α → α) (hf : ∀ a b : α, a < b ↔ f b < f a)
    (q : pqueue α) (x : Nat) : lone_test_min (mirror f q) x = lone_test_max q x := by
  simp only [lone_test_min, lone_test_max, heapAt_mirror, Option.bind_map, Function.comp_def,
    Node.mapP_priority, gt_iff_lt, ← hf, mirror_firstEmpty]

theorem lone_test_max_mirror (f : α → α) (hf : ∀ a b : α, a < b ↔ f b < f a)
    (q : pqueue α) (x : Nat) : lone_test_max (mirror f q) x = lone_test_min q x := by
  simp only [lone_test_min, lone_test_max, heapAt_mirror, Option.bind_map, Function.comp_def,
    Node.mapP_priority, gt_iff_lt, ← hf, mirror_firstEmpty]

theorem perc_down_min_loop_mirror (f : α → α) (hf : ∀ a b : α, a < b ↔ f b < f a) :
    ∀ (fuel : Nat) (q : pqueue α) (x : Nat) (id : Int),
    perc_down_min_loop fuel (mirror f q) x id =
      (perc_down_max_loop fuel q x id).map (fun r => (mirror f r.1, r.2)) := by
  intro fuel
  induction fuel with
  | zero => intro q x id; rfl
  | succ fuel ih =>
    intro q x id
    simp only [perc_down_min_loop, perc_down_max_loop, down_test_min_mirror f hf,
      heapAt_mirror, heapPtr_mirror, idsSet_mirror, Option.bind_map, Function.comp_def,
      Node.mapP_id, Node.mapP_priority, heapSet_mirror, ih, gt_iff_lt, ← hf]
    simp only [Option.map_bind, Function.comp_def, apply_ite (Option.map _), Option.map_some']

theorem perc_down_max_loop_mirror (f : α → α) (hf : ∀ a b : α, a < b ↔ f b < f a) :
    ∀ (fuel : Nat) (q : pqueue α) (x : Nat) (id : Int),
    perc_down_max_loop fuel (mirror f q) x id =
      (perc_down_min_loop fuel q x id).map (fun r => (mirror f r.1, r.2)) := by
  intro fuel
  induction fuel with
  | zero => intro q x id; rfl
  | succ fuel ih =>
    intro q x id
    simp only [perc_down_min_loop, perc_down_max_loop, down_test_max_mirror f hf,
      heapAt_mirror, heapPtr_mirror, idsSet_mirror, Option.bind_map, Function.comp_def,
      Node.mapP_id, Node.mapP_priority, heapSet_mirror, ih, gt_iff_lt, ← hf]
    simp only [Option.map_bind, Function.comp_def, apply_ite (Option.map _), Option.map_some']

theorem perc_down_min_mirror (f : α → α) (hf : ∀ a b : α, a < b ↔ f b < f a)
    (q : pqueue α) (x : Nat) (id : Int) :
    perc_down_min (mirror f q) x id = (perc_down_max q x id).map (mirror f) := by
  simp only [perc_down_min, perc_down_max, perc_down_min_loop_mirror f hf, mirror_firstEmpty,
    Option.bind_map, Function.comp_def, lone_test_min_mirror f hf, lone_swap_mirror,
    idsSet_mirror, Option.map_bind, apply_ite (Option.map _)]

theorem perc_down_max_mirror (f : α → α) (hf : ∀ a b : α, a < b ↔ f b < f a)
    (q : pqueue α) (x : Nat) (id : Int) :
    perc_down_max (mirror f q) x id = (perc_down_min q x id).map (mirror f) := by
  simp only [perc_down_min, perc_down_max, perc_down_max_loop_mirror f hf, mirror_firstEmpty,
    Option.bind_map, Function.comp_def, lone_test_max_mirror f hf, lone_swap_mirror,
    idsSet_mirror, Option.map_bind, apply_ite (Option.map _)]

theorem ins_test_min_mirror (f : α → α) (hf : ∀ a b : α, a < b ↔ f b < f a)
    (q : pqueue α) (p : α) : ins_test_min (mirror f q) (f p) = ins_test_max q p := by
  simp only [ins_test_min, ins_test_max, heapAt_mirror, Option.bind_map, Function.comp_def,
    Node.mapP_priority, gt_iff_lt, ← hf, mirror_firstEmpty, mirror_min, Bool.not_eq_true']

theorem ins_test_max_mirror (f : α → α) (hf : ∀ a b : α, a < b ↔ f b < f a)
    (q : pqueue α) (p : α) : ins_test_max (mirror f q) (f p) = ins_test_min q p := by
  simp only [ins_test_min, ins_test_max, heapAt_mirror, Option.bind_map, Function.comp_def,
    Node.mapP_priority, gt_iff_lt, ← hf, mirror_firstEmpty, mirror_min, Bool.not_eq_false']

/-- The two tests of `insert` exclude each other, so the order in which they are
evaluated does not matter. -/
theorem ins_tests_comm (q : pqueue α) (p : α) (A B C : Option (pqueue α)) :
    ((ins_test_max q p).bind fun up =>
      if up then A else (ins_test_min q p).bind fun up2 => if up2 then B else C) =
    ((ins_test_min q p).bind fun up =>
      if up then B else (ins_test_max q p).bind fun up2 => if up2 then A else C) := by
  rcases Bool.eq_false_or_eq_true q.min with hm | hm
  · have e : ins_test_max q p = some false := by simp [ins_test_max, hm]
    rw [e]
    simp only [Option.some_bind, Bool.false_eq_true, if_false]
  · have e : ins_test_min q p = some false := by simp [ins_test_min, hm]
    rw [e]
    simp only [Option.some_bind, Bool.false_eq_true, if_false]

theorem ins_block_mirror (f : α → α) (hf : ∀ a b : α, a < b ↔ f b < f a)
    (q : pqueue α) (id : Int) (p : α) :
    ((ins_test_min (mirror f q) (f p)).bind fun up =>
      if up then perc_up_min (mirror f q) (mirror f q).firstEmpty id else
      (ins_test_max (mirror f q) (f p)).bind fun up2 =>
      if up2 then perc_up_max (mirror f q) (mirror f q).firstEmpty id
      else some (mirror f q)) =
    ((ins_test_min q p).bind fun up =>
      if up then perc_up_min q q.firstEmpty id else
      (ins_test_max q p).bind fun up2 =>
      if up2 then perc_up_max q q.firstEmpty id else some q).map (mirror f) := by
  rw [ins_test_min_mirror f hf, ins_test_max_mirror f hf, perc_up_min_mirror f hf,
    perc_up_max_mirror f hf, mirror_firstEmpty, ins_tests_comm]
  cases ins_test_min q p with
  | none => rfl
  | some b =>
    cases b
    · simp only [Option.some_bind, Bool.false_eq_true, if_false]
      cases ins_test_max q p with
      | none => rfl
      | some b2 => cases b2 <;> rfl
    · rfl

theorem insert_mirror (f : α → α) (hf : ∀ a b : α, a < b ↔ f b < f a)
    (q : pqueue α) (id : Int) (p : α) :
    insert (mirror f q) id (f p) = (insert q id p).map (fun r => (mirror f r.1, r.2)) := by
  have hs : (some { priority := f p, id := id } : Option (Node α)) =
      Option.map (Node.mapP f) (some { priority := p, id := id }) := rfl
  unfold insert
  rw [hs]
  simp only [mirror_cap, mirror_firstEmpty, idsAt_mirror, heapSet_mirror]
  by_cases hg : id ≥ q.cap ∨ id < 0
  · rw [if_pos hg, if_pos hg]; rfl
  · rw [if_neg hg, if_neg hg]
    cases idsAt q id with
    | none => rfl
    | some cur =>
      simp only [Option.some_bind]
      by_cases hc : cur ≠ 0
      · rw [if_pos hc, if_pos hc]; rfl
      · rw [if_neg hc, if_neg hc]
        cases heapSet q q.firstEmpty (some { priority := p, id := id }) with
        | none => rfl
        | some q1 =>
          simp only [Option.map_some', Option.some_bind, idsSet_mirror, mirror_firstEmpty]
          cases idsSet q1 id q1.firstEmpty with
          | none => rfl
          | some q2 =>
            simp only [Option.map_some', Option.some_bind]
            rw [ins_block_mirror f hf q2 id p]
            cases ((ins_test_min q2 p).bind fun up =>
              if up then perc_up_min q2 q2.firstEmpty id else
              (ins_test_max q2 p).bind fun up2 =>
              if up2 then perc_up_max q2 q2.firstEmpty id else some q2) with
            | none => rfl
            | some q3 => rfl

theorem min_block_mirror (f : α → α) (hf : ∀ a b : α, a < b ↔ f b < f a)
    (q : pqueue α) (x : Nat) (id : Int) :
    ((up_test_min (mirror f q) x).bind fun up =>
      if up then perc_up_min (mirror f q) x id else
      (down_test_min (mirror f q) x).bind fun down =>
      if down then perc_down_min (mirror f q) x id else
      (lone_test_min (mirror f q) x).bind fun lone =>
      if lone then lone_swap (mirror f q) x id else some (mirror f q)) =
    ((up_test_max q x).bind fun up =>
      if up then perc_up_max q x id else
      (down_test_max q x).bind fun down =>
      if down then perc_down_max q x id else
      (lone_test_max q x).bind fun lone =>
      if lone then lone_swap q x id else some q).map (mirror f) := by
  rw [up_test_min_mirror f hf, perc_up_min_mirror f hf, down_test_min_mirror f hf,
    perc_down_min_mirror f hf, lone_test_min_mirror f hf, lone_swap_mirror]
  cases up_test_max q x with
  | none => rfl
  | some b =>
    cases b
    · simp only [Option.some_bind, Bool.false_eq_true, if_false]
      cases down_test_max q x with
      | none => rfl
      | some b2 =>
        cases b2
        · simp only [Option.some_bind, Bool.false_eq_true, if_false]
          cases lone_test_max q x with
          | none => rfl
          | some b3 => cases b3 <;> rfl
        · rfl
    · rfl

theorem max_block_mirror (f : α → α) (hf : ∀ a b : α, a < b ↔ f b < f a)
    (q : pqueue α) (x : Nat) (id : Int) :
    ((up_test_max (mirror f q) x).bind fun up =>
      if up then perc_up_max (mirror f q) x id else
      (down_test_max (mirror f q) x).bind fun down =>
      if down then perc_down_max (mirror f q) x id else
      (lone_test_max (mirror f q) x).bind fun lone =>
      if lone then lone_swap (mirror f q) x id else some (mirror f q)) =
    ((up_test_min q x).bind fun up =>
      if up then perc_up_min q x id else
      (down_test_min q x).bind fun down =>
      if down then perc_down_min q x id else
      (lone_test_min q x).bind fun lone =>
      if lone then lone_swap q x id else some q).map (mirror f) := by
  rw [up_test_max_mirror f hf, perc_up_max_mirror f hf, down_test_max_mirror f hf,
    perc_down_max_mirror f hf, lone_test_max_mirror f hf, lone_swap_mirror]
  cases up_test_min q x with
  | none => rfl
  | some b =>
    cases b
    · simp only [Option.some_bind, Bool.false_eq_true, if_false]
      cases down_test_min q x with
      | none => rfl
      | some b2 =>
        cases b2
        · simp only [Option.some_bind, Bool.false_eq_true, if_false]
          cases lone_test_min q x with
          | none => rfl
          | some b3 => cases b3 <;> rfl
        · rfl
    · rfl

theorem change_priority_mirror (f : α → α) (hf : ∀ a b : α, a < b ↔ f b < f a)
    (q : pqueue α) (id : Int) (p : α) :
    change_priority (mirror f q) id (f p) =
      (change_priority q id p).map (fun r => (mirror f r.1, r.2)) := by
  unfold change_priority
  simp only [mirror_cap, idsAt_mirror, setPriority_mirror]
  by_cases hg : id ≥ q.cap ∨ id < 0
  · rw [if_pos hg, if_pos hg]; rfl
  · rw [if_neg hg, if_neg hg]
    cases idsAt q id with
    | none => rfl
    | some spot =>
      simp only [Option.some_bind]
      by_cases hc : spot = 0
      · rw [if_pos hc, if_pos hc]; rfl
      · rw [if_neg hc, if_neg hc]
        cases setPriority q spot p with
        | none => rfl
        | some q1 =>
          simp only [Option.map_some', Option.some_bind]
          rcases Bool.eq_false_or_eq_true q1.min with hm | hm
          · have h1 : ¬ (mirror f q1).min = true := by simp [hm]
            rw [if_neg h1, if_pos hm, max_block_mirror f hf]
            cases ((up_test_min q1 spot).bind fun up =>
              if up then perc_up_min q1 spot id else
              (down_test_min q1 spot).bind fun down =>
              if down then perc_down_min q1 spot id else
              (lone_test_min q1 spot).bind fun lone =>
              if lone then lone_swap q1 spot id else some q1) with
            | none => rfl
            | some q2 => rfl
          · have h1 : (mirror f q1).min = true := by simp [hm]
            have h2 : ¬ q1.min = true := by simp [hm]
            rw [if_pos h1, if_neg h2, min_block_mirror f hf]
            cases ((up_test_max q1 spot).bind fun up =>
              if up then perc_up_max q1 spot id else
              (down_test_max q1 spot).bind fun down =>
              if down then perc_down_max q1 spot id else
              (lone_test_max q1 spot).bind fun lone =>
              if lone then lone_swap q1 spot id else some q1) with
            | none => rfl
            | some q2 => rfl

theorem remove_by_id_mirror (f : α → α) (hf : ∀ a b : α, a < b ↔ f b < f a)
    (q : pqueue α) (id : Int) :
    remove_by_id (mirror f q) id =
      (remove_by_id q id).map (fun r => (mirror f r.1, r.2)) := by
  unfold remove_by_id
  simp only [mirror_cap, mirror_firstEmpty, idsAt_mirror]
  by_cases hg : id ≥ q.cap ∨ id < 0
  · rw [if_pos hg, if_pos hg]; rfl
  · rw [if_neg hg, if_neg hg]
    cases idsAt q id with
    | none => rfl
    | some spot =>
      simp only [Option.some_bind]
      by_cases hc : spot = 0
      · rw [if_pos hc, if_pos hc]; rfl
      · rw [if_neg hc, if_neg hc]
        by_cases hl : spot = q.firstEmpty - 1
        · rw [if_pos hl, if_pos hl]
          simp only [mirror_fe_eta, idsAt_mirror, heapPtr_mirror, heapSet_mirror_none]
          cases idsAt { q with firstEmpty := q.firstEmpty - 1 } id with
          | none => rfl
          | some k =>
            simp only [Option.some_bind]
            cases heapPtr { q with firstEmpty := q.firstEmpty - 1 } k with
            | none => rfl
            | some v =>
              simp only [Option.map_some', Option.some_bind]
              cases heapSet { q with firstEmpty := q.firstEmpty - 1 } k none with
              | none => rfl
              | some q2 =>
                simp only [Option.map_some', Option.some_bind, idsSet_mirror]
                cases idsSet q2 id 0 with
                | none => rfl
                | some q3 => rfl
        · rw [if_neg hl, if_neg hl]
          simp only [heapAt_mirror, idsSet_mirror]
          cases heapAt q (q.firstEmpty - 1) with
          | none => rfl
          | some last =>
            simp only [Option.map_some', Option.some_bind, Node.mapP_id, Node.mapP_priority]
            cases idsSet q id 0 with
            | none => rfl
            | some q1 =>
              simp only [Option.map_some', Option.some_bind, idsSet_mirror]
              cases idsSet q1 last.id spot with
              | none => rfl
              | some q2 =>
                simp only [Option.map_some', Option.some_bind, heapPtr_mirror,
                  mirror_firstEmpty]
                cases heapPtr q2 spot with
                | none => rfl
                | some v =>
                  simp only [Option.map_some', Option.some_bind]
                  cases heapPtr q2 (q2.firstEmpty - 1) with
                  | none => rfl
                  | some moved =>
                    simp only [Option.map_some', Option.some_bind, heapSet_mirror]
                    cases heapSet q2 spot moved with
                    | none => rfl
                    | some q3 =>
                      simp only [Option.map_some', Option.some_bind, heapSet_mirror_none,
                        mirror_firstEmpty]
                      cases heapSet q3 (q3.firstEmpty - 1) none with
                      | none => rfl
                      | some q4 =>
                        simp only [Option.map_some', Option.some_bind, mirror_firstEmpty,
                          mirror_cap, mirror_fe_eta, change_priority_mirror f hf]
                        cases change_priority { q4 with firstEmpty := q4.firstEmpty - 1 }
                          last.id last.priority with
                        | none => rfl
                        | some r => rfl

theorem delete_top_mirror (f : α → α) (hf : ∀ a b : α, a < b ↔ f b < f a)
    (q : pqueue α) :
    delete_top (mirror f q) =
      (delete_top q).map (fun r => (mirror f r.1, r.2.map fun x => (x.1, f x.2))) := by
  unfold delete_top
  simp only [mirror_firstEmpty, heapAt_mirror]
  by_cases hg : q.firstEmpty = 1
  · rw [if_pos hg, if_pos hg]; rfl
  · rw [if_neg hg, if_neg hg]
    cases heapAt q 1 with
    | none => rfl
    | some nd =>
      simp only [Option.map_some', Option.some_bind, Node.mapP_id, Node.mapP_priority,
        remove_by_id_mirror f hf]
      cases remove_by_id q nd.id with
      | none => rfl
      | some r => rfl

theorem exec_mirror (f : α → α) (hf : ∀ a b : α, a < b ↔ f b < f a)
    (q : pqueue α) (op : Op α) :
    (op.mapP f).exec (mirror f q) =
      (op.exec q).map (fun r => (mirror f r.1, r.2.mapP f)) := by
  cases op with
  | insert id p =>
    simp only [Op.mapP, Op.exec, insert_mirror f hf]
    cases insert q id p <;> rfl
  | change_priority id p =>
    simp only [Op.mapP, Op.exec, change_priority_mirror f hf]
    cases change_priority q id p <;> rfl
  | remove_by_id id =>
    simp only [Op.mapP, Op.exec, remove_by_id_mirror f hf]
    cases remove_by_id q id <;> rfl
  | get_priority id =>
    simp only [Op.mapP, Op.exec, get_priority_mirror]
    cases get_priority q id <;> rfl
  | delete_top =>
    simp only [Op.mapP, Op.exec, delete_top_mirror f hf]
    cases delete_top q <;> rfl
  | peek_top =>
    simp only [Op.mapP, Op.exec, peek_top_mirror]
    cases peek_top q <;> rfl
  | capacity => rfl
  | size => rfl

theorem trace_mirror (f : α → α) (hf : ∀ a b : α, a < b ↔ f b < f a) :
    ∀ (ops : List (Op α)) (q : pqueue α),
    trace (mirror f q) (ops.map (Op.mapP f)) =
      (trace q ops).map (List.map fun r => (mirror f r.1, r.2.mapP f)) := by
  intro ops
  induction ops with
  | nil => intro q; rfl
  | cons op ops ih =>
    intro q
    simp only [List.map_cons, trace, exec_mirror f hf]
    cases op.exec q with
    | none => rfl
    | some r =>
      simp only [Option.map_some', Option.some_bind, ih]
      cases trace r.1 ops with
      | none => rfl
      | some t => rfl

/-- C17: the min mode and the max mode are mirror images. For every totally ordered
priority domain with an order-reversing map `neg`, every capacity `N` and every sequence
of calls of public member functions: the run on a fresh min-heap of the calls with every
priority argument replaced by its `neg` image is, call by call, the mirror image of the
run of the original calls on a fresh max-heap, that is, the same success flags, the same
returned identifiers and numbers, the same identifier in every slot, the same position
index, `firstEmpty` and capacity, and every returned or stored priority is the `neg` image
of the corresponding one. The same holds for one call from any pair of mirrored states,
in both directions. -/
theorem C17_min_max_mirror (neg : α → α) (hneg : ∀ a b : α, a < b ↔ neg b < neg a)
    (N : Nat) (ops : List (Op α)) :
    mirror neg (construct N false : pqueue α) = construct N true ∧
    trace (construct N true) (ops.map (Op.mapP neg)) =
      (trace (construct N false) ops).map
        (List.map fun r => (mirror neg r.1, r.2.mapP neg)) ∧
    (∀ (q : pqueue α) (op : Op α),
      (op.mapP neg).exec (mirror neg q) =
        (op.exec q).map fun r => (mirror neg r.1, r.2.mapP neg)) ∧
    (∀ q : pqueue α, (mirror neg q).ids = q.ids ∧ (mirror neg q).cap = q.cap ∧
      (mirror neg q).firstEmpty = q.firstEmpty ∧ (mirror neg q).min = (!q.min) ∧
      ∀ k, heapAt (mirror neg q) k =
        (heapAt q k).map fun nd => { priority := neg nd.priority, id := nd.id }) := by
  refine ⟨mirror_construct neg N, ?_, ?_, ?_⟩
  · rw [← mirror_construct neg N]
    exact trace_mirror neg hneg ops (construct N false)
  · intro q op
    exact exec_mirror neg hneg q op
  · intro q
    exact ⟨rfl, rfl, rfl, rfl, fun k => heapAt_mirror neg q k⟩

end Mirror

theorem C17_witness :
    mirror (fun a : Int => -a) (construct 3 false : pqueue Int) = construct 3 true ∧
    trace (construct 3 true)
        ([Op.insert 0 5, Op.insert 1 3, Op.insert 2 8, Op.change_priority 1 9, Op.peek_top,
          Op.delete_top, Op.remove_by_id 0, Op.get_priority 1].map
          (Op.mapP fun a : Int => -a)) =
      (trace (construct 3 false)
        [Op.insert 0 5, Op.insert 1 3, Op.insert 2 8, Op.change_priority 1 9, Op.peek_top,
          Op.delete_top, Op.remove_by_id 0, Op.get_priority 1]).map
        (List.map fun r => (mirror (fun a : Int => -a) r.1, r.2.mapP fun a : Int => -a)) ∧
    (∀ (q : pqueue Int) (op : Op Int),
      (op.mapP fun a : Int => -a).exec (mirror (fun a : Int => -a) q) =
        (op.exec q).map fun r => (mirror (fun a : Int => -a) r.1, r.2.mapP fun a : Int => -a)) ∧
    (∀ q : pqueue Int, (mirror (fun a : Int => -a) q).ids = q.ids ∧
      (mirror (fun a : Int => -a) q).cap = q.cap ∧
      (mirror (fun a : Int => -a) q).firstEmpty = q.firstEmpty ∧
      (mirror (fun a : Int => -a) q).min = (!q.min) ∧
      ∀ k, heapAt (mirror (fun a : Int => -a) q) k =
        (heapAt q k).map fun nd => { priority := -nd.priority, id := nd.id }) :=
  C17_min_max_mirror (fun a : Int => -a) (fun a b => show a < b ↔ -b < -a by omega) 3
    [Op.insert 0 5, Op.insert 1 3, Op.insert 2 8, Op.change_priority 1 9, Op.peek_top,
      Op.delete_top, Op.remove_by_id 0, Op.get_priority 1]

end PQueue
